import Mathlib

/-! # Minesweeper (`project3.cpp`): verification of the game core

A shallow embedding of the board logic of `project3.cpp` and theorems about it.

Modelling conventions.

* `vector<vector<T>>` is a `List (List T)`, indexed `[x][y]` exactly as in the source
  (outer index = column `x`, inner index = row `y`).  `resize` and `clear` are
  modelled explicitly.  Reads are total (`at2`, a default outside the stored range)
  and writes outside the stored range are dropped (`set2`); the predicate
  `Board.WF` states the class invariant under which every read and write of
  the source is in range (all three tables are `columns × rows`).
* `int` fields that may become negative (`mines`, `flagsPlaced`, the number on a tile,
  cell coordinates) are `Int`; `columns` and `rows` are `Nat`, since a negative dimension
  makes `grid.resize` fail before a session exists.  No arithmetic of the core can
  overflow on a board that fits in memory, so no wrap-around is modelled.
* `rand()` is an explicit list of raw samples, one pair per loop iteration of
  `placeMines`; `none` means the loop did not finish on these samples.
* The textures, sprites and window of the source are presentation and are not modelled.
  The handlers take the cell indices computed at lines 590-591 / 647-648.
-/

namespace Minesweeper

/-! ## Tiles -/

/-- The possible states of a tile (`enum class TileState`). -/
inductive TileState where
  | Hidden
  | Revealed
  | Number
  | Flag
  | Mine
deriving DecidableEq

/-- The game-relevant fields of `class Tile`. -/
structure Tile where
  state : TileState
  number : Int
deriving DecidableEq

/-- The constructor `Tile::Tile()`: state `Hidden`, number `0`. -/
def Tile.new : Tile := ⟨TileState.Hidden, 0⟩

instance : Inhabited Tile := ⟨Tile.new⟩

/-- The method `Tile::setState(newState, newNumber)`; callers that omit the number pass `0`. -/
def Tile.setState (t : Tile) (newState : TileState) (newNumber : Int) : Tile :=
  { t with state := newState, number := newNumber }

/-- The method `Tile::getState()`. -/
def Tile.getState (t : Tile) : TileState := t.state

/-! ## Two-dimensional vectors -/

/-- The call `v.resize(n, val)`: keeps the first `n` elements, pads with copies of `val`. -/
def resize {α : Type} (v : List α) (n : Nat) (val : α) : List α :=
  v.take n ++ List.replicate (n - v.length) val

/-- The read `g[x][y]`. -/
def at2 {α : Type} [Inhabited α] (g : List (List α)) (x y : Nat) : α :=
  (g.getD x []).getD y default

/-- The write `g[x][y] = v`. -/
def set2 {α : Type} (g : List (List α)) (x y : Nat) (v : α) : List (List α) :=
  g.set x ((g.getD x []).set y v)

/-- The loop nest `for (i = 0; i < n; ++i) for (j = 0; j < m; ++j) body(i, j)`. -/
def forXY {σ : Type} (n m : Nat) (body : Nat → Nat → σ → σ) (s : σ) : σ :=
  (List.range n).foldl (fun s i => (List.range m).foldl (fun s j => body i j s) s) s

/-- A table has `n` columns of `m` entries each. -/
def Dims {α : Type} (g : List (List α)) (n m : Nat) : Prop :=
  g.length = n ∧ ∀ col ∈ g, col.length = m

/-! ## The board -/

/-- The struct `ConfigValues`. -/
structure ConfigValues where
  columns : Nat
  rows : Nat
  mines : Int

/-- The game-relevant fields of `class Board`. -/
structure Board where
  columns : Nat
  rows : Nat
  mines : Int
  originalMines : Int
  flagsPlaced : Int
  gameWon : Bool
  gameLost : Bool
  isDebugMode : Bool
  grid : List (List Tile)
  hasMine : List (List Bool)
  adjacentMineCounts : List (List Int)
deriving DecidableEq

/-- The class invariant: the three tables are `columns × rows`. -/
structure Board.WF (b : Board) : Prop where
  grid : Dims b.grid b.columns b.rows
  hasMine : Dims b.hasMine b.columns b.rows
  adjacentMineCounts : Dims b.adjacentMineCounts b.columns b.rows

/-- The bounds test `x >= 0 && x < columns && y >= 0 && y < rows`. -/
def Board.inBounds (b : Board) (x y : Int) : Prop :=
  0 ≤ x ∧ x < (b.columns : Int) ∧ 0 ≤ y ∧ y < (b.rows : Int)

instance (b : Board) (x y : Int) : Decidable (b.inBounds x y) := by
  unfold Board.inBounds; infer_instance

/-- The read `grid[x][y]` at signed indices. -/
def Board.tile (b : Board) (x y : Int) : Tile := at2 b.grid x.toNat y.toNat

/-- The read `hasMine[x][y]` at signed indices. -/
def Board.mine (b : Board) (x y : Int) : Bool := at2 b.hasMine x.toNat y.toNat

/-- The read `adjacentMineCounts[x][y]` at signed indices. -/
def Board.adj (b : Board) (x y : Int) : Int := at2 b.adjacentMineCounts x.toNat y.toNat

/-- The write `grid[x][y].setState(s, n)` at signed indices. -/
def Board.setTile (b : Board) (x y : Int) (s : TileState) (n : Int) : Board :=
  { b with grid := set2 b.grid x.toNat y.toNat ((b.tile x y).setState s n) }

/-- The values taken by `dx` and by `dy` in `for (int dx = -1; dx <= 1; ++dx)`. -/
def offsets : List Int := [-1, 0, 1]

/-- The method `Board::getMineCount` (lines 459-473). -/
def Board.getMineCount (b : Board) (x y : Int) : Int :=
  offsets.foldl (fun count dx =>
    offsets.foldl (fun count dy =>
      if b.inBounds (x + dx) (y + dy) ∧ b.mine (x + dx) (y + dy) = true then count + 1
      else count) count) 0

/-- The method `Board::getRemainingMines` (lines 475-478). -/
def Board.getRemainingMines (b : Board) : Int := b.mines - b.flagsPlaced

/-- The method `Board::isMine` (lines 481-483). -/
def Board.isMine (b : Board) (x y : Int) : Bool :=
  decide ((b.tile x y).getState = TileState.Mine)

/-- The method `Board::initializeBoard` (lines 374-381): every tile is set to `Hidden`. -/
def Board.initializeBoard (b : Board) : Board :=
  { b with
    grid := (forXY b.rows b.columns
      (fun y x g => set2 g x y ((at2 g x y).setState TileState.Hidden 0)) b.grid) }

/-- The loop of `Board::placeMines` (lines 423-431); each iteration consumes one pair of
`rand()` results.  `rand() % 0` has no defined result and is a failure. -/
def placeMinesLoop (columns rows : Nat) :
    List (Nat × Nat) → List (List Bool) → Int → Option (List (List Bool))
  | [], hm, minesToPlace => if minesToPlace > 0 then none else some hm
  | r :: rs, hm, minesToPlace =>
    if minesToPlace > 0 then
      if columns = 0 ∨ rows = 0 then none
      else if at2 hm (r.1 % columns) (r.2 % rows) = false then
        placeMinesLoop columns rows rs (set2 hm (r.1 % columns) (r.2 % rows) true)
          (minesToPlace - 1)
      else placeMinesLoop columns rows rs hm minesToPlace
    else some hm

/-- The method `Board::placeMines` (lines 417-432). -/
def Board.placeMines (b : Board) (rs : List (Nat × Nat)) : Option Board :=
  (placeMinesLoop b.columns b.rows rs
      (resize b.hasMine b.columns (List.replicate b.rows false)) b.mines).map
    (fun hm => { b with hasMine := hm })

/-- The method `Board::countAdjacentMines` (lines 435-446). -/
def Board.countAdjacentMines (b : Board) : Board :=
  { b with
    adjacentMineCounts := (forXY b.columns b.rows
      (fun x y a => if at2 b.hasMine x y = false then set2 a x y (b.getMineCount x y) else a)
      (resize b.adjacentMineCounts b.columns (List.replicate b.rows 0))) }

/-- The method `Board::revealAllMinesFlags` (lines 668-680). -/
def Board.revealAllMinesFlags (b : Board) (a : Int) : Board :=
  { b with
    grid := (forXY b.columns b.rows
      (fun x y g =>
        if at2 b.hasMine x y = true ∧ a = 1 then
          set2 g x y ((at2 g x y).setState TileState.Mine 0)
        else if at2 b.hasMine x y = true ∧ a = 0 then
          set2 g x y ((at2 g x y).setState TileState.Flag 0)
        else g) b.grid) }

/-- The method `Board::hideAllMines` (lines 325-334). -/
def Board.hideAllMines (b : Board) : Board :=
  { b with
    grid := (forXY b.columns b.rows
      (fun x y g =>
        if at2 b.hasMine x y = true then set2 g x y ((at2 g x y).setState TileState.Hidden 0)
        else g) b.grid) }

/-- The method `Board::revealEmptyTiles` (lines 486-513).  The recursion depth is bounded by
`fuel`; `none` means the bound was reached. -/
def Board.revealEmptyTilesFuel : Nat → Board → Int → Int → Option Board
  | 0, _, _, _ => none
  | fuel + 1, b, x, y =>
    if x < 0 ∨ x ≥ (b.columns : Int) ∨ y < 0 ∨ y ≥ (b.rows : Int) ∨
        (b.tile x y).getState ≠ TileState.Hidden then
      some b
    else if (b.tile x y).getState = TileState.Hidden then
      let b1 := b.setTile x y TileState.Revealed (b.adj x y)
      if b1.getMineCount x y = 0 then
        offsets.foldlM (fun acc dx =>
          offsets.foldlM (fun acc dy =>
            if acc.inBounds (x + dx) (y + dy) ∧ acc.mine (x + dx) (y + dy) = false then
              Board.revealEmptyTilesFuel fuel acc (x + dx) (y + dy)
            else some acc) acc) b1
      else some b1
    else some b

/-- The call `revealEmptyTiles(x, y)`: one more level than there are cells always suffices
(`revealEmptyTiles_isSome`). -/
def Board.revealEmptyTiles (b : Board) (x y : Int) : Option Board :=
  b.revealEmptyTilesFuel (b.columns * b.rows + 1) x y

/-- The counter `revealedTiles` of lines 619-629. -/
def Board.revealedTiles (b : Board) : Int :=
  forXY b.columns b.rows
    (fun i j revealedTiles =>
      if at2 b.hasMine i j = false ∧
          ((at2 b.grid i j).getState = TileState.Revealed ∨
            (at2 b.grid i j).getState = TileState.Flag) then revealedTiles + 1
      else revealedTiles) 0

/-- The win check of lines 618-635, run on the board after the reveal. -/
def Board.checkWin (b : Board) : Board :=
  if b.revealedTiles = (b.columns : Int) * (b.rows : Int) - b.mines then
    ({ b with gameWon := true }).revealAllMinesFlags 0
  else b

/-- The grid branch of `Board::handleLeftClick` (lines 593-638), at cell `(x, y)`. -/
def Board.handleLeftClick (b : Board) (x y : Int) : Option Board :=
  if b.inBounds x y then
    if b.gameWon = true ∨ b.gameLost = true then some b
    else if (b.tile x y).getState = TileState.Hidden then
      if b.mine x y = true then
        some { (b.setTile x y TileState.Mine 0).revealAllMinesFlags 1 with gameLost := true }
      else
        (if b.getMineCount x y = 0 then b.revealEmptyTiles x y
         else some (b.setTile x y TileState.Revealed (b.adj x y))).map Board.checkWin
    else some b
  else some b

/-- The method `Board::handleRightClick` (lines 642-665), at cell `(x, y)`. -/
def Board.handleRightClick (b : Board) (x y : Int) : Board :=
  if b.gameWon = true ∨ b.gameLost = true then b
  else if b.inBounds x y then
    if (b.tile x y).getState = TileState.Hidden then
      { b.setTile x y TileState.Flag 0 with flagsPlaced := b.flagsPlaced + 1 }
    else if (b.tile x y).getState = TileState.Flag then
      { b.setTile x y TileState.Hidden 0 with flagsPlaced := b.flagsPlaced - 1 }
    else b
  else b

/-- The method `Board::reset` (lines 682-706). -/
def Board.reset (b : Board) (rs : List (Nat × Nat)) : Option Board :=
  let b1 : Board :=
    { b with
      flagsPlaced := 0, gameWon := false, gameLost := false, mines := b.originalMines,
      grid := resize [] b.columns (List.replicate b.rows Tile.new),
      hasMine := resize [] b.columns (List.replicate b.rows false),
      adjacentMineCounts := [] }
  (b1.initializeBoard.placeMines rs).map Board.countAdjacentMines

/-- The constructor `Board::Board` (lines 269-294). -/
def Board.create (config : ConfigValues) (rs : List (Nat × Nat)) : Option Board :=
  let b0 : Board :=
    { columns := config.columns, rows := config.rows, mines := config.mines,
      originalMines := config.mines, flagsPlaced := 0, gameWon := false, gameLost := false,
      isDebugMode := false,
      grid := resize [] config.columns (List.replicate config.rows Tile.new),
      hasMine := [], adjacentMineCounts := [] }
  (b0.initializeBoard.placeMines rs).map Board.countAdjacentMines

/-- The read `boardLayout[y][x]`; `none` outside the stored range. -/
def layoutAt (boardLayout : List (List Bool)) (y x : Nat) : Option Bool :=
  (boardLayout[y]?).bind (fun row => row[x]?)

/-- The body of the loop of lines 398-410 on the pair (`hasMine`, `mineCount`). -/
def layoutStep (boardLayout : List (List Bool)) (y x : Nat)
    (s : Option (List (List Bool) × Int)) : Option (List (List Bool) × Int) :=
  match s with
  | none => none
  | some (hm, mineCount) =>
    match layoutAt boardLayout y x with
    | none => none
    | some true => some (set2 hm x y true, mineCount + 1)
    | some false => some (set2 hm x y false, mineCount)

/-- The method `Board::initializeBoardFromLayout` (lines 384-414); `none` when the layout is
read outside its stored range. -/
def Board.initializeBoardFromLayout (b : Board) (boardLayout : List (List Bool)) :
    Option Board :=
  let b1 := b.initializeBoard
  (forXY b.rows b.columns (layoutStep boardLayout)
      (some (resize b1.hasMine b.columns (List.replicate b.rows false), 0))).map
    (fun s => { ({ b1 with hasMine := s.1 }).countAdjacentMines with mines := s.2 })

/-- The face-button branch of `Board::handleLeftClick` (lines 517-523). -/
def Board.handleFaceClick (b : Board) (rs : List (Nat × Nat)) : Option Board :=
  (b.reset rs).map (fun b1 => { b1 with isDebugMode := false })

/-- The debug-button branch of `Board::handleLeftClick` (lines 525-543). -/
def Board.handleDebugClick (b : Board) : Board :=
  if b.gameWon = true ∨ b.gameLost = true then b
  else if (!b.isDebugMode) = true then
    ({ b with isDebugMode := !b.isDebugMode }).revealAllMinesFlags 1
  else ({ b with isDebugMode := !b.isDebugMode }).hideAllMines

/-- A test-board branch of `Board::handleLeftClick` (lines 545-588) once `readBoardFile`
succeeded with `boardLayout`. -/
def Board.handleTestClick (b : Board) (rs : List (Nat × Nat))
    (boardLayout : List (List Bool)) : Option Board :=
  (b.reset rs).bind (fun b1 => b1.initializeBoardFromLayout boardLayout)

/-! ## Specification vocabulary and proof vocabulary -/

/-- The nine cells scanned around `(x, y)`, in the order of the two `for` loops. -/
def block9 (x y : Int) : List (Int × Int) :=
  [(x + -1, y + -1), (x + -1, y + 0), (x + -1, y + 1),
   (x + 0, y + -1), (x + 0, y + 0), (x + 0, y + 1),
   (x + 1, y + -1), (x + 1, y + 0), (x + 1, y + 1)]

/-- One iteration of the inner loop of `revealEmptyTiles`. -/
def Board.visit (fuel : Nat) (acc : Board) (p : Int × Int) : Option Board :=
  if acc.inBounds p.1 p.2 ∧ acc.mine p.1 p.2 = false then
    Board.revealEmptyTilesFuel fuel acc p.1 p.2
  else some acc

/-- The board `b` with its tile table replaced by `g`. -/
def Board.withGrid (b : Board) (g : List (List Tile)) : Board := { b with grid := g }

/-- The tile of a tile table at signed indices. -/
def tileAt (g : List (List Tile)) (c : Int × Int) : Tile := at2 g c.1.toNat c.2.toNat

/-- One step of the flood fill seen from the original tile table `g`: from a concealed,
hazard-free, in-bounds cell with no hazard around it to an in-bounds cell of its 3×3 block. -/
def blockStep (S : Board) (g : List (List Tile)) (u v : Int × Int) : Prop :=
  S.inBounds u.1 u.2 ∧ (tileAt g u).getState = TileState.Hidden ∧ S.mine u.1 u.2 = false ∧
    S.getMineCount u.1 u.2 = 0 ∧ v ∈ block9 u.1 u.2 ∧ S.inBounds v.1 v.2

/-- Every in-bounds tile of `g'` is the tile of `g`, or was concealed and is now revealed
with its stored count. -/
def GExt (S : Board) (g g' : List (List Tile)) : Prop :=
  Dims g' S.columns S.rows ∧
    ∀ c : Int × Int, S.inBounds c.1 c.2 →
      tileAt g' c = tileAt g c ∨
        ((tileAt g c).getState = TileState.Hidden ∧
          tileAt g' c = ⟨TileState.Revealed, S.adj c.1 c.2⟩)

/-- The cell `c` was concealed in `g` and is not concealed in `g'`. -/
def Changed (S : Board) (g g' : List (List Tile)) (c : Int × Int) : Prop :=
  S.inBounds c.1 c.2 ∧ (tileAt g c).getState = TileState.Hidden ∧
    (tileAt g' c).getState ≠ TileState.Hidden

/-- Every cell opened between `g` and `g'` that has no hazard around it has its whole
hazard-free 3×3 block opened in `g'`. -/
def Closed (S : Board) (g g' : List (List Tile)) : Prop :=
  ∀ u, Changed S g g' u → S.getMineCount u.1 u.2 = 0 →
    ∀ v ∈ block9 u.1 u.2, S.inBounds v.1 v.2 → S.mine v.1 v.2 = false →
      (tileAt g' v).getState ≠ TileState.Hidden

/-- The tile table after line 496 at cell `c`. -/
def openAt (S : Board) (g : List (List Tile)) (c : Int × Int) : List (List Tile) :=
  set2 g c.1.toNat c.2.toNat ⟨TileState.Revealed, S.adj c.1 c.2⟩

/-- What a run of the flood fill started at the cells `roots` on the tile table `g` achieves. -/
def RevealSpec (S : Board) (g : List (List Tile)) (roots : List (Int × Int)) (b' : Board) :
    Prop :=
  ∃ g', b' = S.withGrid g' ∧ GExt S g g' ∧
    (∀ p ∈ roots, S.inBounds p.1 p.2 → S.mine p.1 p.2 = false →
      (tileAt g' p).getState ≠ TileState.Hidden) ∧
    Closed S g g' ∧
    (∀ u, Changed S g g' u → S.mine u.1 u.2 = false ∧
      ∃ p ∈ roots, S.inBounds p.1 p.2 ∧ S.mine p.1 p.2 = false ∧
        Relation.ReflTransGen (blockStep S g) p u)

/-- All cells of an `n × m` board. -/
def allCells (n m : Nat) : List (Nat × Nat) := List.product (List.range n) (List.range m)

/-- The number of concealed cells of a tile table. -/
def hiddenCount (S : Board) (g : List (List Tile)) : Nat :=
  (allCells S.columns S.rows).countP
    (fun c => decide ((at2 g c.1 c.2).getState = TileState.Hidden))

/-- The cells `u` and `v` are distinct and touch by a side or a corner. -/
def adjacent8 (u v : Int × Int) : Prop :=
  u ≠ v ∧ u.1 - 1 ≤ v.1 ∧ v.1 ≤ u.1 + 1 ∧ u.2 - 1 ≤ v.2 ∧ v.2 ≤ u.2 + 1

/-- One step of a flood path on the board `b`: `u` is an in-bounds, concealed, hazard-free
cell with `getMineCount` zero, and `v` is an in-bounds cell 8-adjacent to `u`. -/
def Board.floodStep (b : Board) (u v : Int × Int) : Prop :=
  b.inBounds u.1 u.2 ∧ (b.tile u.1 u.2).getState = TileState.Hidden ∧ b.mine u.1 u.2 = false ∧
    b.getMineCount u.1 u.2 = 0 ∧ adjacent8 u v ∧ b.inBounds v.1 v.2

/-- The flood region of the start cell `s`: `c` is concealed and hazard-free and is the end
of a path of flood steps that starts at `s` (the empty path ends at `s` itself). -/
def Board.floodRegion (b : Board) (s c : Int × Int) : Prop :=
  (b.tile c.1 c.2).getState = TileState.Hidden ∧ b.mine c.1 c.2 = false ∧
    ∃ path : List (Int × Int),
      List.Chain b.floodStep s path ∧ (s :: path).getLast (List.cons_ne_nil s path) = c

/-- The number of hazard cells of the board. -/
def Board.hazardCount (b : Board) : Nat :=
  (allCells b.columns b.rows).countP (fun c => at2 b.hasMine c.1 c.2)

/-- The board after the reveal of lines 609-617, before the win check. -/
def Board.revealAt (b : Board) (x y : Int) : Option Board :=
  if b.getMineCount x y = 0 then b.revealEmptyTiles x y
  else some (b.setTile x y TileState.Revealed (b.adj x y))

/-- The number of `true` entries of a `columns × rows` table. -/
def mineCountOf (columns rows : Nat) (hm : List (List Bool)) : Nat :=
  (allCells columns rows).countP (fun c => at2 hm c.1 c.2)

/-- The cell hit by a pair of raw `rand()` results (lines 424-425). -/
def sampleCell (columns rows : Nat) (r : Nat × Nat) : Nat × Nat := (r.1 % columns, r.2 % rows)

/-- The number of distinct cells hit by the samples `rs`. -/
def distinctCells (columns rows : Nat) (rs : List (Nat × Nat)) : Nat :=
  ((rs.map (sampleCell columns rows)).dedup).length

/-- The number of distinct sampled cells that are still clear in `hm`. -/
def freshCells (n m : Nat) (rs : List (Nat × Nat)) (hm : List (List Bool)) : Nat :=
  (((rs.map (sampleCell n m)).toFinset).filter (fun c => at2 hm c.1 c.2 = false)).card

/-- The eight neighbours of `(x, y)`. -/
def neighbours8 (x y : Int) : List (Int × Int) :=
  [(x - 1, y - 1), (x - 1, y), (x - 1, y + 1), (x, y - 1), (x, y + 1),
   (x + 1, y - 1), (x + 1, y), (x + 1, y + 1)]

/-- The number of in-bounds 8-neighbours of `(x, y)` that hold a hazard. -/
def Board.neighbourHazards (b : Board) (x y : Int) : Nat :=
  (neighbours8 x y).countP (fun p => decide (b.inBounds p.1 p.2) && b.mine p.1 p.2)

/-- The board on which `reset` runs `initializeBoard`, `placeMines` and
`countAdjacentMines` (lines 684-698). -/
def Board.resetStart (b : Board) : Board :=
  { b with
    flagsPlaced := 0, gameWon := false, gameLost := false, mines := b.originalMines,
    grid := resize [] b.columns (List.replicate b.rows Tile.new),
    hasMine := resize [] b.columns (List.replicate b.rows false),
    adjacentMineCounts := [] }

/-- The number of `true` entries of a layout. -/
def layoutMines (boardLayout : List (List Bool)) : Nat :=
  (boardLayout.map (fun row => row.count true)).sum

/-- The layout is a `rows × columns` matrix. -/
def RectLayout (boardLayout : List (List Bool)) (rows columns : Nat) : Prop :=
  boardLayout.length = rows ∧ ∀ row ∈ boardLayout, row.length = columns

/-- The states a session can be in: the state built by the constructor, and every state
obtained from a session state by a primary action, a secondary action, a debug toggle, a
click on the face (reset) or the load of a rectangular test board. -/
inductive Reachable : Board → Prop
  | create (config : ConfigValues) (rs : List (Nat × Nat)) (b : Board) :
      Board.create config rs = some b → Reachable b
  | leftClick (b : Board) (x y : Int) (b' : Board) :
      Reachable b → b.handleLeftClick x y = some b' → Reachable b'
  | rightClick (b : Board) (x y : Int) : Reachable b → Reachable (b.handleRightClick x y)
  | debugClick (b : Board) : Reachable b → Reachable b.handleDebugClick
  | faceClick (b : Board) (rs : List (Nat × Nat)) (b' : Board) :
      Reachable b → b.handleFaceClick rs = some b' → Reachable b'
  | testClick (b : Board) (rs : List (Nat × Nat)) (boardLayout : List (List Bool))
      (b' : Board) : Reachable b → RectLayout boardLayout b.rows b.columns →
      b.handleTestClick rs boardLayout = some b' → Reachable b'

/-- Every in-bounds tile that is not `Revealed` carries the number `0`. -/
def Board.NumbersClean (b : Board) : Prop :=
  ∀ x y : Int, b.inBounds x y → (b.tile x y).getState ≠ TileState.Revealed →
    (b.tile x y).number = 0

/-- The board on which the constructor runs `initializeBoard`, `placeMines` and
`countAdjacentMines`. -/
def Board.createStart (config : ConfigValues) : Board :=
  { columns := config.columns, rows := config.rows, mines := config.mines,
    originalMines := config.mines, flagsPlaced := 0, gameWon := false, gameLost := false,
    isDebugMode := false,
    grid := resize [] config.columns (List.replicate config.rows Tile.new),
    hasMine := [], adjacentMineCounts := [] }

/-- A 3 × 3 example configuration with one hazard. -/
def demoConfig : ConfigValues := ⟨3, 3, 1⟩

/-- The session built from `demoConfig` when the first sample hits cell `(0, 0)`. -/
def demoBoard : Board :=
  { columns := 3, rows := 3, mines := 1, originalMines := 1, flagsPlaced := 0,
    gameWon := false, gameLost := false, isDebugMode := false,
    grid := List.replicate 3 (List.replicate 3 Tile.new),
    hasMine := [[true, false, false], [false, false, false], [false, false, false]],
    adjacentMineCounts := [[0, 1, 0], [1, 1, 0], [0, 0, 0]] }

/-- A 2 × 1 session whose two cells both hold a hazard. -/
def twoMines : Board :=
  { columns := 2, rows := 1, mines := 2, originalMines := 2, flagsPlaced := 0,
    gameWon := false, gameLost := false, isDebugMode := false,
    grid := [[Tile.new], [Tile.new]],
    hasMine := [[true], [true]],
    adjacentMineCounts := [[0], [0]] }

/-- A 3 × 2 session with three hazards, as built by the constructor. -/
def threeMines : Board :=
  { columns := 3, rows := 2, mines := 3, originalMines := 3, flagsPlaced := 0,
    gameWon := false, gameLost := false, isDebugMode := false,
    grid := List.replicate 3 (List.replicate 2 Tile.new),
    hasMine := [[true, false], [true, false], [true, false]],
    adjacentMineCounts := [[0, 2], [0, 3], [0, 2]] }

/-- The inner loop of `readBoardFile` (lines 192-201) on one line of the file; a `char` of
the source is one element of the line. -/
def readBoardLine (line : List Char) : List Bool :=
  line.foldl (fun row ch =>
    if ch = '0' then row ++ [false]
    else if ch = '1' then row ++ [true]
    else row) []

/-- The function `readBoardFile` (lines 182-207).  The file is given by its lines, as
`getline` delivers them; `none` is a file that cannot be opened (the source returns
`false`), and the result is the value left in `boardLayout`. -/
def readBoardFile (file : Option (List (List Char))) : Option (List (List Bool)) :=
  file.map (fun lines =>
    lines.foldl (fun boardLayout line => boardLayout ++ [readBoardLine line]) [])

/-- A layout file whose second line lacks one marker. -/
def shortFile : List (List Char) := [['0', '1', '0'], ['0', 'x', '0'], ['1', '0', '0']]

/-- The session `demoBoard` after a secondary action on its hazard cell `(0, 0)`. -/
def flaggedDemo : Board := demoBoard.handleRightClick 0 0

/-- The session `demoBoard` after a primary action on its hazard cell `(0, 0)`. -/
def lostDemo : Board := (demoBoard.handleLeftClick 0 0).getD demoBoard

/-- The session `demoBoard` after a primary action on the hazard-free cell `(1, 1)`. -/
def openedDemo : Board := (demoBoard.handleLeftClick 1 1).getD demoBoard

/-- The boards `b` and `b'` have the same dimensions, hazard map, count table, `mines` and
`originalMines`. -/
def SameLayout (b b' : Board) : Prop :=
  b'.columns = b.columns ∧ b'.rows = b.rows ∧ b'.hasMine = b.hasMine ∧
    b'.adjacentMineCounts = b.adjacentMineCounts ∧ b'.mines = b.mines ∧
    b'.originalMines = b.originalMines

/-- A non-negative `mines` is the number of hazard cells, and the stored count of every
in-bounds hazard-free cell is the number of its in-bounds hazard neighbours. -/
def Board.LayoutOK (b : Board) : Prop :=
  (0 ≤ b.mines → b.mines = (b.hazardCount : Int)) ∧
    ∀ x y : Int, b.inBounds x y → b.mine x y = false →
      b.adj x y = (b.neighbourHazards x y : Int)

/-- A freshly generated session: well formed, in progress, without flags, every tile
concealed, and with a consistent layout. -/
def Board.Fresh (b : Board) : Prop :=
  b.WF ∧ b.flagsPlaced = 0 ∧ b.gameWon = false ∧ b.gameLost = false ∧
    (∀ x y : Int, b.inBounds x y → b.tile x y = ⟨TileState.Hidden, 0⟩) ∧ b.LayoutOK

/-- The effect of a primary action or of a debug toggle: the layout and `flagsPlaced` are
kept, a won game is not touched, and every in-bounds tile is kept, or was concealed over a
hazard-free cell and is revealed with the stored count, or lies on a hazard and becomes
`Mine`, `Flag` (only when the game is then won) or `Hidden`. -/
def TileMove (b b' : Board) : Prop :=
  SameLayout b b' ∧ Dims b'.grid b.columns b.rows ∧ b'.flagsPlaced = b.flagsPlaced ∧
    (b.gameWon = true → b' = b) ∧
    ∀ x y : Int, b.inBounds x y →
      b'.tile x y = b.tile x y ∨
      ((b.tile x y).getState = TileState.Hidden ∧ b.mine x y = false ∧
        b'.tile x y = ⟨TileState.Revealed, b.adj x y⟩) ∨
      (b.mine x y = true ∧ b'.tile x y = ⟨TileState.Mine, 0⟩) ∨
      (b.mine x y = true ∧ b'.gameWon = true ∧ b'.tile x y = ⟨TileState.Flag, 0⟩) ∨
      (b.mine x y = true ∧ b'.tile x y = ⟨TileState.Hidden, 0⟩)

/-- The number of cells whose tile is a `Flag`. -/
def Board.flagCount (b : Board) : Nat :=
  (allCells b.columns b.rows).countP
    (fun c => decide ((at2 b.grid c.1 c.2).getState = TileState.Flag))

/-- Every in-bounds hazard-free cell is `Revealed` or a `Flag`. -/
def Board.Covered (b : Board) : Prop :=
  ∀ x y : Int, b.inBounds x y → b.mine x y = false →
    (b.tile x y).getState = TileState.Revealed ∨ (b.tile x y).getState = TileState.Flag

/-- The 2 × 1 session with its hazard in cell `(0, 0)`. -/
def oneSafeCell : Board :=
  { columns := 2, rows := 1, mines := 1, originalMines := 1, flagsPlaced := 0,
    gameWon := false, gameLost := false, isDebugMode := false,
    grid := [[Tile.new], [Tile.new]],
    hasMine := [[true], [false]],
    adjacentMineCounts := [[0], [1]] }

/-- The column index of a cell of the 2 × 2 board, as passed to the handlers. -/
def col2 (c : Fin 2 × Fin 2) : Int := ((c.1 : Nat) : Int)

/-- The row index of a cell of the 2 × 2 board, as passed to the handlers. -/
def row2 (c : Fin 2 × Fin 2) : Int := ((c.2 : Nat) : Int)

/-- The 2 × 2 session with one hazard that the constructor builds when its first sample hits
the cell `h`. -/
def create2x2 (h : Fin 2 × Fin 2) : Option Board :=
  Board.create ⟨2, 2, 1⟩ [((h.1 : Nat), (h.2 : Nat))]

/-- Between `b` and `b'` the cell `c` was revealed with its stored count and no other cell
of the 2 × 2 board changed between revealed and not revealed. -/
def RevealsOnly (b b' : Board) (c : Fin 2 × Fin 2) : Prop :=
  (b.tile (col2 c) (row2 c)).getState = TileState.Hidden ∧
    b'.tile (col2 c) (row2 c) = ⟨TileState.Revealed, b.adj (col2 c) (row2 c)⟩ ∧
    ∀ d : Fin 2 × Fin 2, d ≠ c →
      ((b'.tile (col2 d) (row2 d)).getState = TileState.Revealed ↔
        (b.tile (col2 d) (row2 d)).getState = TileState.Revealed)

instance (b b' : Board) (c : Fin 2 × Fin 2) : Decidable (RevealsOnly b b' c) := by
  unfold RevealsOnly; infer_instance

/-- The board after a primary action, or the board itself if the action did not return. -/
def Board.afterLeftClick (b : Board) (c : Fin 2 × Fin 2) : Board :=
  (b.handleLeftClick (col2 c) (row2 c)).getD b

/-- The cells `c1`, `c2`, `c3` are the three cells other than `h`, in some order. -/
def OtherThree (h c1 c2 c3 : Fin 2 × Fin 2) : Prop :=
  c1 ≠ h ∧ c2 ≠ h ∧ c3 ≠ h ∧ c1 ≠ c2 ∧ c1 ≠ c3 ∧ c2 ≠ c3

instance (h c1 c2 c3 : Fin 2 × Fin 2) : Decidable (OtherThree h c1 c2 c3) := by
  unfold OtherThree; infer_instance

/-- The session `demoBoard` after the load of a layout with hazards at `(1, 0)` and
`(2, 2)`. -/
def loadedDemo : Board :=
  (demoBoard.handleTestClick [(0, 0)]
    [[false, true, false], [false, false, false], [false, false, true]]).getD demoBoard

/-- The stored count of every in-bounds cell lies between `0` and `8`. -/
def Board.CountsInRange (b : Board) : Prop :=
  ∀ x y : Int, b.inBounds x y → 0 ≤ b.adj x y ∧ b.adj x y ≤ 8

/-! ## Theorems -/

theorem resize_of_length {α : Type} (v : List α) (n : Nat) (val : α) (h : v.length = n) :
    resize v n val = v := by
  subst h
  simp [resize]

theorem resize_nil {α : Type} (n : Nat) (val : α) : resize [] n val = List.replicate n val := by
  simp [resize]

theorem Dims_replicate {α : Type} (n m : Nat) (v : α) :
    Dims (List.replicate n (List.replicate m v)) n m := by
  refine ⟨by simp, ?_⟩
  intro col hcol
  rw [List.eq_of_mem_replicate hcol]
  simp

theorem at2_replicate {α : Type} [Inhabited α] (n m : Nat) (v : α) (x y : Nat)
    (hx : x < n) (hy : y < m) : at2 (List.replicate n (List.replicate m v)) x y = v := by
  simp [at2, List.getD_eq_getElem?_getD, List.getElem?_replicate, hx, hy]

theorem Dims_set2 {α : Type} {g : List (List α)} {n m : Nat} (hd : Dims g n m)
    (x y : Nat) (v : α) : Dims (set2 g x y v) n m := by
  obtain ⟨hl, hc⟩ := hd
  refine ⟨by simp [set2, hl], ?_⟩
  intro col hcol
  unfold set2 at hcol
  by_cases hx : x < g.length
  · rcases List.mem_or_eq_of_mem_set hcol with h | h
    · exact hc col h
    · subst h
      rw [List.length_set, List.getD_eq_getElem _ _ hx]
      exact hc _ (List.getElem_mem _)
  · rw [List.set_eq_of_length_le (by omega)] at hcol
    exact hc col hcol

theorem at2_set2 {α : Type} [Inhabited α] {g : List (List α)} {n m : Nat} (hd : Dims g n m)
    {x y : Nat} (hx : x < n) (hy : y < m) (v : α) (x' y' : Nat) :
    at2 (set2 g x y v) x' y' = if x' = x ∧ y' = y then v else at2 g x' y' := by
  obtain ⟨hl, hc⟩ := hd
  have hxl : x < g.length := by omega
  have hcol : (g[x]).length = m := hc _ (List.getElem_mem _)
  unfold at2 set2
  simp only [List.getD_eq_getElem?_getD, List.getElem?_set]
  by_cases h1 : x = x'
  · subst h1
    simp only [hxl, if_true, Option.getD_some, List.getElem?_eq_getElem hxl, List.getElem?_set]
    by_cases h2 : y = y'
    · subst h2
      simp [hcol, hy]
    · have : ¬ (y' = y) := fun h => h2 h.symm
      simp [h2, this]
  · have : ¬ (x' = x) := fun h => h1 h.symm
    simp [h1, this]

theorem at2_set2_self {α : Type} [Inhabited α] {g : List (List α)} {n m : Nat} (hd : Dims g n m)
    {x y : Nat} (hx : x < n) (hy : y < m) (v : α) : at2 (set2 g x y v) x y = v := by
  rw [at2_set2 hd hx hy]; simp

theorem at2_set2_ne {α : Type} [Inhabited α] {g : List (List α)} {n m : Nat} (hd : Dims g n m)
    {x y : Nat} (hx : x < n) (hy : y < m) (v : α) {x' y' : Nat} (h : ¬ (x' = x ∧ y' = y)) :
    at2 (set2 g x y v) x' y' = at2 g x' y' := by
  rw [at2_set2 hd hx hy]; simp [h]

/-- Two tables of the same dimensions that agree at every in-range cell are equal. -/
theorem Dims_ext {α : Type} [Inhabited α] {g g' : List (List α)} {n m : Nat}
    (hd : Dims g n m) (hd' : Dims g' n m)
    (h : ∀ x y, x < n → y < m → at2 g x y = at2 g' x y) : g = g' := by
  obtain ⟨hl, hc⟩ := hd
  obtain ⟨hl', hc'⟩ := hd'
  apply List.ext_getElem (by omega)
  intro x hx hx'
  have c1 : (g[x]).length = m := hc _ (List.getElem_mem _)
  have c2 : (g'[x]).length = m := hc' _ (List.getElem_mem _)
  apply List.ext_getElem (by omega)
  intro y hy hy'
  have := h x y (by omega) (by omega)
  simpa [at2, List.getD_eq_getElem?_getD, List.getElem?_eq_getElem, hx, hx', hy, hy'] using this

/-- Hoare rule for a counting loop over `List.range`. -/
theorem foldl_range_inv {σ : Type} (P : Nat → σ → Prop) (f : σ → Nat → σ) (n : Nat) (s : σ)
    (h0 : P 0 s) (hstep : ∀ i s, i < n → P i s → P (i + 1) (f s i)) :
    P n ((List.range n).foldl f s) := by
  induction n with
  | zero => simpa using h0
  | succ k ih =>
    rw [List.range_succ, List.foldl_append]
    simp only [List.foldl_cons, List.foldl_nil]
    exact hstep k _ (Nat.lt_succ_self k)
      (ih (fun i s hi hp => hstep i s (Nat.lt_succ_of_lt hi) hp))

/-- Hoare rule for the loop nest `forXY`: `P i j s` holds when the cells before `(i, j)` in
iteration order have been processed. -/
theorem forXY_inv {σ : Type} (P : Nat → Nat → σ → Prop) (n m : Nat)
    (body : Nat → Nat → σ → σ) (s : σ) (h0 : P 0 0 s)
    (hstep : ∀ i j s, i < n → j < m → P i j s → P i (j + 1) (body i j s))
    (hrow : ∀ i s, i < n → P i m s → P (i + 1) 0 s) :
    P n 0 (forXY n m body s) := by
  unfold forXY
  refine foldl_range_inv (fun i s => P i 0 s) _ n s h0 ?_
  intro i s hi hp
  apply hrow i _ hi
  exact foldl_range_inv (fun j s => P i j s) _ m s hp (fun j s hj hq => hstep i j s hi hj hq)

/-- Pointwise description of a loop nest whose body touches only its own cell. -/
theorem forXY_pointwise {σ α : Type} (Inv : σ → Prop) (read : σ → Nat → Nat → α)
    (upd : Nat → Nat → α → α) (n m : Nat) (body : Nat → Nat → σ → σ)
    (hbody : ∀ i j s, i < n → j < m → Inv s →
      Inv (body i j s) ∧ read (body i j s) i j = upd i j (read s i j) ∧
        ∀ i' j', ¬ (i' = i ∧ j' = j) → read (body i j s) i' j' = read s i' j')
    (s : σ) (hs : Inv s) :
    Inv (forXY n m body s) ∧
      ∀ i j, read (forXY n m body s) i j =
        if i < n ∧ j < m then upd i j (read s i j) else read s i j := by
  have key := forXY_inv
    (fun i j s' => Inv s' ∧ ∀ i' j', read s' i' j' =
      if (i' < i ∨ (i' = i ∧ j' < j)) ∧ j' < m then upd i' j' (read s i' j') else read s i' j')
    n m body s ⟨hs, by intro i' j'; simp⟩ ?_ ?_
  · refine ⟨key.1, ?_⟩
    intro i j
    rw [key.2 i j]
    by_cases h1 : i < n <;> by_cases h2 : j < m <;> simp [h1, h2]
  · rintro i j s' hi hj ⟨hinv, hp⟩
    obtain ⟨h1, h2, h3⟩ := hbody i j s' hi hj hinv
    refine ⟨h1, ?_⟩
    intro i' j'
    by_cases hij : i' = i ∧ j' = j
    · obtain ⟨rfl, rfl⟩ := hij
      rw [h2, hp]
      simp [hj]
    · rw [h3 i' j' hij, hp]
      have e : ((i' < i ∨ (i' = i ∧ j' < j + 1)) ∧ j' < m) ↔
          ((i' < i ∨ (i' = i ∧ j' < j)) ∧ j' < m) := by
        constructor
        · rintro ⟨h | ⟨h, h'⟩, hm⟩
          · exact ⟨Or.inl h, hm⟩
          · refine ⟨Or.inr ⟨h, ?_⟩, hm⟩
            by_contra hc
            exact hij ⟨h, by omega⟩
        · rintro ⟨h | ⟨h, h'⟩, hm⟩
          · exact ⟨Or.inl h, hm⟩
          · exact ⟨Or.inr ⟨h, by omega⟩, hm⟩
      simp only [e]
  · rintro i s' hi ⟨hinv, hp⟩
    refine ⟨hinv, ?_⟩
    intro i' j'
    rw [hp]
    have e : ((i' < i ∨ (i' = i ∧ j' < m)) ∧ j' < m) ↔
        ((i' < i + 1 ∨ (i' = i + 1 ∧ j' < 0)) ∧ j' < m) := by
      constructor
      · rintro ⟨h | ⟨h, h'⟩, hm⟩
        · exact ⟨Or.inl (by omega), hm⟩
        · exact ⟨Or.inl (by omega), hm⟩
      · rintro ⟨h | ⟨h, h'⟩, hm⟩
        · refine ⟨?_, hm⟩
          by_cases hlt : i' < i
          · exact Or.inl hlt
          · exact Or.inr ⟨by omega, hm⟩
        · omega
    simp only [e]

/-- A column-major loop nest that conditionally overwrites its own cell. -/
theorem forXY_grid {α : Type} [Inhabited α] (n m : Nat) (c : Nat → Nat → Prop)
    [∀ i j, Decidable (c i j)] (f : Nat → Nat → α → α) (g : List (List α)) (hd : Dims g n m) :
    Dims (forXY n m (fun x y g => if c x y then set2 g x y (f x y (at2 g x y)) else g) g) n m ∧
      ∀ x y, at2 (forXY n m
          (fun x y g => if c x y then set2 g x y (f x y (at2 g x y)) else g) g) x y =
        if x < n ∧ y < m ∧ c x y then f x y (at2 g x y) else at2 g x y := by
  have key := forXY_pointwise (fun g => Dims g n m) (fun g x y => at2 g x y)
    (fun x y a => if c x y then f x y a else a) n m
    (fun x y g => if c x y then set2 g x y (f x y (at2 g x y)) else g) ?_ g hd
  · refine ⟨key.1, ?_⟩
    intro x y
    have k2 := key.2 x y
    simp only at k2
    rw [k2]
    by_cases h1 : x < n <;> by_cases h2 : y < m <;> by_cases h3 : c x y <;> simp [h1, h2, h3]
  · intro i j s hi hj hs
    by_cases h : c i j
    · simp only [h, if_true]
      exact ⟨Dims_set2 hs _ _ _, at2_set2_self hs hi hj _,
        fun i' j' hne => at2_set2_ne hs hi hj _ hne⟩
    · simp only [h, if_false]
      exact ⟨hs, trivial, fun _ _ _ => trivial⟩

/-- A row-major loop nest (`y` outside, `x` inside) that conditionally overwrites its own
cell. -/
theorem forYX_grid {α : Type} [Inhabited α] (n m : Nat) (c : Nat → Nat → Prop)
    [∀ i j, Decidable (c i j)] (f : Nat → Nat → α → α) (g : List (List α)) (hd : Dims g n m) :
    Dims (forXY m n (fun y x g => if c x y then set2 g x y (f x y (at2 g x y)) else g) g) n m ∧
      ∀ x y, at2 (forXY m n
          (fun y x g => if c x y then set2 g x y (f x y (at2 g x y)) else g) g) x y =
        if x < n ∧ y < m ∧ c x y then f x y (at2 g x y) else at2 g x y := by
  have key := forXY_pointwise (fun g => Dims g n m) (fun g y x => at2 g x y)
    (fun y x a => if c x y then f x y a else a) m n
    (fun y x g => if c x y then set2 g x y (f x y (at2 g x y)) else g) ?_ g hd
  · refine ⟨key.1, ?_⟩
    intro x y
    have k2 := key.2 y x
    simp only at k2
    rw [k2]
    by_cases h1 : x < n <;> by_cases h2 : y < m <;> by_cases h3 : c x y <;> simp [h1, h2, h3]
  · intro i j s hi hj hs
    by_cases h : c j i
    · simp only [h, if_true]
      refine ⟨Dims_set2 hs _ _ _, at2_set2_self hs hj hi _, ?_⟩
      intro i' j' hne
      exact at2_set2_ne hs hj hi _ (fun hh => hne ⟨hh.2, hh.1⟩)
    · simp only [h, if_false]
      exact ⟨hs, trivial, fun _ _ _ => trivial⟩

theorem initializeBoard_grid (b : Board) (hd : Dims b.grid b.columns b.rows) :
    Dims b.initializeBoard.grid b.columns b.rows ∧
      ∀ x y, x < b.columns → y < b.rows → at2 b.initializeBoard.grid x y = Tile.new := by
  have key := forYX_grid b.columns b.rows (fun _ _ => True)
    (fun _ _ (t : Tile) => t.setState TileState.Hidden 0) b.grid hd
  simp only [if_true] at key
  refine ⟨key.1, ?_⟩
  intro x y hx hy
  have := key.2 x y
  simp only [hx, hy, and_self, and_true, if_true] at this
  exact this

theorem revealAllMinesFlags_one (b : Board) (hd : Dims b.grid b.columns b.rows) :
    Dims (b.revealAllMinesFlags 1).grid b.columns b.rows ∧
      ∀ x y, at2 (b.revealAllMinesFlags 1).grid x y =
        if x < b.columns ∧ y < b.rows ∧ at2 b.hasMine x y = true then ⟨TileState.Mine, 0⟩
        else at2 b.grid x y := by
  have key := forXY_grid b.columns b.rows (fun x y => at2 b.hasMine x y = true)
    (fun _ _ (t : Tile) => t.setState TileState.Mine 0) b.grid hd
  have e : (b.revealAllMinesFlags 1).grid = forXY b.columns b.rows
      (fun x y g => if at2 b.hasMine x y = true then
        set2 g x y ((at2 g x y).setState TileState.Mine 0) else g) b.grid := by
    simp [Board.revealAllMinesFlags]
  rw [e]
  exact key

theorem revealAllMinesFlags_zero (b : Board) (hd : Dims b.grid b.columns b.rows) :
    Dims (b.revealAllMinesFlags 0).grid b.columns b.rows ∧
      ∀ x y, at2 (b.revealAllMinesFlags 0).grid x y =
        if x < b.columns ∧ y < b.rows ∧ at2 b.hasMine x y = true then ⟨TileState.Flag, 0⟩
        else at2 b.grid x y := by
  have key := forXY_grid b.columns b.rows (fun x y => at2 b.hasMine x y = true)
    (fun _ _ (t : Tile) => t.setState TileState.Flag 0) b.grid hd
  have e : (b.revealAllMinesFlags 0).grid = forXY b.columns b.rows
      (fun x y g => if at2 b.hasMine x y = true then
        set2 g x y ((at2 g x y).setState TileState.Flag 0) else g) b.grid := by
    simp [Board.revealAllMinesFlags]
  rw [e]
  exact key

theorem hideAllMines_grid (b : Board) (hd : Dims b.grid b.columns b.rows) :
    Dims b.hideAllMines.grid b.columns b.rows ∧
      ∀ x y, at2 b.hideAllMines.grid x y =
        if x < b.columns ∧ y < b.rows ∧ at2 b.hasMine x y = true then ⟨TileState.Hidden, 0⟩
        else at2 b.grid x y := by
  exact forXY_grid b.columns b.rows (fun x y => at2 b.hasMine x y = true)
    (fun _ _ (t : Tile) => t.setState TileState.Hidden 0) b.grid hd

theorem Board.inBounds.toNat_lt {b : Board} {x y : Int} (h : b.inBounds x y) :
    x.toNat < b.columns ∧ y.toNat < b.rows := by
  obtain ⟨h1, h2, h3, h4⟩ := h
  omega

theorem Board.inBounds_natCast (b : Board) (x y : Nat) :
    b.inBounds (x : Int) (y : Int) ↔ x < b.columns ∧ y < b.rows := by
  unfold Board.inBounds
  omega

theorem setState_eq (t : Tile) (s : TileState) (n : Int) : t.setState s n = ⟨s, n⟩ := rfl

theorem Board.tile_setTile {b : Board} (hd : Dims b.grid b.columns b.rows) {x y : Int}
    (hxy : b.inBounds x y) (s : TileState) (n : Int) (i j : Int) (hi : 0 ≤ i) (hj : 0 ≤ j) :
    (b.setTile x y s n).tile i j = if i = x ∧ j = y then ⟨s, n⟩ else b.tile i j := by
  obtain ⟨hx, hy⟩ := hxy.toNat_lt
  obtain ⟨h1, h2, h3, h4⟩ := hxy
  unfold Board.setTile Board.tile
  simp only [setState_eq]
  rw [at2_set2 hd hx hy]
  have e : (i.toNat = x.toNat ∧ j.toNat = y.toNat) ↔ (i = x ∧ j = y) := by omega
  simp only [e]

theorem Board.setTile_grid_dims {b : Board} (hd : Dims b.grid b.columns b.rows) (x y : Int)
    (s : TileState) (n : Int) : Dims (b.setTile x y s n).grid b.columns b.rows :=
  Dims_set2 hd _ _ _

/-- C1: a primary action on a concealed hazard cell of a session in progress loses the game,
turns every hazard cell (the clicked one and flagged ones included) into `Mine`, and leaves
every hazard-free cell as it was. -/
theorem handleLeftClick_mine_lost (b : Board) (x y : Int) (hwf : b.WF)
    (hwon : b.gameWon = false) (hlost : b.gameLost = false) (hxy : b.inBounds x y)
    (hhid : (b.tile x y).getState = TileState.Hidden) (hmine : b.mine x y = true) :
    ∃ b', b.handleLeftClick x y = some b' ∧ b'.gameLost = true ∧ b'.gameWon = false ∧
      (b'.tile x y).getState = TileState.Mine ∧
      (∀ i j, b.inBounds i j → b.mine i j = true → (b'.tile i j).getState = TileState.Mine) ∧
      (∀ i j, b.inBounds i j → b.mine i j = false → b'.tile i j = b.tile i j) ∧
      b'.hasMine = b.hasMine ∧ b'.columns = b.columns ∧ b'.rows = b.rows := by
  have hd1 : Dims (b.setTile x y TileState.Mine 0).grid b.columns b.rows :=
    Board.setTile_grid_dims hwf.grid _ _ _ _
  have key := (revealAllMinesFlags_one (b.setTile x y TileState.Mine 0) hd1).2
  have hall : ∀ i j, b.inBounds i j →
      (((b.setTile x y TileState.Mine 0).revealAllMinesFlags 1).tile i j =
        if b.mine i j = true then ⟨TileState.Mine, 0⟩ else b.tile i j) := by
    intro i j hij
    obtain ⟨hi, hj⟩ := hij.toNat_lt
    have k := key i.toNat j.toNat
    have hm : (b.setTile x y TileState.Mine 0).hasMine = b.hasMine := rfl
    have hc : (b.setTile x y TileState.Mine 0).columns = b.columns := rfl
    have hr : (b.setTile x y TileState.Mine 0).rows = b.rows := rfl
    rw [hm, hc, hr] at k
    simp only [hi, hj, true_and] at k
    unfold Board.tile Board.mine
    rw [k]
    by_cases hmm : at2 b.hasMine i.toNat j.toNat = true
    · simp [hmm]
    · simp only [hmm, if_false]
      have := Board.tile_setTile hwf.grid hxy TileState.Mine 0 i j hij.1 hij.2.2.1
      unfold Board.tile at this
      rw [this]
      have hne : ¬ (i = x ∧ j = y) := by
        rintro ⟨rfl, rfl⟩
        exact hmm hmine
      simp [hne]
  refine ⟨{ (b.setTile x y TileState.Mine 0).revealAllMinesFlags 1 with gameLost := true },
    ?_, rfl, ?_, ?_, ?_, ?_, rfl, rfl, rfl⟩
  · simp [Board.handleLeftClick, hxy, hwon, hlost, hhid, hmine]
  · simpa [Board.revealAllMinesFlags, Board.setTile] using hwon
  · have := hall x y hxy
    simp only [hmine, if_true] at this
    show (((b.setTile x y TileState.Mine 0).revealAllMinesFlags 1).tile x y).getState = _
    rw [this]; rfl
  · intro i j hij hm
    have := hall i j hij
    simp only [hm, if_true] at this
    show (((b.setTile x y TileState.Mine 0).revealAllMinesFlags 1).tile i j).getState = _
    rw [this]; rfl
  · intro i j hij hm
    have := hall i j hij
    simp only [hm] at this
    show (((b.setTile x y TileState.Mine 0).revealAllMinesFlags 1).tile i j) = _
    rw [this]; simp

theorem revealEmptyTilesFuel_succ (fuel : Nat) (b : Board) (x y : Int) :
    b.revealEmptyTilesFuel (fuel + 1) x y =
      if ¬ b.inBounds x y ∨ (b.tile x y).getState ≠ TileState.Hidden then some b
      else if b.getMineCount x y = 0 then
        (block9 x y).foldlM (Board.visit fuel) (b.setTile x y TileState.Revealed (b.adj x y))
      else some (b.setTile x y TileState.Revealed (b.adj x y)) := by
  rw [Board.revealEmptyTilesFuel]
  by_cases h1 : b.inBounds x y
  · have h1' := h1
    obtain ⟨a1, a2, a3, a4⟩ := h1'
    by_cases h2 : (b.tile x y).getState = TileState.Hidden
    · have hg : (b.setTile x y TileState.Revealed (b.adj x y)).getMineCount x y
          = b.getMineCount x y := rfl
      simp only [h1, h2, not_true_eq_false, ne_eq, or_self, if_false, if_true, hg,
        show ¬ (x < 0) by omega, show ¬ (x ≥ (b.columns : Int)) by omega,
        show ¬ (y < 0) by omega, show ¬ (y ≥ (b.rows : Int)) by omega]
      by_cases h3 : b.getMineCount x y = 0
      · simp only [h3, if_true]
        simp only [offsets, block9, List.foldlM_cons, List.foldlM_nil, Board.visit,
          bind_assoc, pure_bind]
      · simp only [h3, if_false]
    · simp [h1, h2]
  · have : x < 0 ∨ x ≥ (b.columns : Int) ∨ y < 0 ∨ y ≥ (b.rows : Int) := by
      unfold Board.inBounds at h1
      omega
    have h' : x < 0 ∨ x ≥ (b.columns : Int) ∨ y < 0 ∨ y ≥ (b.rows : Int) ∨
        (b.tile x y).getState ≠ TileState.Hidden := by
      rcases this with h | h | h | h
      · exact Or.inl h
      · exact Or.inr (Or.inl h)
      · exact Or.inr (Or.inr (Or.inl h))
      · exact Or.inr (Or.inr (Or.inr (Or.inl h)))
    simp only [h', if_true, h1, not_false_eq_true, true_or]

theorem GExt.refl {S : Board} {g : List (List Tile)} (hd : Dims g S.columns S.rows) :
    GExt S g g := ⟨hd, fun _ _ => Or.inl rfl⟩

theorem GExt.keeps {S : Board} {g g' : List (List Tile)} (h : GExt S g g') {c : Int × Int}
    (hc : S.inBounds c.1 c.2) (hn : (tileAt g c).getState ≠ TileState.Hidden) :
    tileAt g' c = tileAt g c := by
  rcases h.2 c hc with h1 | ⟨h1, _⟩
  · exact h1
  · exact absurd h1 hn

theorem GExt.hidden_back {S : Board} {g g' : List (List Tile)} (h : GExt S g g')
    {c : Int × Int} (hc : S.inBounds c.1 c.2)
    (hh : (tileAt g' c).getState = TileState.Hidden) :
    (tileAt g c).getState = TileState.Hidden := by
  rcases h.2 c hc with h1 | ⟨h1, _⟩
  · rw [← h1]; exact hh
  · exact h1

theorem GExt.trans {S : Board} {g g' g'' : List (List Tile)} (h1 : GExt S g g')
    (h2 : GExt S g' g'') : GExt S g g'' := by
  refine ⟨h2.1, ?_⟩
  intro c hc
  rcases h2.2 c hc with e2 | ⟨hh2, e2⟩
  · rw [e2]; exact h1.2 c hc
  · right
    exact ⟨h1.hidden_back hc hh2, e2⟩

theorem GExt.still_open {S : Board} {g g' : List (List Tile)} (h : GExt S g g')
    {c : Int × Int} (hc : S.inBounds c.1 c.2)
    (hn : (tileAt g c).getState ≠ TileState.Hidden) :
    (tileAt g' c).getState ≠ TileState.Hidden := by
  rw [h.keeps hc hn]; exact hn

theorem blockStep_mono {S : Board} {g g' : List (List Tile)} (h : GExt S g g')
    {u v : Int × Int} (hs : blockStep S g' u v) : blockStep S g u v := by
  obtain ⟨a, b, c, d, e, f⟩ := hs
  exact ⟨a, h.hidden_back a b, c, d, e, f⟩

theorem reach_mono {S : Board} {g g' : List (List Tile)} (h : GExt S g g')
    {u v : Int × Int} (hr : Relation.ReflTransGen (blockStep S g') u v) :
    Relation.ReflTransGen (blockStep S g) u v :=
  Relation.ReflTransGen.mono (fun _ _ hs => blockStep_mono h hs) hr

theorem tileAt_set2 {S : Board} {g : List (List Tile)} (hd : Dims g S.columns S.rows)
    {c : Int × Int} (hc : S.inBounds c.1 c.2) (t : Tile) (d : Int × Int)
    (hd' : S.inBounds d.1 d.2) :
    tileAt (set2 g c.1.toNat c.2.toNat t) d = if d = c then t else tileAt g d := by
  obtain ⟨hx, hy⟩ := hc.toNat_lt
  obtain ⟨h1, h2, h3, h4⟩ := hc
  obtain ⟨k1, k2, k3, k4⟩ := hd'
  unfold tileAt
  rw [at2_set2 hd hx hy]
  have e : (d.1.toNat = c.1.toNat ∧ d.2.toNat = c.2.toNat) ↔ d = c := by
    rw [Prod.ext_iff]; omega
  simp only [e]

theorem GExt_openAt {S : Board} {g : List (List Tile)} (hd : Dims g S.columns S.rows)
    {c : Int × Int} (hc : S.inBounds c.1 c.2)
    (hh : (tileAt g c).getState = TileState.Hidden) : GExt S g (openAt S g c) := by
  refine ⟨Dims_set2 hd _ _ _, ?_⟩
  intro d hd'
  unfold openAt
  rw [tileAt_set2 hd hc _ d hd']
  by_cases e : d = c
  · subst e; right; simp [hh]
  · left; simp [e]

theorem Changed_openAt {S : Board} {g : List (List Tile)} (hd : Dims g S.columns S.rows)
    {c : Int × Int} (hc : S.inBounds c.1 c.2) {u : Int × Int}
    (hu : Changed S g (openAt S g c) u) : u = c := by
  obtain ⟨a, b, d⟩ := hu
  unfold openAt at d
  rw [tileAt_set2 hd hc _ u a] at d
  by_contra e
  simp only [e, if_false] at d
  exact d b

theorem Changed.split {S : Board} {g g' g'' : List (List Tile)} (_h12 : GExt S g g')
    {u : Int × Int} (hu : Changed S g g'' u) : Changed S g g' u ∨ Changed S g' g'' u := by
  obtain ⟨a, b, c⟩ := hu
  by_cases e : (tileAt g' u).getState = TileState.Hidden
  · exact Or.inr ⟨a, e, c⟩
  · exact Or.inl ⟨a, b, e⟩

theorem withGrid_inBounds (S : Board) (g : List (List Tile)) (x y : Int) :
    (S.withGrid g).inBounds x y = S.inBounds x y := rfl

theorem withGrid_mine (S : Board) (g : List (List Tile)) (x y : Int) :
    (S.withGrid g).mine x y = S.mine x y := rfl

theorem withGrid_adj (S : Board) (g : List (List Tile)) (x y : Int) :
    (S.withGrid g).adj x y = S.adj x y := rfl

theorem withGrid_getMineCount (S : Board) (g : List (List Tile)) (x y : Int) :
    (S.withGrid g).getMineCount x y = S.getMineCount x y := rfl

theorem withGrid_tile (S : Board) (g : List (List Tile)) (x y : Int) :
    (S.withGrid g).tile x y = tileAt g (x, y) := rfl

theorem withGrid_setTile (S : Board) (g : List (List Tile)) (x y : Int)
    (s : TileState) (n : Int) :
    (S.withGrid g).setTile x y s n = S.withGrid (set2 g x.toNat y.toNat ⟨s, n⟩) := rfl

theorem withGrid_withGrid (S : Board) (g g' : List (List Tile)) :
    (S.withGrid g).withGrid g' = S.withGrid g' := rfl

theorem withGrid_grid (S : Board) (g : List (List Tile)) :
    (S.withGrid g).grid = g := rfl

theorem withGrid_self (S : Board) : S.withGrid S.grid = S := rfl

theorem visitAll_spec (S : Board) (n : Nat)
    (ih : ∀ (g : List (List Tile)) (x y : Int) (b' : Board), Dims g S.columns S.rows →
      S.mine x y = false → (S.withGrid g).revealEmptyTilesFuel n x y = some b' →
      RevealSpec S g [(x, y)] b') :
    ∀ (ps : List (Int × Int)) (g : List (List Tile)) (b' : Board), Dims g S.columns S.rows →
      ps.foldlM (Board.visit n) (S.withGrid g) = some b' → RevealSpec S g ps b' := by
  intro ps
  induction ps with
  | nil =>
    intro g b' hd h
    simp only [List.foldlM_nil, pure, Option.some.injEq] at h
    subst h
    refine ⟨g, rfl, GExt.refl hd, by simp, ?_, ?_⟩
    · intro u hu; exact absurd hu.2.1 hu.2.2
    · intro u hu; exact absurd hu.2.1 hu.2.2
  | cons p ps ihps =>
    intro g b' hd h
    rw [List.foldlM_cons] at h
    -- the first visit
    have hfirst : ∃ c, Board.visit n (S.withGrid g) p = some c ∧
        ps.foldlM (Board.visit n) c = some b' := by
      cases hv : Board.visit n (S.withGrid g) p with
      | none => rw [hv] at h; simp at h
      | some c => rw [hv] at h; exact ⟨c, rfl, by simpa using h⟩
    obtain ⟨c, hv, hrest⟩ := hfirst
    have hc : RevealSpec S g [p] c ∨ (c = S.withGrid g ∧
        ¬ (S.inBounds p.1 p.2 ∧ S.mine p.1 p.2 = false)) := by
      unfold Board.visit at hv
      by_cases hg : S.inBounds p.1 p.2 ∧ S.mine p.1 p.2 = false
      · left
        simp only [withGrid_inBounds, withGrid_mine, hg, and_self, if_true] at hv
        exact ih g p.1 p.2 c hd hg.2 hv
      · right
        simp only [withGrid_inBounds, withGrid_mine, hg, if_false, Option.some.injEq] at hv
        exact ⟨hv.symm, hg⟩
    -- uniform description of the first visit
    have hc' : ∃ g1, c = S.withGrid g1 ∧ GExt S g g1 ∧
        (S.inBounds p.1 p.2 → S.mine p.1 p.2 = false →
          (tileAt g1 p).getState ≠ TileState.Hidden) ∧
        Closed S g g1 ∧
        (∀ u, Changed S g g1 u → S.mine u.1 u.2 = false ∧ S.inBounds p.1 p.2 ∧
          S.mine p.1 p.2 = false ∧ Relation.ReflTransGen (blockStep S g) p u) := by
      rcases hc with ⟨g1, e, hx, hs, hcl, hso⟩ | ⟨e, hg⟩
      · refine ⟨g1, e, hx, hs p (by simp), hcl, ?_⟩
        intro u hu
        obtain ⟨m, q, hq, a, b, r⟩ := hso u hu
        simp only [List.mem_singleton] at hq
        subst hq
        exact ⟨m, a, b, r⟩
      · refine ⟨g, e, GExt.refl hd, fun a b => absurd ⟨a, b⟩ hg, ?_, ?_⟩
        · intro u hu; exact absurd hu.2.1 hu.2.2
        · intro u hu; exact absurd hu.2.1 hu.2.2
    obtain ⟨g1, rfl, hx1, hs1, hcl1, hso1⟩ := hc'
    obtain ⟨g2, e2, hx2, hs2, hcl2, hso2⟩ := ihps g1 b' hx1.1 hrest
    refine ⟨g2, e2, hx1.trans hx2, ?_, ?_, ?_⟩
    · intro q hq hqi hqm
      rcases List.mem_cons.1 hq with rfl | hq'
      · exact hx2.still_open hqi (hs1 hqi hqm)
      · exact hs2 q hq' hqi hqm
    · intro u hu hz v hv hvi hvm
      rcases hu.split hx1 with h1 | h2
      · exact hx2.still_open hvi (hcl1 u h1 hz v hv hvi hvm)
      · exact hcl2 u h2 hz v hv hvi hvm
    · intro u hu
      rcases hu.split hx1 with h1 | h2
      · obtain ⟨m, a, b, r⟩ := hso1 u h1
        exact ⟨m, p, by simp, a, b, r⟩
      · obtain ⟨m, q, hq, a, b, r⟩ := hso2 u h2
        exact ⟨m, q, List.mem_cons_of_mem _ hq, a, b, reach_mono hx1 r⟩

theorem revealEmptyTilesFuel_spec (S : Board) (n : Nat) :
    ∀ (g : List (List Tile)) (x y : Int) (b' : Board), Dims g S.columns S.rows →
      S.mine x y = false → (S.withGrid g).revealEmptyTilesFuel n x y = some b' →
      RevealSpec S g [(x, y)] b' := by
  induction n with
  | zero =>
    intro g x y b' _ _ h
    simp [Board.revealEmptyTilesFuel] at h
  | succ n ih =>
    intro g x y b' hd hm h
    rw [revealEmptyTilesFuel_succ] at h
    simp only [withGrid_inBounds, withGrid_tile, withGrid_getMineCount, withGrid_setTile,
      withGrid_adj] at h
    by_cases hg : ¬ S.inBounds x y ∨ (tileAt g (x, y)).getState ≠ TileState.Hidden
    · simp only [hg, if_true, Option.some.injEq] at h
      subst h
      refine ⟨g, rfl, GExt.refl hd, ?_, ?_, ?_⟩
      · intro p hp hpi _
        simp only [List.mem_singleton] at hp
        subst hp
        rcases hg with h1 | h1
        · exact absurd hpi h1
        · exact h1
      · intro u hu; exact absurd hu.2.1 hu.2.2
      · intro u hu; exact absurd hu.2.1 hu.2.2
    · simp only [hg, if_false] at h
      have hin : S.inBounds x y := by
        by_contra hc; exact hg (Or.inl hc)
      have hhid : (tileAt g (x, y)).getState = TileState.Hidden := by
        by_contra hc; exact hg (Or.inr hc)
      have hin' : S.inBounds (x, y).1 (x, y).2 := hin
      have hx0 : GExt S g (openAt S g (x, y)) := GExt_openAt hd hin' hhid
      have hopen : (tileAt (openAt S g (x, y)) (x, y)).getState ≠ TileState.Hidden := by
        unfold openAt
        rw [tileAt_set2 hd hin' _ _ hin']
        simp [Tile.getState]
      by_cases hz : S.getMineCount x y = 0
      · simp only [hz, if_true] at h
        obtain ⟨g2, e2, hx2, hs2, hcl2, hso2⟩ :=
          visitAll_spec S n ih (block9 x y) (openAt S g (x, y)) b' hx0.1 h
        refine ⟨g2, e2, hx0.trans hx2, ?_, ?_, ?_⟩
        · intro p hp hpi _
          simp only [List.mem_singleton] at hp
          subst hp
          exact hx2.still_open hin' hopen
        · intro u hu hzu v hv hvi hvm
          rcases hu.split hx0 with h1 | h2
          · have := Changed_openAt hd hin' h1
            subst this
            exact hs2 v hv hvi hvm
          · exact hcl2 u h2 hzu v hv hvi hvm
        · intro u hu
          rcases hu.split hx0 with h1 | h2
          · have := Changed_openAt hd hin' h1
            subst this
            exact ⟨hm, (x, y), by simp, hin, hm, Relation.ReflTransGen.refl⟩
          · obtain ⟨m, q, hq, a, b, r⟩ := hso2 u h2
            refine ⟨m, (x, y), by simp, hin, hm, ?_⟩
            exact Relation.ReflTransGen.head ⟨hin, hhid, hm, hz, hq, a⟩ (reach_mono hx0 r)
      · simp only [hz, if_false, Option.some.injEq] at h
        subst h
        refine ⟨openAt S g (x, y), rfl, hx0, ?_, ?_, ?_⟩
        · intro p hp _ _
          simp only [List.mem_singleton] at hp
          subst hp
          exact hopen
        · intro u hu hzu
          have := Changed_openAt hd hin' hu
          subst this
          exact absurd hzu hz
        · intro u hu
          have := Changed_openAt hd hin' hu
          subst this
          exact ⟨hm, (x, y), by simp, hin, hm, Relation.ReflTransGen.refl⟩

theorem mem_allCells {n m : Nat} {c : Nat × Nat} : c ∈ allCells n m ↔ c.1 < n ∧ c.2 < m := by
  obtain ⟨c1, c2⟩ := c
  show (c1, c2) ∈ (List.range n) ×ˢ (List.range m) ↔ _
  rw [List.mem_product, List.mem_range, List.mem_range]

theorem length_allCells (n m : Nat) : (allCells n m).length = n * m := by
  show ((List.range n) ×ˢ (List.range m)).length = _
  rw [List.length_product, List.length_range, List.length_range]

theorem nodup_allCells (n m : Nat) : (allCells n m).Nodup :=
  List.Nodup.product (List.nodup_range n) (List.nodup_range m)

theorem countP_lt_of_imp {α : Type} (p q : α → Bool) (l : List α)
    (h : ∀ a ∈ l, p a = true → q a = true) (a : α) (ha : a ∈ l) (hq : q a = true)
    (hp : p a = false) : l.countP p < l.countP q := by
  induction l with
  | nil => simp at ha
  | cons b l ih =>
    simp only [List.countP_cons]
    have hmono : l.countP p ≤ l.countP q :=
      List.countP_mono_left (fun x hx => h x (List.mem_cons_of_mem _ hx))
    rcases List.mem_cons.1 ha with rfl | ha'
    · simp only [hq, hp, if_true]
      simp only [Bool.false_eq_true, if_false]
      omega
    · have := ih (fun x hx => h x (List.mem_cons_of_mem _ hx)) ha'
      have hb := h b (List.mem_cons_self _ _)
      cases hpb : p b <;> cases hqb : q b
      · simp; omega
      · simp; omega
      · rw [hb hpb] at hqb; exact absurd hqb (by simp)
      · simp; omega

theorem hiddenCount_le {S : Board} {g g' : List (List Tile)} (h : GExt S g g') :
    hiddenCount S g' ≤ hiddenCount S g := by
  unfold hiddenCount
  apply List.countP_mono_left
  intro c hc hh
  rw [mem_allCells] at hc
  have hin : S.inBounds ((c.1 : Int), (c.2 : Int)).1 ((c.1 : Int), (c.2 : Int)).2 :=
    (Board.inBounds_natCast S c.1 c.2).2 hc
  have := h.hidden_back hin (by simpa [tileAt] using hh)
  simpa [tileAt] using this

theorem hiddenCount_openAt {S : Board} {g : List (List Tile)} (hd : Dims g S.columns S.rows)
    {c : Int × Int} (hc : S.inBounds c.1 c.2)
    (hh : (tileAt g c).getState = TileState.Hidden) :
    hiddenCount S (openAt S g c) < hiddenCount S g := by
  unfold hiddenCount
  have hx := GExt_openAt hd hc hh
  obtain ⟨hx1, hx2⟩ := hc.toNat_lt
  apply countP_lt_of_imp _ _ _ _ (c.1.toNat, c.2.toNat)
  · rw [mem_allCells]; exact ⟨hx1, hx2⟩
  · simpa [tileAt] using hh
  · unfold openAt
    rw [at2_set2_self hd hx1 hx2]
    simp [Tile.getState]
  · intro d hd' hh'
    rw [mem_allCells] at hd'
    have hin : S.inBounds ((d.1 : Int), (d.2 : Int)).1 ((d.1 : Int), (d.2 : Int)).2 :=
      (Board.inBounds_natCast S d.1 d.2).2 hd'
    have := hx.hidden_back hin (by simpa [tileAt] using hh')
    simpa [tileAt] using this

theorem hiddenCount_le_cells (S : Board) (g : List (List Tile)) :
    hiddenCount S g ≤ S.columns * S.rows := by
  unfold hiddenCount
  rw [← length_allCells]
  exact List.countP_le_length _

theorem visitAll_isSome (S : Board) (n : Nat)
    (ih : ∀ (g : List (List Tile)) (x y : Int), Dims g S.columns S.rows →
      hiddenCount S g < n → ∃ b', (S.withGrid g).revealEmptyTilesFuel n x y = some b') :
    ∀ (ps : List (Int × Int)) (g : List (List Tile)), Dims g S.columns S.rows →
      hiddenCount S g < n → ∃ b', ps.foldlM (Board.visit n) (S.withGrid g) = some b' := by
  intro ps
  induction ps with
  | nil => intro g _ _; exact ⟨_, rfl⟩
  | cons p ps ihps =>
    intro g hd hlt
    rw [List.foldlM_cons]
    by_cases hg : S.inBounds p.1 p.2 ∧ S.mine p.1 p.2 = false
    · obtain ⟨c, hc⟩ := ih g p.1 p.2 hd hlt
      have hv : Board.visit n (S.withGrid g) p = some c := by
        unfold Board.visit
        simp only [withGrid_inBounds, withGrid_mine, hg, and_self, if_true]
        exact hc
      obtain ⟨g1, rfl, hx, -⟩ := revealEmptyTilesFuel_spec S n g p.1 p.2 c hd hg.2 hc
      obtain ⟨b', hb'⟩ := ihps g1 hx.1 (lt_of_le_of_lt (hiddenCount_le hx) hlt)
      exact ⟨b', by rw [hv]; simpa using hb'⟩
    · have hv : Board.visit n (S.withGrid g) p = some (S.withGrid g) := by
        unfold Board.visit
        simp only [withGrid_inBounds, withGrid_mine, hg, if_false]
      obtain ⟨b', hb'⟩ := ihps g hd hlt
      exact ⟨b', by rw [hv]; simpa using hb'⟩

theorem revealEmptyTilesFuel_isSome (S : Board) (n : Nat) :
    ∀ (g : List (List Tile)) (x y : Int), Dims g S.columns S.rows →
      hiddenCount S g < n → ∃ b', (S.withGrid g).revealEmptyTilesFuel n x y = some b' := by
  induction n with
  | zero => intro g x y _ h; omega
  | succ n ih =>
    intro g x y hd hlt
    rw [revealEmptyTilesFuel_succ]
    simp only [withGrid_inBounds, withGrid_tile, withGrid_getMineCount, withGrid_setTile,
      withGrid_adj]
    by_cases hg : ¬ S.inBounds x y ∨ (tileAt g (x, y)).getState ≠ TileState.Hidden
    · simp only [hg, if_true]
      exact ⟨_, rfl⟩
    · simp only [hg, if_false]
      have hin : S.inBounds (x, y).1 (x, y).2 := by
        by_contra hc; exact hg (Or.inl hc)
      have hhid : (tileAt g (x, y)).getState = TileState.Hidden := by
        by_contra hc; exact hg (Or.inr hc)
      by_cases hz : S.getMineCount x y = 0
      · simp only [hz, if_true]
        have h1 := hiddenCount_openAt hd hin hhid
        exact visitAll_isSome S n ih (block9 x y) (openAt S g (x, y))
          (GExt_openAt hd hin hhid).1 (by omega)
      · simp only [hz, if_false]
        exact ⟨_, rfl⟩

theorem revealEmptyTiles_isSome (b : Board) (x y : Int) (hd : Dims b.grid b.columns b.rows) :
    ∃ b', b.revealEmptyTiles x y = some b' := by
  have := revealEmptyTilesFuel_isSome b (b.columns * b.rows + 1) b.grid x y hd
    (Nat.lt_succ_of_le (hiddenCount_le_cells b b.grid))
  exact this

theorem mem_block9 (x y : Int) (v : Int × Int) :
    v ∈ block9 x y ↔ x - 1 ≤ v.1 ∧ v.1 ≤ x + 1 ∧ y - 1 ≤ v.2 ∧ v.2 ≤ y + 1 := by
  obtain ⟨a, b⟩ := v
  simp only [block9, List.mem_cons, Prod.mk.injEq, List.mem_singleton, List.mem_nil_iff,
    or_false]
  constructor
  · intro h
    omega
  · intro h
    omega

theorem reach_floodStep_of_blockStep (b : Board) {s c : Int × Int}
    (h : Relation.ReflTransGen (blockStep b b.grid) s c) :
    Relation.ReflTransGen b.floodStep s c := by
  induction h with
  | refl => exact Relation.ReflTransGen.refl
  | @tail u v _ hs ih =>
    by_cases e : u = v
    · subst e; exact ih
    · obtain ⟨h1, h2, h3, h4, h5, h6⟩ := hs
      rw [mem_block9] at h5
      exact ih.tail ⟨h1, h2, h3, h4, ⟨e, h5⟩, h6⟩

theorem reach_blockStep_of_floodStep (b : Board) {s c : Int × Int}
    (h : Relation.ReflTransGen b.floodStep s c) :
    Relation.ReflTransGen (blockStep b b.grid) s c := by
  refine Relation.ReflTransGen.mono ?_ h
  rintro u v ⟨h1, h2, h3, h4, h5, h6⟩
  exact ⟨h1, h2, h3, h4, (mem_block9 _ _ _).2 h5.2, h6⟩

/-- Every hazard-free cell reached by flood steps from an in-bounds hazard-free root is open
after the flood fill. -/
theorem RevealSpec.reach_open {S : Board} {g g' : List (List Tile)} {s : Int × Int}
    (hstart : (tileAt g' s).getState ≠ TileState.Hidden) (hcl : Closed S g g')
    {c : Int × Int} (hr : Relation.ReflTransGen (blockStep S g) s c)
    (hc : S.mine c.1 c.2 = false) : (tileAt g' c).getState ≠ TileState.Hidden := by
  induction hr with
  | refl => exact hstart
  | @tail u v hr' hstep ih =>
    obtain ⟨h1, h2, h3, h4, h5, h6⟩ := hstep
    exact hcl u ⟨h1, h2, ih h3⟩ h4 v h5 h6 hc

/-- C3: on a well-formed board, `revealEmptyTiles` started at an in-bounds hazard-free cell
(concealed, or not concealed, where the flood region is empty) returns, changes nothing but
the tile table, and changes exactly the cells of the flood region of the start cell: a cell
becomes `Revealed` iff it is in the flood region, every cell of the region ends `Revealed`
with its stored count `adjacentMineCounts[x][y]`, and every other cell keeps its tile. -/
theorem revealEmptyTiles_flood (b : Board) (x y : Int) (hwf : b.WF) (hxy : b.inBounds x y)
    (hm : b.mine x y = false) :
    ∃ b', b.revealEmptyTiles x y = some b' ∧ b' = { b with grid := b'.grid } ∧
      Dims b'.grid b.columns b.rows ∧
      ∀ c : Int × Int, b.inBounds c.1 c.2 →
        (((b.tile c.1 c.2).getState ≠ TileState.Revealed ∧
            (b'.tile c.1 c.2).getState = TileState.Revealed) ↔ b.floodRegion (x, y) c) ∧
        (b.floodRegion (x, y) c → b'.tile c.1 c.2 = ⟨TileState.Revealed, b.adj c.1 c.2⟩) ∧
        (¬ b.floodRegion (x, y) c → b'.tile c.1 c.2 = b.tile c.1 c.2) := by
  obtain ⟨b', hb'⟩ := revealEmptyTiles_isSome b x y hwf.grid
  obtain ⟨g', rfl, hx, hstart, hcl, hso⟩ :=
    revealEmptyTilesFuel_spec b _ b.grid x y b' hwf.grid hm hb'
  have hstart' := hstart (x, y) (by simp) hxy hm
  refine ⟨b.withGrid g', hb', rfl, hx.1, ?_⟩
  intro c hc
  have hopen : b.floodRegion (x, y) c →
      tileAt g' c = ⟨TileState.Revealed, b.adj c.1 c.2⟩ := by
    rintro ⟨h1, h2, path, hp, hl⟩
    have hr : Relation.ReflTransGen b.floodStep (x, y) c :=
      List.relationReflTransGen_of_exists_chain path hp hl
    have hno := RevealSpec.reach_open (S := b) (g := b.grid) (s := (x, y)) hstart' hcl
      (reach_blockStep_of_floodStep b hr) h2
    rcases hx.2 c hc with e | ⟨_, e⟩
    · exact absurd (by rw [e]; exact h1) hno
    · exact e
  have hkeep : ¬ b.floodRegion (x, y) c → tileAt g' c = tileAt b.grid c := by
    intro hnot
    rcases hx.2 c hc with e | ⟨h1, e⟩
    · exact e
    · exfalso
      apply hnot
      have hch : Changed b b.grid g' c := ⟨hc, h1, by rw [e]; simp [Tile.getState]⟩
      obtain ⟨m, q, hq, _, _, r⟩ := hso c hch
      simp only [List.mem_singleton] at hq
      subst hq
      obtain ⟨path, hp, hl⟩ :=
        List.exists_chain_of_relationReflTransGen (reach_floodStep_of_blockStep b r)
      exact ⟨h1, m, path, hp, hl⟩
  refine ⟨⟨?_, ?_⟩, hopen, hkeep⟩
  · rintro ⟨h1, h2⟩
    by_contra hnot
    have := hkeep hnot
    apply h1
    show (tileAt b.grid c).getState = _
    rw [← this]
    exact h2
  · intro hreg
    have := hopen hreg
    refine ⟨?_, ?_⟩
    · rw [hreg.1]; simp
    · show (tileAt g' c).getState = _
      rw [this]; rfl

theorem foldl_product {σ α β : Type} (f : α → β → σ → σ) (l1 : List α) (l2 : List β) (s : σ) :
    l1.foldl (fun s i => l2.foldl (fun s j => f i j s) s) s =
      (List.product l1 l2).foldl (fun s p => f p.1 p.2 s) s := by
  induction l1 generalizing s with
  | nil => rfl
  | cons a l1 ih =>
    have e : List.product (a :: l1) l2 = l2.map (Prod.mk a) ++ List.product l1 l2 :=
      List.product_cons a l1 l2
    rw [e, List.foldl_append, List.foldl_cons, ih, List.foldl_map]

theorem forXY_eq_foldl {σ : Type} (n m : Nat) (body : Nat → Nat → σ → σ) (s : σ) :
    forXY n m body s = (allCells n m).foldl (fun s p => body p.1 p.2 s) s :=
  foldl_product body (List.range n) (List.range m) s

theorem foldl_count {α : Type} (p : α → Prop) [DecidablePred p] (l : List α) (c0 : Int) :
    l.foldl (fun c a => if p a then c + 1 else c) c0 = c0 + (l.countP (fun a => decide (p a)) : Nat) := by
  induction l generalizing c0 with
  | nil => simp
  | cons a l ih =>
    rw [List.foldl_cons, ih, List.countP_cons]
    by_cases h : p a
    · simp [h]; omega
    · simp [h]

theorem countP_and_eq_iff {α : Type} (p q : α → Bool) (l : List α) :
    l.countP (fun a => p a && q a) = l.countP p ↔ ∀ a ∈ l, p a = true → q a = true := by
  induction l with
  | nil => simp
  | cons a l ih =>
    have hle : l.countP (fun a => p a && q a) ≤ l.countP p :=
      List.countP_mono_left (fun x _ hx => by simp at hx; simp [hx.1])
    simp only [List.countP_cons, List.mem_cons, forall_eq_or_imp]
    cases hp : p a <;> cases hq : q a
    all_goals simp [ih]
    all_goals omega

theorem countP_not_add {α : Type} (p : α → Bool) (l : List α) :
    l.countP (fun a => !p a) + l.countP p = l.length := by
  induction l with
  | nil => simp
  | cons a l ih =>
    simp only [List.countP_cons, List.length_cons]
    cases hp : p a <;> simp <;> omega

theorem revealedTiles_eq (b : Board) :
    b.revealedTiles = ((allCells b.columns b.rows).countP (fun c =>
      (!at2 b.hasMine c.1 c.2) && decide ((at2 b.grid c.1 c.2).getState = TileState.Revealed ∨
        (at2 b.grid c.1 c.2).getState = TileState.Flag)) : Nat) := by
  unfold Board.revealedTiles
  rw [forXY_eq_foldl]
  have := foldl_count (fun c : Nat × Nat => at2 b.hasMine c.1 c.2 = false ∧
      ((at2 b.grid c.1 c.2).getState = TileState.Revealed ∨
        (at2 b.grid c.1 c.2).getState = TileState.Flag)) (allCells b.columns b.rows) 0
  rw [this, zero_add]
  congr 2
  funext c
  cases h : at2 b.hasMine c.1 c.2 <;> simp

/-- The test of line 630 succeeds exactly when every hazard-free cell is revealed or
flagged, provided `mines` is the number of hazard cells. -/
theorem winTest_iff (b : Board) (hcount : b.mines = (b.hazardCount : Int)) :
    b.revealedTiles = (b.columns : Int) * (b.rows : Int) - b.mines ↔
      ∀ i j : Int, b.inBounds i j → b.mine i j = false →
        (b.tile i j).getState = TileState.Revealed ∨ (b.tile i j).getState = TileState.Flag := by
  rw [revealedTiles_eq, hcount]
  have hsum := countP_not_add (fun c : Nat × Nat => at2 b.hasMine c.1 c.2)
    (allCells b.columns b.rows)
  rw [length_allCells] at hsum
  have hiff := countP_and_eq_iff (fun c : Nat × Nat => !at2 b.hasMine c.1 c.2)
    (fun c => decide ((at2 b.grid c.1 c.2).getState = TileState.Revealed ∨
        (at2 b.grid c.1 c.2).getState = TileState.Flag)) (allCells b.columns b.rows)
  unfold Board.hazardCount
  constructor
  · intro h
    have h' : (allCells b.columns b.rows).countP (fun c =>
        (!at2 b.hasMine c.1 c.2) && decide ((at2 b.grid c.1 c.2).getState = TileState.Revealed ∨
          (at2 b.grid c.1 c.2).getState = TileState.Flag)) =
        (allCells b.columns b.rows).countP (fun c => !at2 b.hasMine c.1 c.2) := by
      have : ((b.columns * b.rows : Nat) : Int) = (b.columns : Int) * (b.rows : Int) := by
        push_cast; rfl
      omega
    have hall := hiff.1 h'
    intro i j hij hm
    obtain ⟨hi, hj⟩ := hij.toNat_lt
    have := hall (i.toNat, j.toNat) (mem_allCells.2 ⟨hi, hj⟩)
      (by simpa [Board.mine] using hm)
    simpa [Board.tile] using this
  · intro hall
    have h' := hiff.2 (by
      intro c hc hp
      rw [mem_allCells] at hc
      have := hall c.1 c.2 ((Board.inBounds_natCast b c.1 c.2).2 hc)
        (by simpa [Board.mine] using hp)
      simpa [Board.tile] using this)
    have : ((b.columns * b.rows : Nat) : Int) = (b.columns : Int) * (b.rows : Int) := by
      push_cast; rfl
    omega

theorem revealAt_ext (b : Board) (x y : Int) (hwf : b.WF) (hxy : b.inBounds x y)
    (hh : (b.tile x y).getState = TileState.Hidden) (hm : b.mine x y = false) :
    ∃ g, b.revealAt x y = some (b.withGrid g) ∧ GExt b b.grid g := by
  unfold Board.revealAt
  by_cases hz : b.getMineCount x y = 0
  · simp only [hz, if_true]
    obtain ⟨b', hb'⟩ := revealEmptyTiles_isSome b x y hwf.grid
    obtain ⟨g', rfl, hx, -⟩ := revealEmptyTilesFuel_spec b _ b.grid x y b' hwf.grid hm hb'
    exact ⟨g', hb', hx⟩
  · simp only [hz, if_false]
    exact ⟨_, rfl, GExt_openAt (S := b) (c := (x, y)) hwf.grid hxy hh⟩

/-- C2: a primary action on a concealed hazard-free cell of a session in progress whose
`mines` is the number of hazard cells ends Won exactly when every hazard-free cell is then
revealed or flagged (in the board after the reveal, and equally in the final board); when
it ends Won every hazard cell is a `Flag`; it never ends Lost. -/
theorem handleLeftClick_safe_win (b : Board) (x y : Int) (hwf : b.WF)
    (hwon : b.gameWon = false) (hlost : b.gameLost = false)
    (hcount : b.mines = (b.hazardCount : Int)) (hxy : b.inBounds x y)
    (hhid : (b.tile x y).getState = TileState.Hidden) (hm : b.mine x y = false) :
    ∃ r b', b.revealAt x y = some r ∧ b.handleLeftClick x y = some b' ∧
      b'.gameLost = false ∧ b'.hasMine = b.hasMine ∧
      (b'.gameWon = true ↔ ∀ i j : Int, b.inBounds i j → b.mine i j = false →
        (r.tile i j).getState = TileState.Revealed ∨ (r.tile i j).getState = TileState.Flag) ∧
      (b'.gameWon = true ↔ ∀ i j : Int, b.inBounds i j → b.mine i j = false →
        (b'.tile i j).getState = TileState.Revealed ∨
          (b'.tile i j).getState = TileState.Flag) ∧
      (b'.gameWon = true → ∀ i j : Int, b.inBounds i j → b.mine i j = true →
        (b'.tile i j).getState = TileState.Flag) ∧
      (b'.gameWon = false → b'.gameLost = false ∧ b' = r) := by
  obtain ⟨g, hr, hx⟩ := revealAt_ext b x y hwf hxy hhid hm
  have hd := hx.1
  have hcl : b.handleLeftClick x y = some (b.withGrid g).checkWin := by
    unfold Board.revealAt at hr
    simp only [Board.handleLeftClick, hxy, hwon, hlost, hhid, hm, if_true, or_self,
      Bool.false_eq_true, if_false, hr, Option.map_some']
  have htest := winTest_iff (b.withGrid g) hcount
  simp only [withGrid_inBounds, withGrid_mine, withGrid_tile] at htest
  refine ⟨b.withGrid g, (b.withGrid g).checkWin, hr, hcl, ?_⟩
  unfold Board.checkWin
  by_cases ht : (b.withGrid g).revealedTiles =
      ((b.withGrid g).columns : Int) * ((b.withGrid g).rows : Int) - (b.withGrid g).mines
  · simp only [ht, if_true]
    have hall := htest.1 ht
    have key := (revealAllMinesFlags_zero ({ b.withGrid g with gameWon := true }) hd).2
    have htile : ∀ i j : Int, b.inBounds i j →
        (({ b.withGrid g with gameWon := true } : Board).revealAllMinesFlags 0).tile i j =
          if b.mine i j = true then ⟨TileState.Flag, 0⟩ else tileAt g (i, j) := by
      intro i j hij
      obtain ⟨hi, hj⟩ := hij.toNat_lt
      have k := key i.toNat j.toNat
      have e1 : ({ b.withGrid g with gameWon := true } : Board).columns = b.columns := rfl
      have e2 : ({ b.withGrid g with gameWon := true } : Board).rows = b.rows := rfl
      have e3 : ({ b.withGrid g with gameWon := true } : Board).hasMine = b.hasMine := rfl
      have e4 : ({ b.withGrid g with gameWon := true } : Board).grid = g := rfl
      rw [e1, e2, e3, e4] at k
      simp only [hi, hj, true_and] at k
      exact k
    refine ⟨hlost, rfl, ?_, ?_, ?_, ?_⟩
    · exact ⟨fun _ => hall, fun _ => rfl⟩
    · refine ⟨fun _ i j hij hmm => ?_, fun _ => rfl⟩
      rw [htile i j hij]
      simp only [hmm, Bool.false_eq_true, if_false]
      exact hall i j hij hmm
    · intro _ i j hij hmm
      rw [htile i j hij]
      simp only [hmm, if_true]
      rfl
    · intro h
      exact absurd h (by simp [Board.revealAllMinesFlags])
  · simp only [ht, if_false]
    have hw : (b.withGrid g).gameWon = false := hwon
    refine ⟨hlost, rfl, ?_, ?_, ?_, ?_⟩
    · constructor
      · intro h; rw [hw] at h; exact absurd h (by simp)
      · intro h; exact absurd (htest.2 h) ht
    · constructor
      · intro h; rw [hw] at h; exact absurd h (by simp)
      · intro h; exact absurd (htest.2 h) ht
    · intro h; rw [hw] at h; exact absurd h (by simp)
    · intro _; exact ⟨hlost, trivial⟩

theorem hazardCount_eq (b : Board) : b.hazardCount = mineCountOf b.columns b.rows b.hasMine := rfl

theorem countP_update {α : Type} (p q : α → Bool) (l : List α) (hn : l.Nodup) (a : α)
    (ha : a ∈ l) (hq : q a = true) (hp : p a = false) (hrest : ∀ b ∈ l, b ≠ a → q b = p b) :
    l.countP q = l.countP p + 1 := by
  induction l with
  | nil => simp at ha
  | cons b l ih =>
    rw [List.nodup_cons] at hn
    simp only [List.countP_cons]
    rcases List.mem_cons.1 ha with rfl | ha'
    · have hsame : l.countP q = l.countP p := by
        apply List.countP_congr
        intro x hx
        have hxa : x ≠ a := fun e => hn.1 (e ▸ hx)
        rw [hrest x (List.mem_cons_of_mem _ hx) hxa]
      simp [hq, hp, hsame]
    · have hba : b ≠ a := fun e => hn.1 (e ▸ ha')
      have := ih hn.2 ha' (fun x hx hxa => hrest x (List.mem_cons_of_mem _ hx) hxa)
      rw [this, hrest b (List.mem_cons_self _ _) hba]
      omega

theorem mineCountOf_set2 {n m : Nat} {hm : List (List Bool)} (hd : Dims hm n m) {x y : Nat}
    (hx : x < n) (hy : y < m) (hf : at2 hm x y = false) :
    mineCountOf n m (set2 hm x y true) = mineCountOf n m hm + 1 := by
  unfold mineCountOf
  apply countP_update _ _ _ (nodup_allCells n m) (x, y) (mem_allCells.2 ⟨hx, hy⟩)
  · exact at2_set2_self hd hx hy true
  · exact hf
  · intro c _ hne
    apply at2_set2_ne hd hx hy
    intro h
    exact hne (Prod.ext h.1 h.2)

theorem mineCountOf_le (n m : Nat) (hm : List (List Bool)) : mineCountOf n m hm ≤ n * m := by
  unfold mineCountOf
  rw [← length_allCells n m]
  exact List.countP_le_length _

/-- The loop of `placeMines`, when it finishes, has added exactly `minesToPlace` hazards. -/
theorem placeMinesLoop_spec (n m : Nat) :
    ∀ (rs : List (Nat × Nat)) (hm : List (List Bool)) (k : Int) (hm' : List (List Bool)),
      Dims hm n m → placeMinesLoop n m rs hm k = some hm' →
      Dims hm' n m ∧ (0 ≤ k → (mineCountOf n m hm' : Int) = mineCountOf n m hm + k) ∧
        (k ≤ 0 → hm' = hm) := by
  intro rs
  induction rs with
  | nil =>
    intro hm k hm' hd h
    unfold placeMinesLoop at h
    by_cases hk : k > 0
    · simp [hk] at h
    · simp only [hk, if_false, Option.some.injEq] at h
      subst h
      exact ⟨hd, fun h0 => by omega, fun _ => rfl⟩
  | cons r rs ih =>
    intro hm k hm' hd h
    unfold placeMinesLoop at h
    by_cases hk : k > 0
    · simp only [hk, if_true] at h
      by_cases hz : n = 0 ∨ m = 0
      · simp [hz] at h
      · simp only [hz, if_false] at h
        have hx : r.1 % n < n := Nat.mod_lt _ (by omega)
        have hy : r.2 % m < m := Nat.mod_lt _ (by omega)
        by_cases hf : at2 hm (r.1 % n) (r.2 % m) = false
        · simp only [hf, if_true] at h
          obtain ⟨h1, h2, _⟩ := ih _ _ _ (Dims_set2 hd _ _ true) h
          refine ⟨h1, fun _ => ?_, fun h0 => by omega⟩
          have := h2 (by omega)
          rw [mineCountOf_set2 hd hx hy hf] at this
          push_cast at this
          omega
        · simp only [hf, if_false] at h
          obtain ⟨h1, h2, _⟩ := ih _ _ _ hd h
          exact ⟨h1, h2, fun h0 => by omega⟩
    · simp only [hk, if_false, Option.some.injEq] at h
      subst h
      exact ⟨hd, fun h0 => by omega, fun _ => rfl⟩

theorem Dims_resize {α : Type} (g : List (List α)) (n m : Nat) (v : α)
    (h : ∀ col ∈ g, col.length = m) : Dims (resize g n (List.replicate m v)) n m := by
  unfold resize
  refine ⟨?_, ?_⟩
  · simp only [List.length_append, List.length_take, List.length_replicate]
    omega
  · intro col hcol
    rcases List.mem_append.1 hcol with h1 | h1
    · exact h col (List.mem_of_mem_take h1)
    · rw [List.eq_of_mem_replicate h1]
      simp

theorem at2_resize_false (g : List (List Bool)) (n m : Nat)
    (hclear : ∀ x y, at2 g x y = false) (x y : Nat) :
    at2 (resize g n (List.replicate m false)) x y = false := by
  unfold resize at2
  simp only [List.getD_eq_getElem?_getD]
  by_cases hx : x < (List.take n g).length
  · rw [List.getElem?_append_left hx]
    have := hclear x y
    unfold at2 at this
    simp only [List.getD_eq_getElem?_getD] at this
    rw [List.getElem?_take_of_lt (by simp at hx; omega)]
    exact this
  · rw [List.getElem?_append_right (by omega)]
    simp only [List.getElem?_replicate]
    split
    · simp only [Option.getD_some, List.getElem?_replicate]
      split <;> rfl
    · simp

theorem mineCountOf_clear (n m : Nat) (hm : List (List Bool))
    (hclear : ∀ x y, at2 hm x y = false) : mineCountOf n m hm = 0 := by
  unfold mineCountOf
  rw [List.countP_eq_zero]
  intro c _
  simp [hclear]

theorem placeMinesLoop_hit (n m : Nat) (r : Nat × Nat) (rs : List (Nat × Nat))
    (hm : List (List Bool)) (k : Int) (hk : 0 < k) (hn : 0 < n) (hm0 : 0 < m)
    (hit : at2 hm (r.1 % n) (r.2 % m) = true) :
    placeMinesLoop n m (r :: rs) hm k = placeMinesLoop n m rs hm k := by
  rw [placeMinesLoop]
  have : ¬ (n = 0 ∨ m = 0) := by omega
  simp [hk, this, hit]

/-- C5: when `placeMines`, run with a non-negative count on an all-clear hazard map,
finishes its loop, the number of hazard cells is exactly `mines` (which is unchanged) and at
most `columns * rows`; a sample that hits a claimed cell leaves the map and the remaining
count as they are. -/
theorem placeMines_exact (b : Board) (rs : List (Nat × Nat)) (b' : Board)
    (hn : 0 ≤ b.mines) (hshape : ∀ col ∈ b.hasMine, col.length = b.rows)
    (hclear : ∀ x y, at2 b.hasMine x y = false) (h : b.placeMines rs = some b') :
    (b'.hazardCount : Int) = b.mines ∧ b'.mines = b.mines ∧
      b'.hazardCount ≤ b.columns * b.rows ∧ b.mines ≤ ((b.columns * b.rows : Nat) : Int) ∧
      b'.columns = b.columns ∧ b'.rows = b.rows ∧ Dims b'.hasMine b.columns b.rows ∧
      ∀ (r : Nat × Nat) (rs' : List (Nat × Nat)) (hm : List (List Bool)) (k : Int),
        0 < k → 0 < b.columns → 0 < b.rows →
        at2 hm (r.1 % b.columns) (r.2 % b.rows) = true →
        placeMinesLoop b.columns b.rows (r :: rs') hm k =
          placeMinesLoop b.columns b.rows rs' hm k := by
  unfold Board.placeMines at h
  cases hl : placeMinesLoop b.columns b.rows rs
      (resize b.hasMine b.columns (List.replicate b.rows false)) b.mines with
  | none => rw [hl] at h; simp at h
  | some hm' =>
    rw [hl] at h
    simp only [Option.map_some', Option.some.injEq] at h
    subst h
    obtain ⟨h1, h2, _⟩ := placeMinesLoop_spec b.columns b.rows rs _ b.mines hm'
      (Dims_resize b.hasMine b.columns b.rows false hshape) hl
    have h3 := h2 hn
    rw [mineCountOf_clear _ _ _ (at2_resize_false b.hasMine b.columns b.rows hclear)] at h3
    have h4 := mineCountOf_le b.columns b.rows hm'
    refine ⟨?_, rfl, h4, ?_, rfl, rfl, h1, ?_⟩
    · show (mineCountOf b.columns b.rows hm' : Int) = b.mines
      rw [h3]; simp
    · have : ((mineCountOf b.columns b.rows hm' : Nat) : Int) ≤
          ((b.columns * b.rows : Nat) : Int) := by
        exact_mod_cast mineCountOf_le b.columns b.rows hm'
      rw [h3] at this
      simpa using this
    · intro r rs' hm k hk hc hr hit
      exact placeMinesLoop_hit _ _ r rs' hm k hk hc hr hit

theorem freshCells_le_distinct (n m : Nat) (rs : List (Nat × Nat)) (hm : List (List Bool)) :
    freshCells n m rs hm ≤ distinctCells n m rs := by
  unfold freshCells distinctCells
  rw [← List.card_toFinset]
  exact Finset.card_filter_le _ _

theorem freshCells_clear (n m : Nat) (rs : List (Nat × Nat)) (hm : List (List Bool))
    (hclear : ∀ x y, at2 hm x y = false) : freshCells n m rs hm = distinctCells n m rs := by
  unfold freshCells distinctCells
  rw [← List.card_toFinset, Finset.filter_true_of_mem]
  intro c _
  exact hclear c.1 c.2

/-- The loop of `placeMines` finishes as soon as the samples hit enough distinct clear
cells. -/
theorem placeMinesLoop_isSome (n m : Nat) (hn : 0 < n) (hm0 : 0 < m) :
    ∀ (rs : List (Nat × Nat)) (hm : List (List Bool)) (k : Int), Dims hm n m →
      k ≤ (freshCells n m rs hm : Int) → ∃ hm', placeMinesLoop n m rs hm k = some hm' := by
  intro rs
  induction rs with
  | nil =>
    intro hm k _ hk
    have : freshCells n m [] hm = 0 := by simp [freshCells]
    rw [this] at hk
    unfold placeMinesLoop
    have : ¬ (k > 0) := by simp at hk; omega
    simp [this]
  | cons r rs ih =>
    intro hm k hd hk
    unfold placeMinesLoop
    by_cases hk0 : k > 0
    · simp only [hk0, if_true]
      have hz : ¬ (n = 0 ∨ m = 0) := by omega
      simp only [hz, if_false]
      have hx : r.1 % n < n := Nat.mod_lt _ hn
      have hy : r.2 % m < m := Nat.mod_lt _ hm0
      by_cases hf : at2 hm (r.1 % n) (r.2 % m) = false
      · simp only [hf, if_true]
        apply ih _ _ (Dims_set2 hd _ _ true)
        have hle : freshCells n m (r :: rs) hm ≤
            freshCells n m rs (set2 hm (r.1 % n) (r.2 % m) true) + 1 := by
          unfold freshCells
          rw [List.map_cons, List.toFinset_cons]
          calc (Finset.filter (fun c : Nat × Nat => at2 hm c.1 c.2 = false)
                (insert (sampleCell n m r) (rs.map (sampleCell n m)).toFinset)).card
              ≤ (insert (sampleCell n m r) (Finset.filter (fun c : Nat × Nat =>
                  at2 (set2 hm (r.1 % n) (r.2 % m) true) c.1 c.2 = false)
                  (rs.map (sampleCell n m)).toFinset)).card := by
                apply Finset.card_le_card
                intro c hc
                rw [Finset.mem_filter, Finset.mem_insert] at hc
                rw [Finset.mem_insert, Finset.mem_filter]
                by_cases e : c = sampleCell n m r
                · exact Or.inl e
                · right
                  rcases hc.1 with h1 | h1
                  · exact absurd h1 e
                  · refine ⟨h1, ?_⟩
                    rw [at2_set2_ne hd hx hy]
                    · exact hc.2
                    · intro hh
                      exact e (Prod.ext hh.1 hh.2)
            _ ≤ _ := Finset.card_insert_le _ _
        omega
      · simp only [hf, if_false]
        apply ih _ _ hd
        have heq : freshCells n m (r :: rs) hm = freshCells n m rs hm := by
          unfold freshCells
          rw [List.map_cons, List.toFinset_cons, Finset.filter_insert]
          have : ¬ (at2 hm (sampleCell n m r).1 (sampleCell n m r).2 = false) := hf
          simp only [this, if_false]
          simp
        omega
    · exact ⟨hm, by simp [hk0]⟩

theorem getMineCount_eq (b : Board) (x y : Int) :
    b.getMineCount x y = ((block9 x y).countP
      (fun p => decide (b.inBounds p.1 p.2 ∧ b.mine p.1 p.2 = true)) : Nat) := by
  unfold Board.getMineCount
  rw [foldl_product (fun dx dy (count : Int) =>
    if b.inBounds (x + dx) (y + dy) ∧ b.mine (x + dx) (y + dy) = true then count + 1
    else count) offsets offsets 0]
  have e : block9 x y = (List.product offsets offsets).map (fun d => (x + d.1, y + d.2)) := by
    rfl
  rw [e, List.countP_map]
  have := foldl_count (fun d : Int × Int =>
    b.inBounds (x + d.1) (y + d.2) ∧ b.mine (x + d.1) (y + d.2) = true)
    (List.product offsets offsets) 0
  rw [this, zero_add]
  rfl

theorem getMineCount_eq_neighbourHazards (b : Board) (x y : Int) :
    b.getMineCount x y =
      b.neighbourHazards x y + (if b.inBounds x y ∧ b.mine x y = true then 1 else 0) := by
  rw [getMineCount_eq]
  unfold Board.neighbourHazards block9 neighbours8
  simp only [List.countP_cons, List.countP_nil, add_zero, Int.add_zero, Int.add_neg_one,
    Bool.and_eq_true, decide_eq_true_eq, zero_add]
  by_cases h : b.inBounds x y ∧ b.mine x y = true
  · simp only [h, and_self, if_true]; push_cast; omega
  · simp only [h, if_false]; push_cast; omega

theorem getMineCount_of_clear (b : Board) (x y : Int) (h : b.mine x y = false) :
    b.getMineCount x y = b.neighbourHazards x y := by
  rw [getMineCount_eq_neighbourHazards]
  simp [h]

theorem countAdjacentMines_spec (b : Board)
    (hshape : ∀ col ∈ b.adjacentMineCounts, col.length = b.rows) :
    Dims b.countAdjacentMines.adjacentMineCounts b.columns b.rows ∧
      ∀ x y : Nat, x < b.columns → y < b.rows →
        at2 b.countAdjacentMines.adjacentMineCounts x y =
          if at2 b.hasMine x y = false then b.getMineCount x y
          else at2 (resize b.adjacentMineCounts b.columns (List.replicate b.rows 0)) x y := by
  have key := forXY_grid b.columns b.rows (fun x y => at2 b.hasMine x y = false)
    (fun x y (_ : Int) => b.getMineCount x y)
    (resize b.adjacentMineCounts b.columns (List.replicate b.rows 0))
    (Dims_resize _ _ _ _ hshape)
  refine ⟨key.1, ?_⟩
  intro x y hx hy
  have := key.2 x y
  simp only [hx, hy, true_and] at this
  exact this

/-- After `countAdjacentMines` the stored count of every in-bounds hazard-free cell is the
number of its in-bounds hazard neighbours. -/
theorem countAdjacentMines_adj (b : Board)
    (hshape : ∀ col ∈ b.adjacentMineCounts, col.length = b.rows) (x y : Int)
    (hxy : b.inBounds x y) (hm : b.mine x y = false) :
    b.countAdjacentMines.adj x y = (b.countAdjacentMines.neighbourHazards x y : Int) := by
  obtain ⟨hx, hy⟩ := hxy.toNat_lt
  have := (countAdjacentMines_spec b hshape).2 x.toNat y.toNat hx hy
  have hm' : at2 b.hasMine x.toNat y.toNat = false := hm
  simp only [hm', if_true] at this
  have e1 : ((x.toNat : Nat) : Int) = x := Int.toNat_of_nonneg hxy.1
  have e2 : ((y.toNat : Nat) : Int) = y := Int.toNat_of_nonneg hxy.2.2.1
  rw [e1, e2] at this
  unfold Board.adj
  rw [this, getMineCount_of_clear b x y hm]
  rfl

theorem placeMines_some {b : Board} {rs : List (Nat × Nat)} {b' : Board}
    (h : b.placeMines rs = some b') :
    ∃ hm', b' = { b with hasMine := hm' } ∧
      placeMinesLoop b.columns b.rows rs
        (resize b.hasMine b.columns (List.replicate b.rows false)) b.mines = some hm' := by
  unfold Board.placeMines at h
  cases hl : placeMinesLoop b.columns b.rows rs
      (resize b.hasMine b.columns (List.replicate b.rows false)) b.mines with
  | none => rw [hl] at h; simp at h
  | some hm' =>
    rw [hl] at h
    simp only [Option.map_some', Option.some.injEq] at h
    exact ⟨hm', h.symm, rfl⟩

theorem at2_nil_false (x y : Nat) : at2 ([] : List (List Bool)) x y = false := by
  simp [at2]

/-- The part shared by the constructor and `reset`: on a board whose tile table has the
right dimensions and whose hazard map is all clear, `initializeBoard`, `placeMines` and
`countAdjacentMines`. -/
theorem generate_result (b0 : Board) (rs : List (Nat × Nat)) (b' : Board)
    (hgrid : Dims b0.grid b0.columns b0.rows)
    (hshape : ∀ col ∈ b0.hasMine, col.length = b0.rows)
    (hclear : ∀ x y, at2 b0.hasMine x y = false) (hadj : b0.adjacentMineCounts = [])
    (h : (b0.initializeBoard.placeMines rs).map Board.countAdjacentMines = some b') :
    b'.columns = b0.columns ∧ b'.rows = b0.rows ∧ b'.mines = b0.mines ∧
      b'.originalMines = b0.originalMines ∧ b'.flagsPlaced = b0.flagsPlaced ∧
      b'.gameWon = b0.gameWon ∧ b'.gameLost = b0.gameLost ∧
      b'.isDebugMode = b0.isDebugMode ∧ b'.WF ∧
      (∀ x y : Int, b0.inBounds x y → b'.tile x y = Tile.new) ∧
      (0 ≤ b0.mines → (b'.hazardCount : Int) = b0.mines) ∧
      (∀ x y : Int, b0.inBounds x y → b'.mine x y = false →
        b'.adj x y = (b'.neighbourHazards x y : Int)) ∧
      (∀ x y : Int, b0.inBounds x y → b'.mine x y = true → b'.adj x y = 0) := by
  cases hp : b0.initializeBoard.placeMines rs with
  | none => rw [hp] at h; simp at h
  | some b3 =>
    rw [hp] at h
    simp only [Option.map_some', Option.some.injEq] at h
    subst h
    obtain ⟨hm', rfl, hl⟩ := placeMines_some hp
    have hg := initializeBoard_grid b0 hgrid
    have hex := placeMinesLoop_spec b0.columns b0.rows rs _ b0.mines hm'
      (Dims_resize b0.hasMine b0.columns b0.rows false hshape) hl
    have hcnt := countAdjacentMines_spec ({ b0.initializeBoard with hasMine := hm' })
      (by rw [show ({ b0.initializeBoard with hasMine := hm' } : Board).adjacentMineCounts
            = b0.adjacentMineCounts from rfl, hadj]; simp)
    refine ⟨rfl, rfl, rfl, rfl, rfl, rfl, rfl, rfl, ⟨hg.1, hex.1, hcnt.1⟩, ?_, ?_, ?_, ?_⟩
    · intro x y hxy
      obtain ⟨hx, hy⟩ := hxy.toNat_lt
      exact hg.2 _ _ hx hy
    · intro hn
      have := hex.2.1 hn
      rw [mineCountOf_clear _ _ _ (at2_resize_false b0.hasMine b0.columns b0.rows hclear)]
        at this
      show (mineCountOf b0.columns b0.rows hm' : Int) = b0.mines
      rw [this]; simp
    · intro x y hxy hm
      exact countAdjacentMines_adj ({ b0.initializeBoard with hasMine := hm' })
        (by rw [show ({ b0.initializeBoard with hasMine := hm' } : Board).adjacentMineCounts
            = b0.adjacentMineCounts from rfl, hadj]; simp) x y hxy hm
    · intro x y hxy hm
      obtain ⟨hx, hy⟩ := hxy.toNat_lt
      have hcnt2 : at2 ({ b0.initializeBoard with hasMine := hm' } : Board).countAdjacentMines.adjacentMineCounts
          x.toNat y.toNat =
          if at2 hm' x.toNat y.toNat = false then
            ({ b0.initializeBoard with hasMine := hm' } : Board).getMineCount x.toNat y.toNat
          else at2 (resize b0.adjacentMineCounts b0.columns (List.replicate b0.rows 0))
            x.toNat y.toNat := hcnt.2 x.toNat y.toNat hx hy
      have hmt : at2 hm' x.toNat y.toNat = true := hm
      simp only [hmt, Bool.true_eq_false, if_false] at hcnt2
      unfold Board.adj
      rw [hcnt2, hadj, resize_nil, at2_replicate _ _ _ _ _ hx hy]

theorem generate_isSome (b0 : Board) (rs : List (Nat × Nat)) (hc : 0 < b0.columns)
    (hr : 0 < b0.rows) (hshape : ∀ col ∈ b0.hasMine, col.length = b0.rows)
    (hclear : ∀ x y, at2 b0.hasMine x y = false)
    (hrs : b0.mines ≤ (distinctCells b0.columns b0.rows rs : Int)) :
    ∃ b', (b0.initializeBoard.placeMines rs).map Board.countAdjacentMines = some b' := by
  have hd := Dims_resize b0.hasMine b0.columns b0.rows false hshape
  have hcl := at2_resize_false b0.hasMine b0.columns b0.rows hclear
  obtain ⟨hm', hl⟩ := placeMinesLoop_isSome b0.columns b0.rows hc hr rs _ b0.mines hd
    (by rw [freshCells_clear _ _ _ _ hcl]; exact hrs)
  refine ⟨({ b0.initializeBoard with hasMine := hm' } : Board).countAdjacentMines, ?_⟩
  unfold Board.placeMines
  have e1 : b0.initializeBoard.columns = b0.columns := rfl
  have e2 : b0.initializeBoard.rows = b0.rows := rfl
  have e3 : b0.initializeBoard.hasMine = b0.hasMine := rfl
  have e4 : b0.initializeBoard.mines = b0.mines := rfl
  rw [e1, e2, e3, e4, hl]
  rfl

theorem reset_eq (b : Board) (rs : List (Nat × Nat)) :
    b.reset rs = (b.resetStart.initializeBoard.placeMines rs).map Board.countAdjacentMines :=
  rfl

theorem resetStart_grid (b : Board) : Dims b.resetStart.grid b.columns b.rows := by
  show Dims (resize [] b.columns (List.replicate b.rows Tile.new)) b.columns b.rows
  exact Dims_resize [] _ _ _ (by simp)

theorem resetStart_shape (b : Board) : ∀ col ∈ b.resetStart.hasMine, col.length = b.rows :=
  (Dims_resize [] b.columns b.rows false (by simp)).2

theorem resetStart_clear (b : Board) : ∀ x y, at2 b.resetStart.hasMine x y = false :=
  at2_resize_false [] b.columns b.rows at2_nil_false

/-- C7: for a valid configuration (positive dimensions, a non-negative original count) and a
sample sequence that hits at least `originalMines` distinct cells, `reset` returns from any
session state, and the new state is in progress, has no flags, every cell concealed, the
same dimensions, `mines = originalMines` and exactly that many hazard cells. -/
theorem reset_restores (b : Board) (rs : List (Nat × Nat)) (hc : 0 < b.columns)
    (hr : 0 < b.rows) (hn : 0 ≤ b.originalMines)
    (hrs : b.originalMines ≤ (distinctCells b.columns b.rows rs : Int)) :
    ∃ b', b.reset rs = some b' ∧ b'.gameWon = false ∧ b'.gameLost = false ∧
      b'.flagsPlaced = 0 ∧
      (∀ x y : Int, b.inBounds x y → b'.tile x y = ⟨TileState.Hidden, 0⟩) ∧
      b'.columns = b.columns ∧ b'.rows = b.rows ∧ b'.mines = b.originalMines ∧
      b'.originalMines = b.originalMines ∧ (b'.hazardCount : Int) = b.originalMines ∧
      b'.WF := by
  obtain ⟨b', hb'⟩ := generate_isSome b.resetStart rs hc hr (resetStart_shape b)
    (resetStart_clear b) hrs
  obtain ⟨h1, h2, h3, h4, h5, h6, h7, _, h9, h10, h11, _⟩ :=
    generate_result b.resetStart rs b' (resetStart_grid b) (resetStart_shape b)
      (resetStart_clear b) rfl hb'
  exact ⟨b', hb', h6, h7, h5, h10, h1, h2, h3, h4, h11 hn, h9⟩

theorem layoutAt_some {boardLayout : List (List Bool)} {rows columns : Nat}
    (h : RectLayout boardLayout rows columns) {y x : Nat} (hy : y < rows) (hx : x < columns) :
    layoutAt boardLayout y x = some ((boardLayout.getD y []).getD x false) := by
  obtain ⟨h1, h2⟩ := h
  have hy' : y < boardLayout.length := by omega
  have hrow : (boardLayout[y]).length = columns := h2 _ (List.getElem_mem _)
  unfold layoutAt
  rw [List.getElem?_eq_getElem hy', Option.some_bind, List.getD_eq_getElem _ _ hy',
    List.getElem?_eq_getElem (by omega), List.getD_eq_getElem _ _ (by omega)]

/-- The loop of lines 398-410 splits into its effect on `hasMine` and on `mineCount`, as long
as every read of the layout is in range. -/
theorem foldl_layoutStep (boardLayout : List (List Bool)) (L : Nat → Nat → Bool) :
    ∀ (l : List (Nat × Nat)) (hm : List (List Bool)) (c : Int),
      (∀ p ∈ l, layoutAt boardLayout p.1 p.2 = some (L p.1 p.2)) →
      l.foldl (fun s p => layoutStep boardLayout p.1 p.2 s) (some (hm, c)) =
        some (l.foldl (fun hm p => set2 hm p.2 p.1 (L p.1 p.2)) hm,
          l.foldl (fun c p => if L p.1 p.2 = true then c + 1 else c) c) := by
  intro l
  induction l with
  | nil => intro hm c _; rfl
  | cons p l ih =>
    intro hm c h
    have hp := h p (List.mem_cons_self _ _)
    rw [List.foldl_cons, List.foldl_cons, List.foldl_cons]
    have hstep : layoutStep boardLayout p.1 p.2 (some (hm, c)) =
        some (set2 hm p.2 p.1 (L p.1 p.2), if L p.1 p.2 = true then c + 1 else c) := by
      unfold layoutStep
      simp only [hp]
      cases L p.1 p.2 <;> simp
    rw [hstep]
    exact ih _ _ (fun q hq => h q (List.mem_cons_of_mem _ hq))

theorem countP_product {α β : Type} (p : α × β → Bool) (l1 : List α) (l2 : List β) :
    (List.product l1 l2).countP p = (l1.map (fun a => l2.countP (fun b => p (a, b)))).sum := by
  induction l1 with
  | nil => rfl
  | cons a l1 ih =>
    have e : List.product (a :: l1) l2 = l2.map (Prod.mk a) ++ List.product l1 l2 :=
      List.product_cons a l1 l2
    rw [e, List.countP_append, List.countP_map, ih, List.map_cons, List.sum_cons]
    rfl

theorem countP_range_getD (row : List Bool) :
    (List.range row.length).countP (fun x => row.getD x false) = row.count true := by
  induction row with
  | nil => rfl
  | cons a row ih =>
    rw [List.length_cons, List.range_succ_eq_map, List.countP_cons, List.countP_map,
      List.count_cons]
    have : ((fun x => (a :: row).getD x false) ∘ Nat.succ) = fun x => row.getD x false := by
      funext x; rfl
    rw [this, ih]
    cases a <;> simp

theorem map_range_getD {α β : Type} (f : α → β) (d : α) (l : List α) :
    (List.range l.length).map (fun i => f (l.getD i d)) = l.map f := by
  induction l with
  | nil => rfl
  | cons a l ih =>
    rw [List.length_cons, List.range_succ_eq_map, List.map_cons, List.map_map, List.map_cons]
    have : ((fun i => f ((a :: l).getD i d)) ∘ Nat.succ) = fun i => f (l.getD i d) := by
      funext i; rfl
    rw [this, ih]
    rfl

theorem layoutMines_eq {boardLayout : List (List Bool)} {rows columns : Nat}
    (h : RectLayout boardLayout rows columns) :
    (allCells rows columns).countP (fun p => (boardLayout.getD p.1 []).getD p.2 false) =
      layoutMines boardLayout := by
  obtain ⟨h1, h2⟩ := h
  unfold allCells layoutMines
  rw [countP_product, ← h1, ← map_range_getD (fun row => List.count true row) []]
  congr 1
  apply List.map_congr_left
  intro y hy
  rw [List.mem_range] at hy
  have hrow : (boardLayout.getD y []).length = columns := by
    rw [List.getD_eq_getElem _ _ hy]
    exact h2 _ (List.getElem_mem _)
  rw [← hrow]
  exact countP_range_getD (boardLayout.getD y [])

theorem countP_allCells_swap (n m : Nat) (p : Nat → Nat → Bool) :
    (allCells n m).countP (fun c => p c.1 c.2) = (allCells m n).countP (fun c => p c.2 c.1) := by
  have hperm : List.Perm ((allCells m n).map Prod.swap) (allCells n m) := by
    rw [List.perm_ext_iff_of_nodup
      ((nodup_allCells m n).map Prod.swap_injective) (nodup_allCells n m)]
    intro c
    rw [List.mem_map, mem_allCells]
    constructor
    · rintro ⟨d, hd, rfl⟩
      rw [mem_allCells] at hd
      exact ⟨hd.2, hd.1⟩
    · intro hc
      exact ⟨c.swap, mem_allCells.2 ⟨hc.2, hc.1⟩, Prod.swap_swap c⟩
  rw [← hperm.countP_eq, List.countP_map]
  rfl

theorem layoutLoop_eq (boardLayout : List (List Bool)) (rows columns : Nat)
    (h : RectLayout boardLayout rows columns) (hm0 : List (List Bool))
    (hd : Dims hm0 columns rows) :
    ∃ hm, forXY rows columns (layoutStep boardLayout) (some (hm0, 0)) =
        some (hm, (layoutMines boardLayout : Int)) ∧ Dims hm columns rows ∧
      ∀ x y, x < columns → y < rows → at2 hm x y = (boardLayout.getD y []).getD x false := by
  have hsplit := foldl_layoutStep boardLayout
    (fun y x => (boardLayout.getD y []).getD x false) (allCells rows columns) hm0 0
    (by
      intro p hp
      rw [mem_allCells] at hp
      exact layoutAt_some h hp.1 hp.2)
  have hgrid := forYX_grid columns rows (fun _ _ => True)
    (fun x y (_ : Bool) => (boardLayout.getD y []).getD x false) hm0 hd
  simp only [if_true] at hgrid
  rw [forXY_eq_foldl] at hgrid
  have hcount := foldl_count (fun p : Nat × Nat => (boardLayout.getD p.1 []).getD p.2 false = true)
    (allCells rows columns) 0
  refine ⟨_, ?_, hgrid.1, ?_⟩
  · rw [forXY_eq_foldl, hsplit]
    congr 2
    rw [hcount, zero_add, ← layoutMines_eq h]
    congr 2
    funext p
    simp
  · intro x y hx hy
    have := hgrid.2 x y
    simp only [hx, hy, and_self, and_true, if_true] at this
    exact this

theorem initializeBoardFromLayout_spec (b : Board) (boardLayout : List (List Bool))
    (hwf : b.WF) (h : RectLayout boardLayout b.rows b.columns) :
    ∃ b', b.initializeBoardFromLayout boardLayout = some b' ∧
      b'.columns = b.columns ∧ b'.rows = b.rows ∧
      b'.mines = (layoutMines boardLayout : Int) ∧ b'.originalMines = b.originalMines ∧
      b'.flagsPlaced = b.flagsPlaced ∧ b'.gameWon = b.gameWon ∧ b'.gameLost = b.gameLost ∧
      b'.isDebugMode = b.isDebugMode ∧ b'.WF ∧
      (∀ x y : Int, b.inBounds x y → b'.tile x y = ⟨TileState.Hidden, 0⟩) ∧
      (∀ x y : Int, b.inBounds x y →
        b'.mine x y = (boardLayout.getD y.toNat []).getD x.toNat false) ∧
      (∀ x y : Int, b.inBounds x y → b'.mine x y = false →
        b'.adj x y = (b'.neighbourHazards x y : Int)) := by
  have hres : resize b.initializeBoard.hasMine b.columns (List.replicate b.rows false)
      = b.hasMine := resize_of_length _ _ _ hwf.hasMine.1
  obtain ⟨hm, hloop, hd, hval⟩ := layoutLoop_eq boardLayout b.rows b.columns h b.hasMine
    hwf.hasMine
  have hg := initializeBoard_grid b hwf.grid
  have hshape : ∀ col ∈ ({ b.initializeBoard with hasMine := hm } : Board).adjacentMineCounts,
      col.length = b.rows := hwf.adjacentMineCounts.2
  have hcnt := countAdjacentMines_spec ({ b.initializeBoard with hasMine := hm }) hshape
  refine ⟨{ ({ b.initializeBoard with hasMine := hm } : Board).countAdjacentMines with
      mines := (layoutMines boardLayout : Int) }, ?_, rfl, rfl, rfl, rfl, rfl, rfl, rfl, rfl,
    ⟨hg.1, hd, hcnt.1⟩, ?_, ?_, ?_⟩
  · unfold Board.initializeBoardFromLayout
    simp only [hres, hloop, Option.map_some']
  · intro x y hxy
    obtain ⟨hx, hy⟩ := hxy.toNat_lt
    exact hg.2 _ _ hx hy
  · intro x y hxy
    obtain ⟨hx, hy⟩ := hxy.toNat_lt
    exact hval _ _ hx hy
  · intro x y hxy hm0
    exact countAdjacentMines_adj ({ b.initializeBoard with hasMine := hm }) hshape x y hxy hm0

/-- C8: for a valid configuration and a sample sequence on which the preceding `reset`
finishes, loading a rectangular `rows × columns` layout returns a session whose hazard map
is the layout (`hasMine[x][y]` iff `boardLayout[y][x]`), whose `mines` is the number of
`true` entries of the layout whatever `originalMines` is, with every cell concealed, no
flags and the game in progress. -/
theorem handleTestClick_loads (b : Board) (rs : List (Nat × Nat))
    (boardLayout : List (List Bool)) (hc : 0 < b.columns) (hr : 0 < b.rows)
    (hrs : b.originalMines ≤ (distinctCells b.columns b.rows rs : Int))
    (h : RectLayout boardLayout b.rows b.columns) :
    ∃ b', b.handleTestClick rs boardLayout = some b' ∧
      (∀ x y : Int, b.inBounds x y →
        (b'.mine x y = true ↔ layoutAt boardLayout y.toNat x.toNat = some true)) ∧
      b'.mines = (layoutMines boardLayout : Int) ∧ (b'.hazardCount : Int) = b'.mines ∧
      (∀ x y : Int, b.inBounds x y → b'.tile x y = ⟨TileState.Hidden, 0⟩) ∧
      b'.flagsPlaced = 0 ∧ b'.gameWon = false ∧ b'.gameLost = false ∧
      b'.columns = b.columns ∧ b'.rows = b.rows ∧ b'.originalMines = b.originalMines ∧
      b'.WF := by
  obtain ⟨b1, hb1⟩ := generate_isSome b.resetStart rs hc hr (resetStart_shape b)
    (resetStart_clear b) hrs
  obtain ⟨r5, r6, _, r8, r3, r1, r2, _, r10, _⟩ :=
    generate_result b.resetStart rs b1 (resetStart_grid b) (resetStart_shape b)
      (resetStart_clear b) rfl hb1
  have r5 : b1.columns = b.columns := r5
  have r6 : b1.rows = b.rows := r6
  have r8 : b1.originalMines = b.originalMines := r8
  have r3 : b1.flagsPlaced = 0 := r3
  have r1 : b1.gameWon = false := r1
  have r2 : b1.gameLost = false := r2
  obtain ⟨b', hb', l1, l2, l3, l4, l5, l6, l7, _, l9, l10, l11, _⟩ :=
    initializeBoardFromLayout_spec b1 boardLayout r10 (by rw [r5, r6]; exact h)
  have hin : ∀ x y : Int, b.inBounds x y → b1.inBounds x y := by
    intro x y hxy
    unfold Board.inBounds at hxy ⊢
    rw [r5, r6]; exact hxy
  refine ⟨b', ?_, ?_, l3, ?_, ?_, ?_, ?_, ?_, ?_, ?_, ?_, l9⟩
  · unfold Board.handleTestClick
    rw [reset_eq, hb1]; exact hb'
  · intro x y hxy
    obtain ⟨hx, hy⟩ := hxy.toNat_lt
    rw [l11 x y (hin x y hxy), layoutAt_some h hy hx]
    simp
  · rw [l3]
    show ((mineCountOf b'.columns b'.rows b'.hasMine : Nat) : Int) = _
    unfold mineCountOf
    rw [← layoutMines_eq h, l1, l2, r5, r6,
      countP_allCells_swap b.rows b.columns (fun y x => (boardLayout.getD y []).getD x false)]
    congr 1
    apply List.countP_congr
    intro c hc
    rw [mem_allCells] at hc
    have hcb : b1.inBounds (c.1 : Int) (c.2 : Int) := by
      rw [Board.inBounds_natCast, r5, r6]; exact hc
    have := l11 (c.1 : Int) (c.2 : Int) hcb
    simp only [Board.mine, Int.toNat_ofNat] at this
    rw [this]
  · intro x y hxy; exact l10 x y (hin x y hxy)
  · rw [l5, r3]
  · rw [l6, r1]
  · rw [l7, r2]
  · rw [l1, r5]
  · rw [l2, r6]
  · rw [l4, r8]

/-- C6: in a session that is Won or Lost, a primary action, a secondary action and a
debug toggle, at any cell coordinate, return the state unchanged; so the outcome can only be
left through `reset`. -/
theorem terminal_noop (b : Board) (x y : Int) (h : b.gameWon = true ∨ b.gameLost = true) :
    b.handleLeftClick x y = some b ∧ b.handleRightClick x y = b ∧ b.handleDebugClick = b := by
  refine ⟨?_, ?_, ?_⟩
  · unfold Board.handleLeftClick
    by_cases hxy : b.inBounds x y
    · simp only [hxy, h, if_true]
    · simp only [hxy, if_false]
  · unfold Board.handleRightClick
    simp only [h, if_true]
  · unfold Board.handleDebugClick
    simp only [h, if_true]

theorem handleRightClick_terminal (b : Board) (x y : Int)
    (h : b.gameWon = true ∨ b.gameLost = true) : b.handleRightClick x y = b := by
  unfold Board.handleRightClick
  simp only [h, if_true]

theorem set2_restore {α : Type} [Inhabited α] {g : List (List α)} {n m : Nat}
    (hd : Dims g n m) {x y : Nat} (hx : x < n) (hy : y < m) (a : α) :
    set2 (set2 g x y a) x y (at2 g x y) = g := by
  apply Dims_ext (Dims_set2 (Dims_set2 hd _ _ _) _ _ _) hd
  intro i j _ _
  rw [at2_set2 (Dims_set2 hd _ _ _) hx hy, at2_set2 hd hx hy]
  by_cases h : i = x ∧ j = y
  · obtain ⟨rfl, rfl⟩ := h; simp
  · simp [h]

theorem handleRightClick_hidden (b : Board) (x y : Int) (hwon : b.gameWon = false)
    (hlost : b.gameLost = false) (hxy : b.inBounds x y)
    (hh : (b.tile x y).getState = TileState.Hidden) :
    b.handleRightClick x y =
      { b.setTile x y TileState.Flag 0 with flagsPlaced := b.flagsPlaced + 1 } := by
  unfold Board.handleRightClick
  simp [hwon, hlost, hxy, hh]

theorem handleRightClick_flag (b : Board) (x y : Int) (hwon : b.gameWon = false)
    (hlost : b.gameLost = false) (hxy : b.inBounds x y)
    (hh : (b.tile x y).getState = TileState.Flag) :
    b.handleRightClick x y =
      { b.setTile x y TileState.Hidden 0 with flagsPlaced := b.flagsPlaced - 1 } := by
  unfold Board.handleRightClick
  simp [hwon, hlost, hxy, hh]

theorem handleRightClick_other (b : Board) (x y : Int)
    (hh : ¬ (b.inBounds x y ∧ ((b.tile x y).getState = TileState.Hidden ∨
      (b.tile x y).getState = TileState.Flag))) :
    b.handleRightClick x y = b := by
  unfold Board.handleRightClick
  by_cases ht : b.gameWon = true ∨ b.gameLost = true
  · simp only [ht, if_true]
  · simp only [ht, if_false]
    by_cases hxy : b.inBounds x y
    · simp only [hxy, if_true]
      have h1 : ¬ (b.tile x y).getState = TileState.Hidden := fun h => hh ⟨hxy, Or.inl h⟩
      have h2 : ¬ (b.tile x y).getState = TileState.Flag := fun h => hh ⟨hxy, Or.inr h⟩
      simp only [h1, h2, if_false]
    · simp only [hxy, if_false]

/-- The secondary action applied twice at a cell whose concealed or flagged tile carries the
number `0` gives back the state. -/
theorem handleRightClick_twice (b : Board) (x y : Int) (hd : Dims b.grid b.columns b.rows)
    (hnum : b.inBounds x y → (b.tile x y).getState = TileState.Hidden ∨
      (b.tile x y).getState = TileState.Flag → (b.tile x y).number = 0) :
    (b.handleRightClick x y).handleRightClick x y = b := by
  by_cases ht : b.gameWon = true ∨ b.gameLost = true
  · have := handleRightClick_terminal b x y ht
    rw [this, this]
  have hwon : b.gameWon = false := by
    cases h : b.gameWon
    · rfl
    · exact absurd (Or.inl h) ht
  have hlost : b.gameLost = false := by
    cases h : b.gameLost
    · rfl
    · exact absurd (Or.inr h) ht
  by_cases hcase : b.inBounds x y ∧ ((b.tile x y).getState = TileState.Hidden ∨
      (b.tile x y).getState = TileState.Flag)
  · obtain ⟨hxy, hst⟩ := hcase
    obtain ⟨hx, hy⟩ := hxy.toNat_lt
    have hn := hnum hxy hst
    rcases hst with hh | hh
    · rw [handleRightClick_hidden b x y hwon hlost hxy hh]
      have ht1 : (({ b.setTile x y TileState.Flag 0 with
          flagsPlaced := b.flagsPlaced + 1 } : Board).tile x y).getState = TileState.Flag := by
        show ((b.setTile x y TileState.Flag 0).tile x y).getState = _
        rw [Board.tile_setTile hd hxy _ _ x y hxy.1 hxy.2.2.1]
        simp [Tile.getState]
      rw [handleRightClick_flag ({ b.setTile x y TileState.Flag 0 with
          flagsPlaced := b.flagsPlaced + 1 } : Board) x y hwon hlost hxy ht1]
      have hg : set2 (set2 b.grid x.toNat y.toNat ⟨TileState.Flag, 0⟩) x.toNat y.toNat
          ⟨TileState.Hidden, 0⟩ = b.grid := by
        have ht0 : at2 b.grid x.toNat y.toNat = ⟨TileState.Hidden, 0⟩ := by
          have e1 : (at2 b.grid x.toNat y.toNat).state = TileState.Hidden := hh
          have e2 : (at2 b.grid x.toNat y.toNat).number = 0 := hn
          cases hta : at2 b.grid x.toNat y.toNat with
          | mk s n => rw [hta] at e1 e2; simp at e1 e2; rw [e1, e2]
        rw [← ht0]
        exact set2_restore hd hx hy _
      cases b with
      | mk c r mi om fp gw gl dm g hmn adj =>
        simp only [Board.setTile, setState_eq] at hg ⊢
        simp only [Board.mk.injEq, true_and, and_true]
        exact ⟨by omega, hg⟩
    · rw [handleRightClick_flag b x y hwon hlost hxy hh]
      have ht1 : (({ b.setTile x y TileState.Hidden 0 with
          flagsPlaced := b.flagsPlaced - 1 } : Board).tile x y).getState = TileState.Hidden := by
        show ((b.setTile x y TileState.Hidden 0).tile x y).getState = _
        rw [Board.tile_setTile hd hxy _ _ x y hxy.1 hxy.2.2.1]
        simp [Tile.getState]
      rw [handleRightClick_hidden ({ b.setTile x y TileState.Hidden 0 with
          flagsPlaced := b.flagsPlaced - 1 } : Board) x y hwon hlost hxy ht1]
      have hg : set2 (set2 b.grid x.toNat y.toNat ⟨TileState.Hidden, 0⟩) x.toNat y.toNat
          ⟨TileState.Flag, 0⟩ = b.grid := by
        have ht0 : at2 b.grid x.toNat y.toNat = ⟨TileState.Flag, 0⟩ := by
          have e1 : (at2 b.grid x.toNat y.toNat).state = TileState.Flag := hh
          have e2 : (at2 b.grid x.toNat y.toNat).number = 0 := hn
          cases hta : at2 b.grid x.toNat y.toNat with
          | mk s n => rw [hta] at e1 e2; simp at e1 e2; rw [e1, e2]
        rw [← ht0]
        exact set2_restore hd hx hy _
      cases b with
      | mk c r mi om fp gw gl dm g hmn adj =>
        simp only [Board.setTile, setState_eq] at hg ⊢
        simp only [Board.mk.injEq, true_and, and_true]
        exact ⟨by omega, hg⟩
  · rw [handleRightClick_other b x y hcase, handleRightClick_other b x y hcase]

/-- The shape of the result of a primary action. -/
theorem handleLeftClick_cases (b : Board) (x y : Int) (b' : Board) (hwf : b.WF)
    (h : b.handleLeftClick x y = some b') :
    b' = b ∨
    (b' = { (b.setTile x y TileState.Mine 0).revealAllMinesFlags 1 with gameLost := true } ∧
      b.inBounds x y ∧ b.gameWon = false ∧ b.gameLost = false ∧
      (b.tile x y).getState = TileState.Hidden ∧ b.mine x y = true) ∨
    (∃ g, GExt b b.grid g ∧ b' = (b.withGrid g).checkWin ∧ b.revealAt x y = some (b.withGrid g) ∧
      b.inBounds x y ∧ b.gameWon = false ∧ b.gameLost = false ∧
      (b.tile x y).getState = TileState.Hidden ∧ b.mine x y = false) := by
  unfold Board.handleLeftClick at h
  by_cases hxy : b.inBounds x y
  · simp only [hxy, if_true] at h
    by_cases ht : b.gameWon = true ∨ b.gameLost = true
    · simp only [ht, if_true, Option.some.injEq] at h
      exact Or.inl h.symm
    · simp only [ht, if_false] at h
      have hwon : b.gameWon = false := by
        cases hq : b.gameWon
        · rfl
        · exact absurd (Or.inl hq) ht
      have hlost : b.gameLost = false := by
        cases hq : b.gameLost
        · rfl
        · exact absurd (Or.inr hq) ht
      by_cases hh : (b.tile x y).getState = TileState.Hidden
      · simp only [hh, if_true] at h
        cases hm : b.mine x y with
        | true =>
          simp only [hm, if_true, Option.some.injEq] at h
          exact Or.inr (Or.inl ⟨h.symm, hxy, hwon, hlost, hh, rfl⟩)
        | false =>
          simp only [hm, Bool.false_eq_true, if_false] at h
          obtain ⟨g, hg, hx⟩ := revealAt_ext b x y hwf hxy hh hm
          have hg' := hg
          unfold Board.revealAt at hg'
          rw [hg'] at h
          simp only [Option.map_some', Option.some.injEq] at h
          exact Or.inr (Or.inr ⟨g, hx, h.symm, hg, hxy, hwon, hlost, hh, rfl⟩)
      · simp only [hh, if_false, Option.some.injEq] at h
        exact Or.inl h.symm
  · simp only [hxy, if_false, Option.some.injEq] at h
    exact Or.inl h.symm

/-- A board obtained by rewriting tiles so that every in-bounds tile is kept, or carries the
number `0`, or is `Revealed`, is again well formed with clean numbers. -/
theorem inv_of_tiles {b b' : Board} (hwf : b.WF) (hnum : b.NumbersClean)
    (hc : b'.columns = b.columns) (hr : b'.rows = b.rows) (hm : b'.hasMine = b.hasMine)
    (ha : b'.adjacentMineCounts = b.adjacentMineCounts)
    (hd : Dims b'.grid b.columns b.rows)
    (ht : ∀ x y : Int, b.inBounds x y → b'.tile x y = b.tile x y ∨
      (b'.tile x y).number = 0 ∨ (b'.tile x y).getState = TileState.Revealed) :
    b'.WF ∧ b'.NumbersClean := by
  refine ⟨⟨by rw [hc, hr]; exact hd, by rw [hc, hr, hm]; exact hwf.hasMine,
    by rw [hc, hr, ha]; exact hwf.adjacentMineCounts⟩, ?_⟩
  intro x y hxy hne
  have hxy' : b.inBounds x y := by
    unfold Board.inBounds at hxy ⊢
    rw [hc, hr] at hxy; exact hxy
  rcases ht x y hxy' with h | h | h
  · rw [h] at hne ⊢
    exact hnum x y hxy' hne
  · exact h
  · exact absurd h hne

theorem tile_natCast (b : Board) (x y : Int) : b.tile x y = at2 b.grid x.toNat y.toNat := rfl

theorem inv_revealAllMinesFlags_one {b : Board} (hwf : b.WF) (hnum : b.NumbersClean) :
    (b.revealAllMinesFlags 1).WF ∧ (b.revealAllMinesFlags 1).NumbersClean := by
  have key := revealAllMinesFlags_one b hwf.grid
  refine inv_of_tiles hwf hnum rfl rfl rfl rfl key.1 ?_
  intro x y _
  rw [tile_natCast, key.2]
  split
  · right; left; rfl
  · left; rfl

theorem inv_revealAllMinesFlags_zero {b : Board} (hwf : b.WF) (hnum : b.NumbersClean) :
    (b.revealAllMinesFlags 0).WF ∧ (b.revealAllMinesFlags 0).NumbersClean := by
  have key := revealAllMinesFlags_zero b hwf.grid
  refine inv_of_tiles hwf hnum rfl rfl rfl rfl key.1 ?_
  intro x y _
  rw [tile_natCast, key.2]
  split
  · right; left; rfl
  · left; rfl

theorem inv_hideAllMines {b : Board} (hwf : b.WF) (hnum : b.NumbersClean) :
    b.hideAllMines.WF ∧ b.hideAllMines.NumbersClean := by
  have key := hideAllMines_grid b hwf.grid
  refine inv_of_tiles hwf hnum rfl rfl rfl rfl key.1 ?_
  intro x y _
  rw [tile_natCast, key.2]
  split
  · right; left; rfl
  · left; rfl

theorem inv_setTile {b : Board} (hwf : b.WF) (hnum : b.NumbersClean) (x y : Int)
    (hxy : b.inBounds x y) (s : TileState) (n : Int) (hn : n = 0 ∨ s = TileState.Revealed) :
    (b.setTile x y s n).WF ∧ (b.setTile x y s n).NumbersClean := by
  refine inv_of_tiles hwf hnum rfl rfl rfl rfl (Board.setTile_grid_dims hwf.grid _ _ _ _) ?_
  intro i j hij
  rw [Board.tile_setTile hwf.grid hxy s n i j hij.1 hij.2.2.1]
  split
  · right
    rcases hn with h | h
    · left; exact h
    · right; exact h
  · left; rfl

theorem inv_generate (b0 : Board) (rs : List (Nat × Nat)) (b' : Board)
    (hgrid : Dims b0.grid b0.columns b0.rows)
    (hshape : ∀ col ∈ b0.hasMine, col.length = b0.rows)
    (hclear : ∀ x y, at2 b0.hasMine x y = false) (hadj : b0.adjacentMineCounts = [])
    (h : (b0.initializeBoard.placeMines rs).map Board.countAdjacentMines = some b') :
    b'.WF ∧ b'.NumbersClean := by
  obtain ⟨h1, h2, _, _, _, _, _, _, h9, h10, _⟩ :=
    generate_result b0 rs b' hgrid hshape hclear hadj h
  refine ⟨h9, ?_⟩
  intro x y hxy _
  have hxy' : b0.inBounds x y := by
    unfold Board.inBounds at hxy ⊢
    rw [h1, h2] at hxy; exact hxy
  rw [h10 x y hxy']
  rfl

theorem inv_reset (b : Board) (rs : List (Nat × Nat)) (b' : Board)
    (h : b.reset rs = some b') : b'.WF ∧ b'.NumbersClean :=
  inv_generate b.resetStart rs b' (resetStart_grid b) (resetStart_shape b)
    (resetStart_clear b) rfl h

theorem create_eq (config : ConfigValues) (rs : List (Nat × Nat)) :
    Board.create config rs =
      ((Board.createStart config).initializeBoard.placeMines rs).map
        Board.countAdjacentMines := rfl

theorem inv_create (config : ConfigValues) (rs : List (Nat × Nat)) (b' : Board)
    (h : Board.create config rs = some b') : b'.WF ∧ b'.NumbersClean :=
  inv_generate (Board.createStart config) rs b'
    (Dims_resize [] _ _ _ (by simp)) (by intro col hcol; simp [Board.createStart] at hcol)
    (fun x y => at2_nil_false x y) rfl h

/-- Every session state is well formed, and its tiles that are not `Revealed` carry the
number `0`. -/
theorem Reachable.inv {b : Board} (h : Reachable b) : b.WF ∧ b.NumbersClean := by
  induction h with
  | create config rs b hb => exact inv_create config rs b hb
  | leftClick b x y b' _ hb ih =>
    obtain ⟨hwf, hnum⟩ := ih
    rcases handleLeftClick_cases b x y b' hwf hb with rfl | ⟨rfl, hxy, -⟩ | ⟨g, hx, rfl, -, hxy, -⟩
    · exact ⟨hwf, hnum⟩
    · obtain ⟨w1, n1⟩ := inv_setTile hwf hnum x y hxy TileState.Mine 0 (Or.inl rfl)
      obtain ⟨w2, n2⟩ := inv_revealAllMinesFlags_one w1 n1
      exact ⟨⟨w2.grid, w2.hasMine, w2.adjacentMineCounts⟩, n2⟩
    · have hg : (b.withGrid g).WF ∧ (b.withGrid g).NumbersClean := by
        refine inv_of_tiles hwf hnum rfl rfl rfl rfl hx.1 ?_
        intro i j hij
        rcases hx.2 (i, j) hij with e | ⟨_, e⟩
        · left; exact e
        · right; right
          show (tileAt g (i, j)).getState = _
          rw [e]; rfl
      unfold Board.checkWin
      split
      · exact inv_revealAllMinesFlags_zero (b := { b.withGrid g with gameWon := true })
          ⟨hg.1.grid, hg.1.hasMine, hg.1.adjacentMineCounts⟩ hg.2
      · exact hg
  | rightClick b x y _ ih =>
    obtain ⟨hwf, hnum⟩ := ih
    by_cases hcase : b.inBounds x y ∧ ((b.tile x y).getState = TileState.Hidden ∨
        (b.tile x y).getState = TileState.Flag)
    · by_cases ht : b.gameWon = true ∨ b.gameLost = true
      · rw [handleRightClick_terminal b x y ht]; exact ⟨hwf, hnum⟩
      · have hwon : b.gameWon = false := by
          cases hq : b.gameWon
          · rfl
          · exact absurd (Or.inl hq) ht
        have hlost : b.gameLost = false := by
          cases hq : b.gameLost
          · rfl
          · exact absurd (Or.inr hq) ht
        obtain ⟨hxy, hst⟩ := hcase
        rcases hst with hh | hh
        · rw [handleRightClick_hidden b x y hwon hlost hxy hh]
          obtain ⟨w, n⟩ := inv_setTile hwf hnum x y hxy TileState.Flag 0 (Or.inl rfl)
          exact ⟨⟨w.grid, w.hasMine, w.adjacentMineCounts⟩, n⟩
        · rw [handleRightClick_flag b x y hwon hlost hxy hh]
          obtain ⟨w, n⟩ := inv_setTile hwf hnum x y hxy TileState.Hidden 0 (Or.inl rfl)
          exact ⟨⟨w.grid, w.hasMine, w.adjacentMineCounts⟩, n⟩
    · rw [handleRightClick_other b x y hcase]; exact ⟨hwf, hnum⟩
  | debugClick b _ ih =>
    obtain ⟨hwf, hnum⟩ := ih
    unfold Board.handleDebugClick
    split
    · exact ⟨hwf, hnum⟩
    · split
      · exact inv_revealAllMinesFlags_one (b := { b with isDebugMode := !b.isDebugMode })
          ⟨hwf.grid, hwf.hasMine, hwf.adjacentMineCounts⟩ hnum
      · exact inv_hideAllMines (b := { b with isDebugMode := !b.isDebugMode })
          ⟨hwf.grid, hwf.hasMine, hwf.adjacentMineCounts⟩ hnum
  | faceClick b rs b' _ hb _ =>
    unfold Board.handleFaceClick at hb
    cases hr : b.reset rs with
    | none => rw [hr] at hb; simp at hb
    | some b1 =>
      rw [hr] at hb
      simp only [Option.map_some', Option.some.injEq] at hb
      subst hb
      obtain ⟨w, n⟩ := inv_reset b rs b1 hr
      exact ⟨⟨w.grid, w.hasMine, w.adjacentMineCounts⟩, n⟩
  | testClick b rs boardLayout b' _ hrect hb _ =>
    unfold Board.handleTestClick at hb
    cases hr : b.reset rs with
    | none => rw [hr] at hb; simp at hb
    | some b1 =>
      rw [hr] at hb
      simp only [Option.some_bind] at hb
      obtain ⟨w, _⟩ := inv_reset b rs b1 hr
      obtain ⟨g1, g2, _⟩ := generate_result b.resetStart rs b1 (resetStart_grid b)
        (resetStart_shape b) (resetStart_clear b) rfl hr
      have hrect' : RectLayout boardLayout b1.rows b1.columns := by
        rw [g1, g2]; exact hrect
      obtain ⟨b'', hb'', l1, l2, _, _, _, _, _, _, l9, l10, _⟩ :=
        initializeBoardFromLayout_spec b1 boardLayout w hrect'
      rw [hb''] at hb
      simp only [Option.some.injEq] at hb
      subst hb
      refine ⟨l9, ?_⟩
      intro x y hxy _
      have hxy' : b1.inBounds x y := by
        unfold Board.inBounds at hxy ⊢
        rw [l1, l2] at hxy; exact hxy
      rw [l10 x y hxy']

/-- C9: in every session state the secondary action applied twice at the same cell
coordinate gives back the state; on a concealed in-bounds cell of a session in progress the
first application flags the cell and adds one to `flagsPlaced`; on a `Revealed` or `Mine`
cell an application changes nothing. -/
theorem handleRightClick_involution (b : Board) (x y : Int) (hb : Reachable b) :
    (b.handleRightClick x y).handleRightClick x y = b ∧
      (b.gameWon = false → b.gameLost = false → b.inBounds x y →
        (b.tile x y).getState = TileState.Hidden →
        ((b.handleRightClick x y).tile x y).getState = TileState.Flag ∧
          (b.handleRightClick x y).flagsPlaced = b.flagsPlaced + 1) ∧
      ((b.tile x y).getState = TileState.Revealed ∨ (b.tile x y).getState = TileState.Mine →
        b.handleRightClick x y = b) := by
  obtain ⟨hwf, hnum⟩ := hb.inv
  refine ⟨?_, ?_, ?_⟩
  · apply handleRightClick_twice b x y hwf.grid
    intro hxy hst
    apply hnum x y hxy
    rcases hst with h | h <;> rw [h] <;> simp
  · intro hwon hlost hxy hh
    rw [handleRightClick_hidden b x y hwon hlost hxy hh]
    refine ⟨?_, rfl⟩
    show ((b.setTile x y TileState.Flag 0).tile x y).getState = _
    rw [Board.tile_setTile hwf.grid hxy _ _ x y hxy.1 hxy.2.2.1]
    simp [Tile.getState]
  · intro hst
    apply handleRightClick_other
    rintro ⟨_, h | h⟩ <;> rcases hst with h' | h' <;> rw [h] at h' <;> simp at h'

theorem handleRightClick_frame (b : Board) (x y : Int) (hd : Dims b.grid b.columns b.rows) :
    (b.handleRightClick x y).columns = b.columns ∧ (b.handleRightClick x y).rows = b.rows ∧
      (b.handleRightClick x y).mines = b.mines ∧
      (b.handleRightClick x y).gameWon = b.gameWon ∧
      (b.handleRightClick x y).gameLost = b.gameLost ∧
      Dims (b.handleRightClick x y).grid b.columns b.rows ∧
      ∀ i j : Int, b.inBounds i j → ¬ (i = x ∧ j = y) →
        (b.handleRightClick x y).tile i j = b.tile i j := by
  unfold Board.handleRightClick
  split
  · exact ⟨rfl, rfl, rfl, rfl, rfl, hd, fun _ _ _ _ => rfl⟩
  · split
    · rename_i hxy
      split
      · refine ⟨rfl, rfl, rfl, rfl, rfl, Board.setTile_grid_dims hd _ _ _ _, ?_⟩
        intro i j hij hne
        show (b.setTile x y TileState.Flag 0).tile i j = _
        rw [Board.tile_setTile hd hxy _ _ i j hij.1 hij.2.2.1]
        simp [hne]
      · split
        · refine ⟨rfl, rfl, rfl, rfl, rfl, Board.setTile_grid_dims hd _ _ _ _, ?_⟩
          intro i j hij hne
          show (b.setTile x y TileState.Hidden 0).tile i j = _
          rw [Board.tile_setTile hd hxy _ _ i j hij.1 hij.2.2.1]
          simp [hne]
        · exact ⟨rfl, rfl, rfl, rfl, rfl, hd, fun _ _ _ _ => rfl⟩
    · exact ⟨rfl, rfl, rfl, rfl, rfl, hd, fun _ _ _ _ => rfl⟩

theorem marks_remaining :
    ∀ (cells : List (Int × Int)) (b : Board), Dims b.grid b.columns b.rows →
      b.gameWon = false → b.gameLost = false → cells.Nodup →
      (∀ c ∈ cells, b.inBounds c.1 c.2 ∧ (b.tile c.1 c.2).getState = TileState.Hidden) →
      (cells.foldl (fun s c => s.handleRightClick c.1 c.2) b).getRemainingMines =
        b.mines - b.flagsPlaced - (cells.length : Int) := by
  intro cells
  induction cells with
  | nil => intro b _ _ _ _ _; simp [Board.getRemainingMines]
  | cons c cells ih =>
    intro b hd hwon hlost hnd hall
    rw [List.nodup_cons] at hnd
    obtain ⟨hc1, hc2⟩ := hall c (List.mem_cons_self _ _)
    obtain ⟨f1, f2, f3, f4, f5, f6, f7⟩ := handleRightClick_frame b c.1 c.2 hd
    rw [List.foldl_cons, ih (b.handleRightClick c.1 c.2) (by rw [f1, f2]; exact f6)
      (by rw [f4]; exact hwon) (by rw [f5]; exact hlost) hnd.2]
    · rw [f3, handleRightClick_hidden b c.1 c.2 hwon hlost hc1 hc2]
      simp only [List.length_cons]
      push_cast
      omega
    · intro d hd'
      obtain ⟨hd1, hd2⟩ := hall d (List.mem_cons_of_mem _ hd')
      have hne : ¬ (d.1 = c.1 ∧ d.2 = c.2) := by
        intro h
        exact hnd.1 (by rw [← Prod.ext h.1 h.2]; exact hd')
      refine ⟨?_, ?_⟩
      · unfold Board.inBounds at hd1 ⊢
        rw [f1, f2]; exact hd1
      · rw [f7 d.1 d.2 hd1 hne]; exact hd2

/-- C10: `getRemainingMines` is `mines - flagsPlaced` with no clamping: in a session in
progress a secondary action on a concealed cell lowers it by exactly one, on a flagged cell
raises it by exactly one, and flagging `k` distinct concealed cells lowers it by exactly
`k`, below zero if need be. -/
theorem getRemainingMines_marks (b : Board) (hwf : b.WF) (hwon : b.gameWon = false)
    (hlost : b.gameLost = false) :
    b.getRemainingMines = b.mines - b.flagsPlaced ∧
      (∀ x y : Int, b.inBounds x y → (b.tile x y).getState = TileState.Hidden →
        (b.handleRightClick x y).getRemainingMines = b.getRemainingMines - 1) ∧
      (∀ x y : Int, b.inBounds x y → (b.tile x y).getState = TileState.Flag →
        (b.handleRightClick x y).getRemainingMines = b.getRemainingMines + 1) ∧
      (∀ cells : List (Int × Int), cells.Nodup →
        (∀ c ∈ cells, b.inBounds c.1 c.2 ∧ (b.tile c.1 c.2).getState = TileState.Hidden) →
        (cells.foldl (fun s c => s.handleRightClick c.1 c.2) b).getRemainingMines =
          b.getRemainingMines - (cells.length : Int)) := by
  refine ⟨rfl, ?_, ?_, ?_⟩
  · intro x y hxy hh
    rw [handleRightClick_hidden b x y hwon hlost hxy hh]
    simp only [Board.getRemainingMines, Board.setTile]
    omega
  · intro x y hxy hh
    rw [handleRightClick_flag b x y hwon hlost hxy hh]
    simp only [Board.getRemainingMines, Board.setTile]
    omega
  · intro cells hnd hall
    exact marks_remaining cells b hwf.grid hwon hlost hnd hall

/-- C4 (amended): after generation by the constructor, by `reset`, or by `reset` followed by
`initializeBoardFromLayout`, the stored count of every in-bounds hazard-free cell is the
number of its in-bounds neighbours that hold a hazard. -/
theorem generated_counts (config : ConfigValues) (b : Board) (rs : List (Nat × Nat))
    (boardLayout : List (List Bool)) :
    (∀ b', Board.create config rs = some b' →
      ∀ x y : Int, b'.inBounds x y → b'.mine x y = false →
        b'.adj x y = (b'.neighbourHazards x y : Int)) ∧
    (∀ b', b.reset rs = some b' →
      ∀ x y : Int, b'.inBounds x y → b'.mine x y = false →
        b'.adj x y = (b'.neighbourHazards x y : Int)) ∧
    (∀ b', RectLayout boardLayout b.rows b.columns →
      b.handleTestClick rs boardLayout = some b' →
      ∀ x y : Int, b'.inBounds x y → b'.mine x y = false →
        b'.adj x y = (b'.neighbourHazards x y : Int)) := by
  refine ⟨?_, ?_, ?_⟩
  · intro b' h x y hxy hm
    rw [create_eq] at h
    obtain ⟨h1, h2, _, _, _, _, _, _, _, _, _, h12, _⟩ :=
      generate_result (Board.createStart config) rs b'
        (Dims_resize [] _ _ _ (by simp)) (by intro col hcol; simp [Board.createStart] at hcol)
        (fun x y => at2_nil_false x y) rfl h
    apply h12 x y _ hm
    unfold Board.inBounds at hxy ⊢
    rw [h1, h2] at hxy; exact hxy
  · intro b' h x y hxy hm
    obtain ⟨h1, h2, _, _, _, _, _, _, _, _, _, h12, _⟩ :=
      generate_result b.resetStart rs b' (resetStart_grid b) (resetStart_shape b)
        (resetStart_clear b) rfl h
    apply h12 x y _ hm
    unfold Board.inBounds at hxy ⊢
    rw [h1, h2] at hxy; exact hxy
  · intro b' hrect h x y hxy hm
    unfold Board.handleTestClick at h
    cases hr : b.reset rs with
    | none => rw [hr] at h; simp at h
    | some b1 =>
      rw [hr] at h
      simp only [Option.some_bind] at h
      obtain ⟨w, _⟩ := inv_reset b rs b1 hr
      obtain ⟨g1, g2, _⟩ := generate_result b.resetStart rs b1 (resetStart_grid b)
        (resetStart_shape b) (resetStart_clear b) rfl hr
      have hrect' : RectLayout boardLayout b1.rows b1.columns := by
        rw [g1, g2]; exact hrect
      obtain ⟨b'', hb'', l1, l2, _, _, _, _, _, _, _, _, _, l12⟩ :=
        initializeBoardFromLayout_spec b1 boardLayout w hrect'
      rw [hb''] at h
      simp only [Option.some.injEq] at h
      subst h
      apply l12 x y _ hm
      unfold Board.inBounds at hxy ⊢
      rw [l1, l2] at hxy; exact hxy

theorem demoBoard_create : Board.create demoConfig [(0, 0)] = some demoBoard := by decide

theorem demoBoard_wf : demoBoard.WF :=
  ⟨by unfold Dims; decide, by unfold Dims; decide, by unfold Dims; decide⟩

theorem threeMines_create :
    Board.create ⟨3, 2, 3⟩ [(0, 0), (1, 0), (0, 0), (2, 0)] = some threeMines := by decide

theorem threeMines_wf : threeMines.WF :=
  ⟨by unfold Dims; decide, by unfold Dims; decide, by unfold Dims; decide⟩

theorem handleLeftClick_mine_lost_witness :
    demoBoard.WF ∧ demoBoard.inBounds 0 0 ∧
      (demoBoard.handleLeftClick 0 0).map (fun b => (b.gameLost, (b.tile 0 0).getState)) =
        some (true, TileState.Mine) := by
  refine ⟨demoBoard_wf, by decide, ?_⟩
  obtain ⟨b', h1, h2, _, h4, _⟩ := handleLeftClick_mine_lost demoBoard 0 0 demoBoard_wf
    (by decide) (by decide) (by decide) (by decide) (by decide)
  rw [h1, Option.map_some', h2, h4]

theorem handleLeftClick_safe_win_witness :
    demoBoard.WF ∧ demoBoard.mines = (demoBoard.hazardCount : Int) ∧
      (demoBoard.handleLeftClick 2 2).map (fun b => b.gameLost) = some false := by
  refine ⟨demoBoard_wf, by decide, ?_⟩
  obtain ⟨r, b', _, h2, h3, _⟩ := handleLeftClick_safe_win demoBoard 2 2 demoBoard_wf
    (by decide) (by decide) (by decide) (by decide) (by decide) (by decide)
  rw [h2, Option.map_some', h3]

theorem revealEmptyTiles_flood_witness :
    demoBoard.WF ∧ demoBoard.inBounds 2 2 ∧ demoBoard.mine 2 2 = false ∧
      (demoBoard.revealEmptyTiles 2 2).map (fun b => b.hasMine) = some demoBoard.hasMine := by
  refine ⟨demoBoard_wf, by decide, by decide, ?_⟩
  obtain ⟨b', h1, h2, _⟩ := revealEmptyTiles_flood demoBoard 2 2 demoBoard_wf
    (by decide) (by decide)
  rw [h1, Option.map_some', h2]

/-- C4 (counterexample): on the 2 × 1 board with two hazards built by the constructor (and
again by `reset`), the in-bounds hazard cell `(0, 0)` has the stored count `0` although one
of its neighbours holds a hazard. -/
theorem generated_counts_hazard_cell :
    Board.create ⟨2, 1, 2⟩ [(0, 0), (1, 0)] = some twoMines ∧
      twoMines.reset [(0, 0), (1, 0)] = some twoMines ∧ twoMines.inBounds 0 0 ∧
      twoMines.mine 0 0 = true ∧ twoMines.adj 0 0 = 0 ∧ twoMines.neighbourHazards 0 0 = 1 := by
  decide

theorem generated_counts_witness :
    Board.create demoConfig [(0, 0)] = some demoBoard ∧ demoBoard.inBounds 1 1 ∧
      demoBoard.mine 1 1 = false ∧ demoBoard.adj 1 1 = (demoBoard.neighbourHazards 1 1 : Int) :=
  ⟨demoBoard_create, by decide, by decide,
    (generated_counts demoConfig demoBoard [(0, 0)] []).1 demoBoard demoBoard_create 1 1
      (by decide) (by decide)⟩

theorem placeMines_exact_witness :
    ({ demoBoard with hasMine := [] } : Board).placeMines [(0, 0)] = some demoBoard ∧
      (demoBoard.hazardCount : Int) = 1 := by
  have h : ({ demoBoard with hasMine := [] } : Board).placeMines [(0, 0)] = some demoBoard := by
    decide
  exact ⟨h, (placeMines_exact ({ demoBoard with hasMine := [] } : Board) [(0, 0)] demoBoard
    (by decide) (by intro col hcol; exact absurd hcol (List.not_mem_nil col))
    (fun x y => at2_nil_false x y) h).1⟩

theorem reset_restores_witness :
    (0 < demoBoard.columns ∧ 0 < demoBoard.rows ∧ 0 ≤ demoBoard.originalMines ∧
      demoBoard.originalMines ≤ (distinctCells demoBoard.columns demoBoard.rows [(4, 5)] : Int)) ∧
      (demoBoard.reset [(4, 5)]).map (fun b => b.mines) = some 1 := by
  refine ⟨by decide, ?_⟩
  obtain ⟨b', h1, _, _, _, _, _, _, h8, _⟩ := reset_restores demoBoard [(4, 5)]
    (by decide) (by decide) (by decide) (by decide)
  rw [h1, Option.map_some', h8]
  rfl

theorem handleTestClick_loads_witness :
    RectLayout [[false, true, false], [false, false, false], [true, false, false]]
        demoBoard.rows demoBoard.columns ∧
      demoBoard.originalMines ≤ (distinctCells demoBoard.columns demoBoard.rows [(4, 5)] : Int) ∧
      (demoBoard.handleTestClick [(4, 5)]
        [[false, true, false], [false, false, false], [true, false, false]]).map
          (fun b => b.mines) = some 2 := by
  have hrect : RectLayout [[false, true, false], [false, false, false], [true, false, false]]
      3 3 := by unfold RectLayout; decide
  refine ⟨hrect, by decide, ?_⟩
  obtain ⟨b', h1, _, h3, _⟩ := handleTestClick_loads demoBoard [(4, 5)]
    [[false, true, false], [false, false, false], [true, false, false]]
    (by decide) (by decide) (by decide) hrect
  rw [h1, Option.map_some', h3]
  rfl

theorem terminal_noop_witness :
    ({ demoBoard with gameLost := true } : Board).handleLeftClick 1 1 =
      some { demoBoard with gameLost := true } :=
  (terminal_noop { demoBoard with gameLost := true } 1 1 (Or.inr rfl)).1

theorem handleRightClick_involution_witness :
    Reachable demoBoard ∧
      (demoBoard.handleRightClick 1 2).handleRightClick 1 2 = demoBoard :=
  ⟨Reachable.create demoConfig [(0, 0)] demoBoard demoBoard_create,
    (handleRightClick_involution demoBoard 1 2
      (Reachable.create demoConfig [(0, 0)] demoBoard demoBoard_create)).1⟩

theorem getRemainingMines_marks_witness :
    threeMines.WF ∧ threeMines.mines = 3 ∧
      ([(0, 0), (0, 1), (1, 0), (1, 1), (2, 0)].foldl
        (fun s c => s.handleRightClick c.1 c.2) threeMines).getRemainingMines = -2 := by
  refine ⟨threeMines_wf, rfl, ?_⟩
  have := (getRemainingMines_marks threeMines threeMines_wf rfl rfl).2.2.2
    [(0, 0), (0, 1), (1, 0), (1, 1), (2, 0)] (by decide) (by decide)
  rw [this]
  decide

/-- C11: a primary action on a cell whose tile is `Flag` or `Revealed` returns the state
unchanged, whatever the state is (so a flagged hazard cell is not exploded and the win check
is not run). -/
theorem handleLeftClick_noop_on_open (b : Board) (x y : Int)
    (h : (b.tile x y).getState = TileState.Flag ∨ (b.tile x y).getState = TileState.Revealed) :
    b.handleLeftClick x y = some b := by
  have hne : ¬ (b.tile x y).getState = TileState.Hidden := by
    rcases h with h | h <;> rw [h] <;> simp
  unfold Board.handleLeftClick
  by_cases hxy : b.inBounds x y
  · simp only [hxy, if_true]
    by_cases ht : b.gameWon = true ∨ b.gameLost = true
    · simp only [ht, if_true]
    · simp only [ht, if_false, hne]
  · simp only [hxy, if_false]

theorem handleLeftClick_noop_on_open_witness :
    (flaggedDemo.tile 0 0).getState = TileState.Flag ∧ flaggedDemo.mine 0 0 = true ∧
      flaggedDemo.handleLeftClick 0 0 = some flaggedDemo :=
  ⟨by decide, by decide, handleLeftClick_noop_on_open flaggedDemo 0 0 (Or.inl (by decide))⟩

theorem foldl_push {α β : Type} (f : α → List β) (l : List α) (acc : List β) :
    l.foldl (fun row a => row ++ f a) acc = acc ++ (l.map f).flatten := by
  induction l generalizing acc with
  | nil => simp
  | cons a l ih => rw [List.foldl_cons, ih]; simp

theorem readBoardLine_eq (line : List Char) :
    readBoardLine line =
      (line.filter (fun ch => decide (ch = '0' ∨ ch = '1'))).map (fun ch => decide (ch = '1')) := by
  unfold readBoardLine
  have h := foldl_push (fun ch : Char =>
    if ch = '0' then [false] else if ch = '1' then [true] else []) line []
  have e : (fun (row : List Bool) (ch : Char) =>
      if ch = '0' then row ++ [false] else if ch = '1' then row ++ [true] else row) =
      (fun row ch => row ++ (if ch = '0' then [false] else if ch = '1' then [true] else [])) := by
    funext row ch
    by_cases h0 : ch = '0'
    · simp [h0]
    · by_cases h1 : ch = '1'
      · simp [h0, h1]
      · simp [h0, h1]
  rw [e, h, List.nil_append]
  clear h e
  induction line with
  | nil => rfl
  | cons ch line ih =>
    rw [List.map_cons, List.flatten_cons, ih, List.filter_cons]
    by_cases h0 : ch = '0'
    · subst h0; simp
    · by_cases h1 : ch = '1'
      · subst h1; simp
      · simp [h0, h1]

/-- C16: the row that `readBoardFile` builds from a line is the line's subsequence of `'0'`
and `'1'` characters, in order, with `'0'` read as `false` and `'1'` as `true`; its length
is the number of such characters, any other character adds no column, and every line of the
file, with or without markers, adds exactly one row. -/
theorem readBoardFile_rows (line : List Char) (lines : List (List Char)) :
    readBoardLine line =
        (line.filter (fun ch => decide (ch = '0' ∨ ch = '1'))).map
          (fun ch => decide (ch = '1')) ∧
      (readBoardLine line).length = line.countP (fun ch => decide (ch = '0' ∨ ch = '1')) ∧
      (∀ (pre post : List Char) (ch : Char), ch ≠ '0' → ch ≠ '1' →
        readBoardLine (pre ++ ch :: post) = readBoardLine (pre ++ post)) ∧
      readBoardFile (some lines) = some (lines.map readBoardLine) ∧
      (∀ layout, readBoardFile (some lines) = some layout → layout.length = lines.length) := by
  have hfile : readBoardFile (some lines) = some (lines.map readBoardLine) := by
    unfold readBoardFile
    rw [Option.map_some']
    have := foldl_push (fun l : List Char => [readBoardLine l]) lines []
    rw [this, List.nil_append]
    congr 1
    clear this
    induction lines with
    | nil => rfl
    | cons l ls ih => rw [List.map_cons, List.flatten_cons, ih]; rfl
  refine ⟨readBoardLine_eq line, ?_, ?_, hfile, ?_⟩
  · rw [readBoardLine_eq, List.length_map, List.countP_eq_length_filter]
  · intro pre post ch h0 h1
    rw [readBoardLine_eq, readBoardLine_eq, List.filter_append, List.filter_append,
      List.filter_cons]
    simp [h0, h1]
  · intro layout h
    rw [hfile] at h
    simp only [Option.some.injEq] at h
    rw [← h, List.length_map]

/-- C15 (evaluation at the failing input): `readBoardFile` turns a file whose second line
holds only two markers into a layout with a row of two entries, and on the 3 × 3 board
`initializeBoardFromLayout` then reads `boardLayout[1][2]`, which is out of range. -/
theorem initializeBoardFromLayout_short_row :
    readBoardFile (some shortFile) =
        some [[false, true, false], [false, false], [true, false, false]] ∧
      demoBoard.columns = 3 ∧ demoBoard.rows = 3 ∧
      layoutAt [[false, true, false], [false, false], [true, false, false]] 1 2 = none ∧
      demoBoard.initializeBoardFromLayout
        [[false, true, false], [false, false], [true, false, false]] = none ∧
      demoBoard.handleTestClick [(0, 0)]
        [[false, true, false], [false, false], [true, false, false]] = none := by
  decide

/-- C12 (evaluation at the failing input): with the hazard cell `(0, 0)` flagged, switching
debug mode on and off again leaves that cell `Hidden` while `flagsPlaced` is still `1`. -/
theorem debug_toggle_drops_flag :
    flaggedDemo.gameWon = false ∧ flaggedDemo.gameLost = false ∧
      flaggedDemo.isDebugMode = false ∧ flaggedDemo.mine 0 0 = true ∧
      flaggedDemo.tile 0 0 = ⟨TileState.Flag, 0⟩ ∧ flaggedDemo.flagsPlaced = 1 ∧
      flaggedDemo.handleDebugClick.tile 0 0 = ⟨TileState.Mine, 0⟩ ∧
      flaggedDemo.handleDebugClick.handleDebugClick.tile 0 0 = ⟨TileState.Hidden, 0⟩ ∧
      flaggedDemo.handleDebugClick.handleDebugClick.flagsPlaced = 1 ∧
      flaggedDemo.handleDebugClick.handleDebugClick.isDebugMode = false := by
  decide

theorem visitAll_mono (n : Nat)
    (ih : ∀ (b : Board) (x y : Int) (b' : Board),
      b.revealEmptyTilesFuel n x y = some b' → b.revealEmptyTilesFuel (n + 1) x y = some b') :
    ∀ (ps : List (Int × Int)) (acc b' : Board),
      ps.foldlM (Board.visit n) acc = some b' → ps.foldlM (Board.visit (n + 1)) acc = some b' := by
  intro ps
  induction ps with
  | nil => intro acc b' h; exact h
  | cons p ps ihps =>
    intro acc b' h
    rw [List.foldlM_cons] at h ⊢
    cases hv : Board.visit n acc p with
    | none => rw [hv] at h; simp at h
    | some c =>
      rw [hv] at h
      have hv' : Board.visit (n + 1) acc p = some c := by
        unfold Board.visit at hv ⊢
        by_cases hg : acc.inBounds p.1 p.2 ∧ acc.mine p.1 p.2 = false
        · simp only [hg, and_self, if_true] at hv ⊢
          exact ih _ _ _ _ hv
        · simp only [hg, if_false] at hv ⊢
          exact hv
      rw [hv']
      exact ihps c b' (by simpa using h)

/-- More fuel never changes a result of the flood fill. -/
theorem revealEmptyTilesFuel_mono (n : Nat) :
    ∀ (b : Board) (x y : Int) (b' : Board),
      b.revealEmptyTilesFuel n x y = some b' → b.revealEmptyTilesFuel (n + 1) x y = some b' := by
  induction n with
  | zero => intro b x y b' h; simp [Board.revealEmptyTilesFuel] at h
  | succ n ih =>
    intro b x y b' h
    rw [revealEmptyTilesFuel_succ] at h ⊢
    by_cases hg : ¬ b.inBounds x y ∨ (b.tile x y).getState ≠ TileState.Hidden
    · simp only [hg, if_true] at h ⊢; exact h
    · simp only [hg, if_false] at h ⊢
      by_cases hz : b.getMineCount x y = 0
      · simp only [hz, if_true] at h ⊢
        exact visitAll_mono n ih _ _ _ h
      · simp only [hz, if_false] at h ⊢; exact h

theorem revealEmptyTilesFuel_mono_le {n m : Nat} (hnm : n ≤ m) (b : Board) (x y : Int)
    (b' : Board) (h : b.revealEmptyTilesFuel n x y = some b') :
    b.revealEmptyTilesFuel m x y = some b' := by
  induction hnm with
  | refl => exact h
  | step _ ih => exact revealEmptyTilesFuel_mono _ b x y b' ih

theorem getMineCount_ne_zero_of_mine (b : Board) (x y : Int) (hxy : b.inBounds x y)
    (hm : b.mine x y = true) : b.getMineCount x y ≠ 0 := by
  rw [getMineCount_eq_neighbourHazards]
  simp only [hxy, hm, and_self, if_true]
  omega

/-- A finished flood fill, from any start cell, only turns concealed tiles into revealed
ones, and leaves an in-bounds start cell not concealed. -/
theorem revealEmptyTilesFuel_ext (b : Board) (n : Nat) (x y : Int) (b' : Board)
    (hd : Dims b.grid b.columns b.rows) (h : b.revealEmptyTilesFuel n x y = some b') :
    ∃ g', b' = b.withGrid g' ∧ GExt b b.grid g' ∧
      (b.inBounds x y → (tileAt g' (x, y)).getState ≠ TileState.Hidden) := by
  cases hm : b.mine x y with
  | false =>
    obtain ⟨g', e, hx, hs, -⟩ := revealEmptyTilesFuel_spec b n b.grid x y b' hd hm h
    exact ⟨g', e, hx, fun hxy => hs (x, y) (by simp) hxy hm⟩
  | true =>
    cases n with
    | zero => simp [Board.revealEmptyTilesFuel] at h
    | succ n =>
      rw [revealEmptyTilesFuel_succ] at h
      by_cases hg : ¬ b.inBounds x y ∨ (b.tile x y).getState ≠ TileState.Hidden
      · simp only [hg, if_true, Option.some.injEq] at h
        refine ⟨b.grid, h.symm, GExt.refl hd, ?_⟩
        intro hxy
        rcases hg with hg | hg
        · exact absurd hxy hg
        · exact hg
      · simp only [hg, if_false] at h
        have hin : b.inBounds x y := by
          by_contra hc; exact hg (Or.inl hc)
        have hhid : (b.tile x y).getState = TileState.Hidden := by
          by_contra hc; exact hg (Or.inr hc)
        have hz := getMineCount_ne_zero_of_mine b x y hin hm
        simp only [hz, if_false, Option.some.injEq] at h
        refine ⟨_, h.symm, GExt_openAt (S := b) (c := (x, y)) hd hin hhid, ?_⟩
        intro _
        show (tileAt (openAt b b.grid (x, y)) (x, y)).getState ≠ TileState.Hidden
        unfold openAt
        rw [tileAt_set2 hd hin _ _ hin]
        simp [Tile.getState]

theorem hiddenCount_openAt_succ {S : Board} {g : List (List Tile)}
    (hd : Dims g S.columns S.rows) {c : Int × Int} (hc : S.inBounds c.1 c.2)
    (hh : (tileAt g c).getState = TileState.Hidden) :
    hiddenCount S (openAt S g c) + 1 = hiddenCount S g := by
  unfold hiddenCount
  obtain ⟨hx1, hx2⟩ := hc.toNat_lt
  symm
  apply countP_update _ _ _ (nodup_allCells _ _) (c.1.toNat, c.2.toNat)
    (mem_allCells.2 ⟨hx1, hx2⟩)
  · simpa [tileAt] using hh
  · unfold openAt
    rw [at2_set2_self hd hx1 hx2]
    simp [Tile.getState]
  · intro d _ hne
    unfold openAt
    rw [at2_set2_ne hd hx1 hx2]
    intro hh'
    exact hne (Prod.ext hh'.1 hh'.2)

/-- C17: on every board whose tile table has the board's dimensions, from every start
coordinate, `revealEmptyTiles` returns: any recursion bound above the number of concealed
cells gives the same result; a call that does not return at once first turns exactly one
concealed cell into a revealed one, so the number of concealed cells, which no call
increases, is strictly smaller afterwards. -/
theorem revealEmptyTiles_terminates (b : Board) (x y : Int)
    (hd : Dims b.grid b.columns b.rows) :
    ∃ b', b.revealEmptyTiles x y = some b' ∧
      (∀ fuel, hiddenCount b b.grid < fuel → b.revealEmptyTilesFuel fuel x y = some b') ∧
      hiddenCount b b'.grid ≤ hiddenCount b b.grid ∧
      (¬ (b.inBounds x y ∧ (b.tile x y).getState = TileState.Hidden) → b' = b) ∧
      (b.inBounds x y → (b.tile x y).getState = TileState.Hidden →
        hiddenCount b (b.setTile x y TileState.Revealed (b.adj x y)).grid + 1 =
            hiddenCount b b.grid ∧
          hiddenCount b b'.grid < hiddenCount b b.grid) := by
  obtain ⟨b0, hb0⟩ := revealEmptyTilesFuel_isSome b (hiddenCount b b.grid + 1) b.grid x y hd
    (Nat.lt_succ_self _)
  have hb0' : b.revealEmptyTilesFuel (hiddenCount b b.grid + 1) x y = some b0 := hb0
  have hall : ∀ fuel, hiddenCount b b.grid < fuel →
      b.revealEmptyTilesFuel fuel x y = some b0 :=
    fun fuel hf => revealEmptyTilesFuel_mono_le hf b x y b0 hb0'
  have hle := hiddenCount_le_cells b b.grid
  obtain ⟨g', e, hx, hopen⟩ := revealEmptyTilesFuel_ext b _ x y b0 hd hb0'
  subst e
  refine ⟨b.withGrid g', hall _ (Nat.lt_succ_of_le hle), hall, hiddenCount_le hx, ?_, ?_⟩
  · intro hnot
    rw [revealEmptyTilesFuel_succ] at hb0'
    have hg : ¬ b.inBounds x y ∨ (b.tile x y).getState ≠ TileState.Hidden := by
      by_cases hxy : b.inBounds x y
      · exact Or.inr (fun hh => hnot ⟨hxy, hh⟩)
      · exact Or.inl hxy
    simp only [hg, if_true, Option.some.injEq] at hb0'
    exact hb0'.symm
  · intro hxy hh
    refine ⟨hiddenCount_openAt_succ (S := b) (c := (x, y)) hd hxy hh, ?_⟩
    obtain ⟨hx1, hx2⟩ := hxy.toNat_lt
    unfold hiddenCount
    apply countP_lt_of_imp _ _ _ _ (x.toNat, y.toNat) (mem_allCells.2 ⟨hx1, hx2⟩)
    · simpa [Board.tile] using hh
    · have := hopen hxy
      simpa [tileAt] using this
    · intro d hd' hh'
      rw [mem_allCells] at hd'
      have hin : b.inBounds ((d.1 : Int), (d.2 : Int)).1 ((d.1 : Int), (d.2 : Int)).2 :=
        (Board.inBounds_natCast b d.1 d.2).2 hd'
      have := hx.hidden_back hin (by simpa [tileAt] using hh')
      simpa [tileAt] using this

theorem revealEmptyTiles_terminates_witness :
    Dims demoBoard.grid demoBoard.columns demoBoard.rows ∧
      (demoBoard.revealEmptyTiles 2 2).isSome = true ∧
      (demoBoard.revealEmptyTilesFuel 100 2 2).isSome = true := by
  obtain ⟨b', h1, h2, _⟩ := revealEmptyTiles_terminates demoBoard 2 2 demoBoard_wf.grid
  refine ⟨demoBoard_wf.grid, ?_, ?_⟩
  · rw [h1]; rfl
  · rw [h2 100 (lt_of_le_of_lt (hiddenCount_le_cells demoBoard demoBoard.grid) (by decide))]
    rfl

theorem SameLayout.same (b : Board) : SameLayout b b := ⟨rfl, rfl, rfl, rfl, rfl, rfl⟩

theorem SameLayout.inBounds {b b' : Board} (h : SameLayout b b') (x y : Int) :
    b'.inBounds x y ↔ b.inBounds x y := by
  unfold Board.inBounds
  rw [h.1, h.2.1]

theorem SameLayout.mine {b b' : Board} (h : SameLayout b b') (x y : Int) :
    b'.mine x y = b.mine x y := by
  unfold Board.mine
  rw [h.2.2.1]

theorem SameLayout.adj {b b' : Board} (h : SameLayout b b') (x y : Int) :
    b'.adj x y = b.adj x y := by
  unfold Board.adj
  rw [h.2.2.2.1]

theorem SameLayout.hazardCount {b b' : Board} (h : SameLayout b b') :
    b'.hazardCount = b.hazardCount := by
  unfold Board.hazardCount
  rw [h.1, h.2.1, h.2.2.1]

theorem SameLayout.neighbourHazards {b b' : Board} (h : SameLayout b b') (x y : Int) :
    b'.neighbourHazards x y = b.neighbourHazards x y := by
  unfold Board.neighbourHazards
  apply List.countP_congr
  intro p _
  have e1 : decide (b'.inBounds p.1 p.2) = decide (b.inBounds p.1 p.2) := by
    rw [decide_eq_decide]; exact h.inBounds p.1 p.2
  rw [e1, h.mine]

theorem SameLayout.transfer {b b' : Board} (h : SameLayout b b') (hb : b.LayoutOK) :
    b'.LayoutOK := by
  refine ⟨?_, ?_⟩
  · intro h0
    rw [h.2.2.2.2.1, h.hazardCount]
    exact hb.1 (by rw [← h.2.2.2.2.1]; exact h0)
  · intro x y hxy hm
    rw [h.adj, h.neighbourHazards]
    exact hb.2 x y ((h.inBounds x y).1 hxy) (by rw [← h.mine]; exact hm)

theorem TileMove.stay {b : Board} (hd : Dims b.grid b.columns b.rows) : TileMove b b :=
  ⟨SameLayout.same b, hd, rfl, fun _ => rfl, fun _ _ _ => Or.inl rfl⟩

theorem withGrid_inj {b : Board} {g g' : List (List Tile)} (h : b.withGrid g = b.withGrid g') :
    g = g' := congrArg Board.grid h

/-- The cells that the reveal of lines 609-617 opens are hazard-free. -/
theorem revealAt_clear (b : Board) (x y : Int) (g : List (List Tile)) (hwf : b.WF)
    (hxy : b.inBounds x y) (hm : b.mine x y = false) (h : b.revealAt x y = some (b.withGrid g)) :
    ∀ c, Changed b b.grid g c → b.mine c.1 c.2 = false := by
  unfold Board.revealAt at h
  by_cases hz : b.getMineCount x y = 0
  · simp only [hz, if_true] at h
    obtain ⟨g', e, _, _, _, hso⟩ := revealEmptyTilesFuel_spec b _ b.grid x y _ hwf.grid hm h
    have := withGrid_inj e
    subst this
    exact fun c hc => (hso c hc).1
  · simp only [hz, if_false, Option.some.injEq] at h
    have e : g = openAt b b.grid (x, y) := (withGrid_inj h).symm
    subst e
    intro c hc
    have := Changed_openAt (S := b) (c := (x, y)) hwf.grid hxy hc
    subst this
    exact hm

theorem checkWin_tile (r : Board) (hd : Dims r.grid r.columns r.rows) (x y : Int)
    (hxy : r.inBounds x y) :
    (r.checkWin = r ∨ r.checkWin.gameWon = true) ∧
      (r.checkWin.tile x y = r.tile x y ∨
        (r.mine x y = true ∧ r.checkWin.gameWon = true ∧
          r.checkWin.tile x y = ⟨TileState.Flag, 0⟩)) := by
  unfold Board.checkWin
  split
  · refine ⟨Or.inr rfl, ?_⟩
    have key := (revealAllMinesFlags_zero ({ r with gameWon := true }) hd).2 x.toNat y.toNat
    obtain ⟨hx, hy⟩ := hxy.toNat_lt
    have hx' : x.toNat < ({ r with gameWon := true } : Board).columns := hx
    have hy' : y.toNat < ({ r with gameWon := true } : Board).rows := hy
    simp only [hx', hy', true_and] at key
    cases hm : r.mine x y with
    | true =>
      right
      have hm' : at2 ({ r with gameWon := true } : Board).hasMine x.toNat y.toNat = true := hm
      simp only [hm', if_true] at key
      exact ⟨rfl, rfl, key⟩
    | false =>
      left
      have hm' : at2 ({ r with gameWon := true } : Board).hasMine x.toNat y.toNat = false := hm
      simp only [hm', Bool.false_eq_true, if_false] at key
      exact key
  · exact ⟨Or.inl rfl, Or.inl rfl⟩

theorem checkWin_frame (r : Board) (hd : Dims r.grid r.columns r.rows) :
    SameLayout r r.checkWin ∧ Dims r.checkWin.grid r.columns r.rows ∧
      r.checkWin.flagsPlaced = r.flagsPlaced ∧ r.checkWin.gameLost = r.gameLost ∧
      r.checkWin.isDebugMode = r.isDebugMode := by
  unfold Board.checkWin
  split
  · exact ⟨⟨rfl, rfl, rfl, rfl, rfl, rfl⟩,
      (revealAllMinesFlags_zero ({ r with gameWon := true }) hd).1, rfl, rfl, rfl⟩
  · exact ⟨SameLayout.same r, hd, rfl, rfl, rfl⟩

theorem lose_tile (b : Board) (x y : Int) (hwf : b.WF) (hxy : b.inBounds x y)
    (hm : b.mine x y = true) (i j : Int) (hij : b.inBounds i j) :
    ((b.setTile x y TileState.Mine 0).revealAllMinesFlags 1).tile i j =
      if b.mine i j = true then ⟨TileState.Mine, 0⟩ else b.tile i j := by
  have hd1 : Dims (b.setTile x y TileState.Mine 0).grid b.columns b.rows :=
    Board.setTile_grid_dims hwf.grid _ _ _ _
  have key := (revealAllMinesFlags_one (b.setTile x y TileState.Mine 0) hd1).2 i.toNat j.toNat
  obtain ⟨hi, hj⟩ := hij.toNat_lt
  have hi' : i.toNat < (b.setTile x y TileState.Mine 0).columns := hi
  have hj' : j.toNat < (b.setTile x y TileState.Mine 0).rows := hj
  simp only [hi', hj', true_and] at key
  rw [tile_natCast, key]
  have e : at2 (b.setTile x y TileState.Mine 0).hasMine i.toNat j.toNat = b.mine i j := rfl
  rw [e]
  cases hmm : b.mine i j with
  | true => simp
  | false =>
    simp only [Bool.false_eq_true, if_false]
    have := Board.tile_setTile hwf.grid hxy TileState.Mine 0 i j hij.1 hij.2.2.1
    rw [tile_natCast] at this
    rw [this]
    have hne : ¬ (i = x ∧ j = y) := by
      rintro ⟨rfl, rfl⟩
      rw [hm] at hmm
      exact absurd hmm (by simp)
    simp only [hne, if_false]

theorem leftClick_tileMove (b : Board) (x y : Int) (b' : Board) (hwf : b.WF)
    (h : b.handleLeftClick x y = some b') : TileMove b b' := by
  rcases handleLeftClick_cases b x y b' hwf h with
    rfl | ⟨rfl, hxy, hwon, _, _, hm⟩ | ⟨g, hx, rfl, hr, hxy, hwon, _, _, hm⟩
  · exact TileMove.stay hwf.grid
  · refine ⟨⟨rfl, rfl, rfl, rfl, rfl, rfl⟩,
      (revealAllMinesFlags_one (b.setTile x y TileState.Mine 0)
        (Board.setTile_grid_dims hwf.grid _ _ _ _)).1, rfl, ?_, ?_⟩
    · intro hw; rw [hwon] at hw; exact absurd hw (by simp)
    · intro i j hij
      have ht : ({ (b.setTile x y TileState.Mine 0).revealAllMinesFlags 1 with
          gameLost := true } : Board).tile i j =
          if b.mine i j = true then ⟨TileState.Mine, 0⟩ else b.tile i j :=
        lose_tile b x y hwf hxy hm i j hij
      cases hmm : b.mine i j with
      | true =>
        right; right; left
        rw [ht, hmm]
        exact ⟨rfl, rfl⟩
      | false =>
        left
        rw [ht, hmm]
        rfl
  · have hclear := revealAt_clear b x y g hwf hxy hm hr
    obtain ⟨hf1, hf2, hf3, _, _⟩ := checkWin_frame (b.withGrid g) hx.1
    refine ⟨hf1, hf2, hf3, ?_, ?_⟩
    · intro hw; rw [hwon] at hw; exact absurd hw (by simp)
    · intro i j hij
      obtain ⟨_, hc⟩ := checkWin_tile (b.withGrid g) hx.1 i j hij
      rcases hc with hc | ⟨c1, c2, c3⟩
      · rw [hc]
        rcases hx.2 (i, j) hij with e | ⟨e1, e2⟩
        · left; exact e
        · right; left
          refine ⟨e1, ?_, e2⟩
          exact hclear (i, j) ⟨hij, e1, by rw [e2]; simp [Tile.getState]⟩
      · right; right; right; left
        exact ⟨c1, c2, c3⟩

theorem debugClick_tileMove (b : Board) (hwf : b.WF) : TileMove b b.handleDebugClick := by
  unfold Board.handleDebugClick
  split
  · exact TileMove.stay hwf.grid
  · rename_i ht
    have hwon : ¬ b.gameWon = true := fun h => ht (Or.inl h)
    split
    · have key := revealAllMinesFlags_one ({ b with isDebugMode := !b.isDebugMode }) hwf.grid
      refine ⟨⟨rfl, rfl, rfl, rfl, rfl, rfl⟩, key.1, rfl, fun h => absurd h hwon, ?_⟩
      intro i j hij
      obtain ⟨hi, hj⟩ := hij.toNat_lt
      have k := key.2 i.toNat j.toNat
      have hi' : i.toNat < ({ b with isDebugMode := !b.isDebugMode } : Board).columns := hi
      have hj' : j.toNat < ({ b with isDebugMode := !b.isDebugMode } : Board).rows := hj
      simp only [hi', hj', true_and] at k
      cases hmm : b.mine i j with
      | true =>
        right; right; left
        have hm' : at2 ({ b with isDebugMode := !b.isDebugMode } : Board).hasMine
            i.toNat j.toNat = true := hmm
        simp only [hm', if_true] at k
        exact ⟨rfl, k⟩
      | false =>
        left
        have hm' : at2 ({ b with isDebugMode := !b.isDebugMode } : Board).hasMine
            i.toNat j.toNat = false := hmm
        simp only [hm', Bool.false_eq_true, if_false] at k
        exact k
    · have key := hideAllMines_grid ({ b with isDebugMode := !b.isDebugMode }) hwf.grid
      refine ⟨⟨rfl, rfl, rfl, rfl, rfl, rfl⟩, key.1, rfl, fun h => absurd h hwon, ?_⟩
      intro i j hij
      obtain ⟨hi, hj⟩ := hij.toNat_lt
      have k := key.2 i.toNat j.toNat
      have hi' : i.toNat < ({ b with isDebugMode := !b.isDebugMode } : Board).columns := hi
      have hj' : j.toNat < ({ b with isDebugMode := !b.isDebugMode } : Board).rows := hj
      simp only [hi', hj', true_and] at k
      cases hmm : b.mine i j with
      | true =>
        right; right; right; right
        have hm' : at2 ({ b with isDebugMode := !b.isDebugMode } : Board).hasMine
            i.toNat j.toNat = true := hmm
        simp only [hm', if_true] at k
        exact ⟨rfl, k⟩
      | false =>
        left
        have hm' : at2 ({ b with isDebugMode := !b.isDebugMode } : Board).hasMine
            i.toNat j.toNat = false := hmm
        simp only [hm', Bool.false_eq_true, if_false] at k
        exact k

theorem generate_fresh (b0 : Board) (rs : List (Nat × Nat)) (b' : Board)
    (hgrid : Dims b0.grid b0.columns b0.rows)
    (hshape : ∀ col ∈ b0.hasMine, col.length = b0.rows)
    (hclear : ∀ x y, at2 b0.hasMine x y = false) (hadj : b0.adjacentMineCounts = [])
    (hflags : b0.flagsPlaced = 0) (hwon : b0.gameWon = false) (hlost : b0.gameLost = false)
    (h : (b0.initializeBoard.placeMines rs).map Board.countAdjacentMines = some b') :
    b'.Fresh := by
  obtain ⟨h1, h2, h3, _, h5, h6, h7, _, h9, h10, h11, h12, _⟩ :=
    generate_result b0 rs b' hgrid hshape hclear hadj h
  have hin : ∀ x y : Int, b'.inBounds x y → b0.inBounds x y := by
    intro x y hxy
    unfold Board.inBounds at hxy ⊢
    rw [h1, h2] at hxy; exact hxy
  refine ⟨h9, by rw [h5, hflags], by rw [h6, hwon], by rw [h7, hlost], ?_, ?_, ?_⟩
  · intro x y hxy
    exact h10 x y (hin x y hxy)
  · intro h0
    rw [h3] at h0 ⊢
    exact (h11 h0).symm
  · intro x y hxy hm
    exact h12 x y (hin x y hxy) hm

theorem create_fresh (config : ConfigValues) (rs : List (Nat × Nat)) (b' : Board)
    (h : Board.create config rs = some b') : b'.Fresh :=
  generate_fresh (Board.createStart config) rs b'
    (Dims_resize [] _ _ _ (by simp)) (by intro col hcol; simp [Board.createStart] at hcol)
    (fun x y => at2_nil_false x y) rfl rfl rfl rfl h

theorem reset_fresh (b : Board) (rs : List (Nat × Nat)) (b' : Board)
    (h : b.reset rs = some b') : b'.Fresh :=
  generate_fresh b.resetStart rs b' (resetStart_grid b) (resetStart_shape b)
    (resetStart_clear b) rfl rfl rfl rfl h

theorem faceClick_fresh (b : Board) (rs : List (Nat × Nat)) (b' : Board)
    (h : b.handleFaceClick rs = some b') : b'.Fresh := by
  unfold Board.handleFaceClick at h
  cases hr : b.reset rs with
  | none => rw [hr] at h; simp at h
  | some b1 =>
    rw [hr] at h
    simp only [Option.map_some', Option.some.injEq] at h
    subst h
    obtain ⟨w, f1, f2, f3, f4, f5⟩ := reset_fresh b rs b1 hr
    exact ⟨⟨w.grid, w.hasMine, w.adjacentMineCounts⟩, f1, f2, f3, f4, f5⟩

theorem layout_hazardCount (b' : Board) (boardLayout : List (List Bool))
    (h : RectLayout boardLayout b'.rows b'.columns)
    (hval : ∀ x y : Int, b'.inBounds x y →
      b'.mine x y = (boardLayout.getD y.toNat []).getD x.toNat false) :
    b'.hazardCount = layoutMines boardLayout := by
  unfold Board.hazardCount
  rw [← layoutMines_eq h,
    countP_allCells_swap b'.rows b'.columns (fun y x => (boardLayout.getD y []).getD x false)]
  apply List.countP_congr
  intro c hc
  rw [mem_allCells] at hc
  have hcb : b'.inBounds (c.1 : Int) (c.2 : Int) := by
    rw [Board.inBounds_natCast]; exact hc
  have := hval (c.1 : Int) (c.2 : Int) hcb
  simp only [Board.mine, Int.toNat_ofNat] at this
  rw [this]

theorem testClick_fresh (b : Board) (rs : List (Nat × Nat)) (boardLayout : List (List Bool))
    (b' : Board) (hrect : RectLayout boardLayout b.rows b.columns)
    (h : b.handleTestClick rs boardLayout = some b') : b'.Fresh := by
  unfold Board.handleTestClick at h
  cases hr : b.reset rs with
  | none => rw [hr] at h; simp at h
  | some b1 =>
    rw [hr] at h
    simp only [Option.some_bind] at h
    obtain ⟨w, f1, f2, f3, _, _⟩ := reset_fresh b rs b1 hr
    obtain ⟨g1, g2, _⟩ := generate_result b.resetStart rs b1 (resetStart_grid b)
      (resetStart_shape b) (resetStart_clear b) rfl hr
    have hrect' : RectLayout boardLayout b1.rows b1.columns := by
      rw [g1, g2]; exact hrect
    obtain ⟨b'', hb'', l1, l2, l3, _, l5, l6, l7, _, l9, l10, l11, l12⟩ :=
      initializeBoardFromLayout_spec b1 boardLayout w hrect'
    rw [hb''] at h
    simp only [Option.some.injEq] at h
    subst h
    have hin : ∀ x y : Int, b''.inBounds x y → b1.inBounds x y := by
      intro x y hxy
      unfold Board.inBounds at hxy ⊢
      rw [l1, l2] at hxy; exact hxy
    refine ⟨l9, by rw [l5, f1], by rw [l6, f2], by rw [l7, f3], ?_, ?_, ?_⟩
    · intro x y hxy; exact l10 x y (hin x y hxy)
    · intro _
      rw [l3, layout_hazardCount b'' boardLayout (by rw [l1, l2]; exact hrect')
        (fun x y hxy => l11 x y (hin x y hxy))]
    · intro x y hxy hm; exact l12 x y (hin x y hxy) hm

theorem rightClick_sameLayout (b : Board) (x y : Int) :
    SameLayout b (b.handleRightClick x y) := by
  unfold Board.handleRightClick
  split
  · exact SameLayout.same b
  · split
    · split
      · exact ⟨rfl, rfl, rfl, rfl, rfl, rfl⟩
      · split
        · exact ⟨rfl, rfl, rfl, rfl, rfl, rfl⟩
        · exact SameLayout.same b
    · exact SameLayout.same b

/-- A secondary action keeps every tile except the one at its cell, which it may turn into a
`Flag` or into a `Hidden` tile with number `0`. -/
theorem rightClick_tile (b : Board) (x y : Int) (hd : Dims b.grid b.columns b.rows) (i j : Int)
    (hij : b.inBounds i j) :
    (b.handleRightClick x y).tile i j = b.tile i j ∨
      (b.handleRightClick x y).tile i j = ⟨TileState.Flag, 0⟩ ∨
      (b.handleRightClick x y).tile i j = ⟨TileState.Hidden, 0⟩ := by
  unfold Board.handleRightClick
  split
  · exact Or.inl rfl
  · split
    · rename_i hxy
      split
      · show (b.setTile x y TileState.Flag 0).tile i j = _ ∨
          (b.setTile x y TileState.Flag 0).tile i j = _ ∨
          (b.setTile x y TileState.Flag 0).tile i j = _
        rw [Board.tile_setTile hd hxy _ _ i j hij.1 hij.2.2.1]
        split
        · exact Or.inr (Or.inl rfl)
        · exact Or.inl rfl
      · split
        · show (b.setTile x y TileState.Hidden 0).tile i j = _ ∨
            (b.setTile x y TileState.Hidden 0).tile i j = _ ∨
            (b.setTile x y TileState.Hidden 0).tile i j = _
          rw [Board.tile_setTile hd hxy _ _ i j hij.1 hij.2.2.1]
          split
          · exact Or.inr (Or.inr rfl)
          · exact Or.inl rfl
        · exact Or.inl rfl
    · exact Or.inl rfl

/-- Induction over the session states: a property of every fresh session that is kept by
every tile move (primary action, debug toggle) and by every secondary action holds in every
session state. -/
theorem Reachable.play_induction {P : Board → Prop} (hfresh : ∀ b, b.Fresh → P b)
    (hmove : ∀ b b', Reachable b → P b → TileMove b b' → P b')
    (hright : ∀ b x y, Reachable b → P b → P (b.handleRightClick x y)) :
    ∀ {b : Board}, Reachable b → P b := by
  intro b h
  induction h with
  | create config rs b hb => exact hfresh b (create_fresh config rs b hb)
  | leftClick b x y b' hr hb ih =>
    exact hmove b b' hr ih (leftClick_tileMove b x y b' hr.inv.1 hb)
  | rightClick b x y hr ih => exact hright b x y hr ih
  | debugClick b hr ih => exact hmove b _ hr ih (debugClick_tileMove b hr.inv.1)
  | faceClick b rs b' _ hb _ => exact hfresh b' (faceClick_fresh b rs b' hb)
  | testClick b rs boardLayout b' _ hrect hb _ =>
    exact hfresh b' (testClick_fresh b rs boardLayout b' hrect hb)

/-- Every session state has a consistent layout. -/
theorem Reachable.layoutOK {b : Board} (h : Reachable b) : b.LayoutOK := by
  refine Reachable.play_induction (P := Board.LayoutOK) ?_ ?_ ?_ h
  · intro b hf; exact hf.2.2.2.2.2
  · intro b b' _ ih hm; exact hm.1.transfer ih
  · intro b x y _ ih; exact (rightClick_sameLayout b x y).transfer ih

theorem demoBoard_reachable : Reachable demoBoard :=
  Reachable.create demoConfig [(0, 0)] demoBoard demoBoard_create

theorem flaggedDemo_reachable : Reachable flaggedDemo :=
  Reachable.rightClick demoBoard 0 0 demoBoard_reachable

theorem lostDemo_reachable : Reachable lostDemo :=
  Reachable.leftClick demoBoard 0 0 lostDemo demoBoard_reachable (by decide)

theorem openedDemo_reachable : Reachable openedDemo :=
  Reachable.leftClick demoBoard 1 1 openedDemo demoBoard_reachable (by decide)

/-- C18: in every session state (reached by primary and secondary actions, debug toggles,
resets and loads of rectangular layouts) every in-bounds tile in state `Mine` lies on a
hazard cell. -/
theorem exploded_is_hazard (b : Board) (h : Reachable b) :
    ∀ x y : Int, b.inBounds x y → (b.tile x y).getState = TileState.Mine →
      b.mine x y = true := by
  refine Reachable.play_induction
    (P := fun b => ∀ x y : Int, b.inBounds x y → (b.tile x y).getState = TileState.Mine →
      b.mine x y = true) ?_ ?_ ?_ h
  · intro b hf x y hxy hs
    rw [hf.2.2.2.2.1 x y hxy] at hs
    exact absurd hs (by simp [Tile.getState])
  · intro b b' _ ih hm x y hxy hs
    have hxy' := (hm.1.inBounds x y).1 hxy
    rw [hm.1.mine]
    rcases hm.2.2.2.2 x y hxy' with e | ⟨_, _, e⟩ | ⟨m, _⟩ | ⟨m, _⟩ | ⟨m, _⟩
    · rw [e] at hs; exact ih x y hxy' hs
    · rw [e] at hs; exact absurd hs (by simp [Tile.getState])
    · exact m
    · exact m
    · exact m
  · intro b x y hr ih i j hij hs
    have hl := rightClick_sameLayout b x y
    have hij' := (hl.inBounds i j).1 hij
    rw [hl.mine]
    rcases rightClick_tile b x y hr.inv.1.grid i j hij' with e | e | e
    · rw [e] at hs; exact ih i j hij' hs
    · rw [e] at hs; exact absurd hs (by simp [Tile.getState])
    · rw [e] at hs; exact absurd hs (by simp [Tile.getState])

theorem exploded_is_hazard_witness :
    Reachable lostDemo ∧ lostDemo.inBounds 0 0 ∧
      (lostDemo.tile 0 0).getState = TileState.Mine ∧ lostDemo.mine 0 0 = true :=
  ⟨lostDemo_reachable, by decide, by decide,
    exploded_is_hazard lostDemo lostDemo_reachable 0 0 (by decide) (by decide)⟩

/-- C19: in every session state every in-bounds `Revealed` tile lies on a hazard-free cell
and carries the number `adjacentMineCounts[x][y]`, which is the number of in-bounds
neighbours of the cell that hold a hazard. -/
theorem revealed_number (b : Board) (h : Reachable b) :
    ∀ x y : Int, b.inBounds x y → (b.tile x y).getState = TileState.Revealed →
      (b.tile x y).number = b.adj x y ∧ b.adj x y = (b.neighbourHazards x y : Int) ∧
        b.mine x y = false := by
  have key : ∀ x y : Int, b.inBounds x y → (b.tile x y).getState = TileState.Revealed →
      (b.tile x y).number = b.adj x y ∧ b.mine x y = false := by
    refine Reachable.play_induction
      (P := fun b => ∀ x y : Int, b.inBounds x y →
        (b.tile x y).getState = TileState.Revealed →
        (b.tile x y).number = b.adj x y ∧ b.mine x y = false) ?_ ?_ ?_ h
    · intro b hf x y hxy hs
      rw [hf.2.2.2.2.1 x y hxy] at hs
      exact absurd hs (by simp [Tile.getState])
    · intro b b' _ ih hm x y hxy hs
      have hxy' := (hm.1.inBounds x y).1 hxy
      rw [hm.1.mine, hm.1.adj]
      rcases hm.2.2.2.2 x y hxy' with e | ⟨_, m, e⟩ | ⟨_, e⟩ | ⟨_, _, e⟩ | ⟨_, e⟩
      · rw [e] at hs ⊢; exact ih x y hxy' hs
      · rw [e]; exact ⟨rfl, m⟩
      · rw [e] at hs; exact absurd hs (by simp [Tile.getState])
      · rw [e] at hs; exact absurd hs (by simp [Tile.getState])
      · rw [e] at hs; exact absurd hs (by simp [Tile.getState])
    · intro b x y hr ih i j hij hs
      have hl := rightClick_sameLayout b x y
      have hij' := (hl.inBounds i j).1 hij
      rw [hl.mine, hl.adj]
      rcases rightClick_tile b x y hr.inv.1.grid i j hij' with e | e | e
      · rw [e] at hs ⊢; exact ih i j hij' hs
      · rw [e] at hs; exact absurd hs (by simp [Tile.getState])
      · rw [e] at hs; exact absurd hs (by simp [Tile.getState])
  intro x y hxy hs
  obtain ⟨k1, k2⟩ := key x y hxy hs
  exact ⟨k1, h.layoutOK.2 x y hxy k2, k2⟩

theorem revealed_number_witness :
    Reachable openedDemo ∧ openedDemo.inBounds 1 1 ∧
      (openedDemo.tile 1 1).getState = TileState.Revealed ∧
      ((openedDemo.tile 1 1).number = openedDemo.adj 1 1 ∧
        openedDemo.adj 1 1 = (openedDemo.neighbourHazards 1 1 : Int) ∧
        openedDemo.mine 1 1 = false) :=
  ⟨openedDemo_reachable, by decide, by decide,
    revealed_number openedDemo openedDemo_reachable 1 1 (by decide) (by decide)⟩

theorem flagCount_fresh (b : Board)
    (h : ∀ x y : Int, b.inBounds x y → b.tile x y = ⟨TileState.Hidden, 0⟩) :
    b.flagCount = 0 := by
  unfold Board.flagCount
  rw [List.countP_eq_zero]
  intro c hc
  rw [mem_allCells] at hc
  have := h (c.1 : Int) (c.2 : Int) ((Board.inBounds_natCast b c.1 c.2).2 hc)
  simp only [Board.tile, Int.toNat_ofNat] at this
  rw [this]
  simp [Tile.getState]

theorem flagCount_le_of_imp (b b' : Board) (hc : b'.columns = b.columns)
    (hr : b'.rows = b.rows)
    (h : ∀ x y : Int, b.inBounds x y → (b'.tile x y).getState = TileState.Flag →
      (b.tile x y).getState = TileState.Flag) : b'.flagCount ≤ b.flagCount := by
  unfold Board.flagCount
  rw [hc, hr]
  apply List.countP_mono_left
  intro c hcm hf
  rw [mem_allCells] at hcm
  have := h (c.1 : Int) (c.2 : Int) ((Board.inBounds_natCast b c.1 c.2).2 hcm)
    (by simpa [Board.tile] using hf)
  simpa [Board.tile] using this

/-- Turning the tile of one cell from a non-flag into a flag adds one to the number of
flags. -/
theorem flagCount_succ (b b' : Board) (hc : b'.columns = b.columns) (hr : b'.rows = b.rows)
    (x y : Int) (hxy : b.inBounds x y) (h0 : (b.tile x y).getState ≠ TileState.Flag)
    (h1 : (b'.tile x y).getState = TileState.Flag)
    (hrest : ∀ i j : Int, b.inBounds i j → ¬ (i = x ∧ j = y) → b'.tile i j = b.tile i j) :
    b'.flagCount = b.flagCount + 1 := by
  unfold Board.flagCount
  rw [hc, hr]
  obtain ⟨hx, hy⟩ := hxy.toNat_lt
  apply countP_update _ _ _ (nodup_allCells _ _) (x.toNat, y.toNat) (mem_allCells.2 ⟨hx, hy⟩)
  · simpa [Board.tile] using h1
  · simpa [Board.tile] using h0
  · intro c hcm hne
    rw [mem_allCells] at hcm
    have hin := (Board.inBounds_natCast b c.1 c.2).2 hcm
    have hne' : ¬ ((c.1 : Int) = x ∧ (c.2 : Int) = y) := by
      rintro ⟨e1, e2⟩
      apply hne
      apply Prod.ext
      · show c.1 = x.toNat
        omega
      · show c.2 = y.toNat
        omega
    have := hrest (c.1 : Int) (c.2 : Int) hin hne'
    simp only [Board.tile, Int.toNat_ofNat] at this
    rw [this]

/-- C20: in every session state `flagsPlaced` is not negative; while the game is not won it
is even at least the number of flags on the board (a win adds uncounted flags, the debug
toggle removes counted ones). -/
theorem flagsPlaced_nonneg (b : Board) (h : Reachable b) :
    0 ≤ b.flagsPlaced ∧ (b.gameWon = false → (b.flagCount : Int) ≤ b.flagsPlaced) := by
  refine Reachable.play_induction
    (P := fun b => 0 ≤ b.flagsPlaced ∧
      (b.gameWon = false → (b.flagCount : Int) ≤ b.flagsPlaced)) ?_ ?_ ?_ h
  · intro b hf
    rw [hf.2.1, flagCount_fresh b hf.2.2.2.2.1]
    exact ⟨le_refl _, fun _ => le_refl _⟩
  · intro b b' _ ih hm
    obtain ⟨hl, _, hfl, hterm, htile⟩ := hm
    rw [hfl]
    refine ⟨ih.1, ?_⟩
    intro hw'
    have hw : b.gameWon = false := by
      cases hq : b.gameWon with
      | false => rfl
      | true => rw [hterm hq, hq] at hw'; exact absurd hw' (by simp)
    have hle : b'.flagCount ≤ b.flagCount := by
      apply flagCount_le_of_imp b b' hl.1 hl.2.1
      intro x y hxy hs
      rcases htile x y hxy with e | ⟨_, _, e⟩ | ⟨_, e⟩ | ⟨_, w, _⟩ | ⟨_, e⟩
      · rw [e] at hs; exact hs
      · rw [e] at hs; exact absurd hs (by simp [Tile.getState])
      · rw [e] at hs; exact absurd hs (by simp [Tile.getState])
      · rw [hw'] at w; exact absurd w (by simp)
      · rw [e] at hs; exact absurd hs (by simp [Tile.getState])
    have := ih.2 hw
    omega
  · intro b x y hr ih
    have hd := hr.inv.1.grid
    by_cases hcase : b.inBounds x y ∧ ((b.tile x y).getState = TileState.Hidden ∨
        (b.tile x y).getState = TileState.Flag)
    · by_cases ht : b.gameWon = true ∨ b.gameLost = true
      · rw [handleRightClick_terminal b x y ht]; exact ih
      · have hwon : b.gameWon = false := by
          cases hq : b.gameWon
          · rfl
          · exact absurd (Or.inl hq) ht
        have hlost : b.gameLost = false := by
          cases hq : b.gameLost
          · rfl
          · exact absurd (Or.inr hq) ht
        obtain ⟨hxy, hst⟩ := hcase
        have hfr := (handleRightClick_frame b x y hd).2.2.2.2.2.2
        have hcount := ih.2 hwon
        rcases hst with hh | hh
        · have hfc : (b.handleRightClick x y).flagCount = b.flagCount + 1 := by
            apply flagCount_succ b _ (rightClick_sameLayout b x y).1
              (rightClick_sameLayout b x y).2.1 x y hxy
            · rw [hh]; simp
            · rw [handleRightClick_hidden b x y hwon hlost hxy hh]
              show ((b.setTile x y TileState.Flag 0).tile x y).getState = _
              rw [Board.tile_setTile hd hxy _ _ x y hxy.1 hxy.2.2.1]
              simp [Tile.getState]
            · exact hfr
          rw [hfc]
          rw [handleRightClick_hidden b x y hwon hlost hxy hh]
          refine ⟨?_, fun _ => ?_⟩
          · show 0 ≤ b.flagsPlaced + 1
            omega
          · show ((b.flagCount + 1 : Nat) : Int) ≤ b.flagsPlaced + 1
            push_cast
            omega
        · have hl := rightClick_sameLayout b x y
          have hfc : b.flagCount = (b.handleRightClick x y).flagCount + 1 := by
            apply flagCount_succ (b.handleRightClick x y) b hl.1.symm hl.2.1.symm x y
              ((hl.inBounds x y).2 hxy)
            · rw [handleRightClick_flag b x y hwon hlost hxy hh]
              show ((b.setTile x y TileState.Hidden 0).tile x y).getState ≠ _
              rw [Board.tile_setTile hd hxy _ _ x y hxy.1 hxy.2.2.1]
              simp [Tile.getState]
            · exact hh
            · intro i j hij hne
              exact (hfr i j ((hl.inBounds i j).1 hij) hne).symm
          have hfl : (b.handleRightClick x y).flagsPlaced = b.flagsPlaced - 1 := by
            rw [handleRightClick_flag b x y hwon hlost hxy hh]
          rw [hfl]
          refine ⟨by omega, fun _ => by omega⟩
    · rw [handleRightClick_other b x y hcase]; exact ih

theorem flagsPlaced_nonneg_witness :
    Reachable flaggedDemo ∧ flaggedDemo.gameWon = false ∧ 0 ≤ flaggedDemo.flagsPlaced ∧
      (flaggedDemo.flagCount : Int) ≤ flaggedDemo.flagsPlaced :=
  ⟨flaggedDemo_reachable, by decide,
    (flagsPlaced_nonneg flaggedDemo flaggedDemo_reachable).1,
    (flagsPlaced_nonneg flaggedDemo flaggedDemo_reachable).2 (by decide)⟩

theorem winTest_nonneg (r : Board)
    (h : r.revealedTiles = (r.columns : Int) * (r.rows : Int) - r.mines) : 0 ≤ r.mines := by
  rw [revealedTiles_eq] at h
  have hle := List.countP_le_length (fun c : Nat × Nat =>
      (!at2 r.hasMine c.1 c.2) && decide ((at2 r.grid c.1 c.2).getState = TileState.Revealed ∨
        (at2 r.grid c.1 c.2).getState = TileState.Flag)) (l := allCells r.columns r.rows)
  rw [length_allCells] at hle
  have : ((r.columns * r.rows : Nat) : Int) = (r.columns : Int) * (r.rows : Int) := by
    push_cast; rfl
  omega

theorem checkWin_covered_of_tiles (r : Board) (hd : Dims r.grid r.columns r.rows) :
    r.Covered ↔ r.checkWin.Covered := by
  have hl := (checkWin_frame r hd).1
  constructor
  · intro hc x y hxy hm
    have hxy' := (hl.inBounds x y).1 hxy
    have hm' : r.mine x y = false := by rw [← hl.mine]; exact hm
    rcases (checkWin_tile r hd x y hxy').2 with e | ⟨m, _⟩
    · rw [e]; exact hc x y hxy' hm'
    · rw [hm'] at m; exact absurd m (by simp)
  · intro hc x y hxy hm
    have hxy' := (hl.inBounds x y).2 hxy
    have hm' : r.checkWin.mine x y = false := by rw [hl.mine]; exact hm
    rcases (checkWin_tile r hd x y hxy).2 with e | ⟨m, _⟩
    · rw [← e]; exact hc x y hxy' hm'
    · rw [hm] at m; exact absurd m (by simp)

/-- The win check on a board that is not yet won, with a consistent layout: if it declares
the game won, every hazard-free cell is covered; with a non-negative `mines` the converse
holds too. -/
theorem checkWin_won (r : Board) (hw : r.gameWon = false) (hl : r.LayoutOK) :
    (r.checkWin.gameWon = true → r.Covered) ∧
      (0 ≤ r.mines → r.Covered → r.checkWin.gameWon = true) := by
  unfold Board.checkWin
  by_cases ht : r.revealedTiles = (r.columns : Int) * (r.rows : Int) - r.mines
  · simp only [ht, if_true]
    have h0 := winTest_nonneg r ht
    exact ⟨fun _ => (winTest_iff r (hl.1 h0)).1 ht, fun _ _ => rfl⟩
  · simp only [ht, if_false]
    refine ⟨fun h => ?_, fun h0 hc => ?_⟩
    · rw [hw] at h; exact absurd h (by simp)
    · exact absurd ((winTest_iff r (hl.1 h0)).2 hc) ht

theorem handleRightClick_gameWon (b : Board) (x y : Int) :
    (b.handleRightClick x y).gameWon = b.gameWon ∧
      (b.handleRightClick x y).gameLost = b.gameLost := by
  unfold Board.handleRightClick
  split
  · exact ⟨rfl, rfl⟩
  · split
    · split
      · exact ⟨rfl, rfl⟩
      · split
        · exact ⟨rfl, rfl⟩
        · exact ⟨rfl, rfl⟩
    · exact ⟨rfl, rfl⟩

theorem handleDebugClick_gameWon (b : Board) : b.handleDebugClick.gameWon = b.gameWon := by
  unfold Board.handleDebugClick
  split
  · rfl
  · split
    · rfl
    · rfl

/-- In every session state a won game has every hazard-free cell covered. -/
theorem Reachable.won_covered {b : Board} (h : Reachable b) : b.gameWon = true → b.Covered := by
  induction h with
  | create config rs b hb =>
    intro hw
    rw [(create_fresh config rs b hb).2.2.1] at hw
    exact absurd hw (by simp)
  | leftClick b x y b' hr hb ih =>
    intro hw
    have hwf := hr.inv.1
    rcases handleLeftClick_cases b x y b' hwf hb with
      rfl | ⟨rfl, _, hwon, _⟩ | ⟨g, hx, rfl, _, _, hwon, _⟩
    · exact ih hw
    · have : b.gameWon = true := hw
      rw [hwon] at this
      exact absurd this (by simp)
    · have hl : (b.withGrid g).LayoutOK :=
        SameLayout.transfer (b := b) ⟨rfl, rfl, rfl, rfl, rfl, rfl⟩ hr.layoutOK
      exact (checkWin_covered_of_tiles (b.withGrid g) hx.1).1
        ((checkWin_won (b.withGrid g) hwon hl).1 hw)
  | rightClick b x y _ ih =>
    intro hw
    rw [(handleRightClick_gameWon b x y).1] at hw
    rw [handleRightClick_terminal b x y (Or.inl hw)]
    exact ih hw
  | debugClick b _ ih =>
    intro hw
    rw [handleDebugClick_gameWon] at hw
    have : b.handleDebugClick = b := by
      unfold Board.handleDebugClick
      simp only [hw, true_or, if_true]
    rw [this]
    exact ih hw
  | faceClick b rs b' _ hb _ =>
    intro hw
    rw [(faceClick_fresh b rs b' hb).2.2.1] at hw
    exact absurd hw (by simp)
  | testClick b rs boardLayout b' _ hrect hb _ =>
    intro hw
    rw [(testClick_fresh b rs boardLayout b' hrect hb).2.2.1] at hw
    exact absurd hw (by simp)

theorem handleLeftClick_safe_eq (b : Board) (x y : Int) (hwf : b.WF)
    (hwon : b.gameWon = false) (hlost : b.gameLost = false) (hxy : b.inBounds x y)
    (hhid : (b.tile x y).getState = TileState.Hidden) (hm : b.mine x y = false) :
    ∃ g, GExt b b.grid g ∧ b.handleLeftClick x y = some (b.withGrid g).checkWin := by
  obtain ⟨g, hr, hx⟩ := revealAt_ext b x y hwf hxy hhid hm
  refine ⟨g, hx, ?_⟩
  unfold Board.revealAt at hr
  simp only [Board.handleLeftClick, hxy, hwon, hlost, hhid, hm, if_true, or_self,
    Bool.false_eq_true, if_false, hr, Option.map_some']

/-- C13 (amended): in every session state, if the game is won then every hazard-free cell is
`Revealed` or a `Flag`; a secondary action never changes the outcome; and a primary action
on a concealed hazard-free cell of a session in progress (with non-negative `mines`) ends
won exactly when every hazard-free cell is then `Revealed` or a `Flag`. -/
theorem won_only_by_reveal (b : Board) (h : Reachable b) :
    (b.gameWon = true → b.Covered) ∧
      (∀ x y : Int, (b.handleRightClick x y).gameWon = b.gameWon ∧
        (b.handleRightClick x y).gameLost = b.gameLost) ∧
      (∀ x y : Int, 0 ≤ b.mines → b.gameWon = false → b.gameLost = false → b.inBounds x y →
        (b.tile x y).getState = TileState.Hidden → b.mine x y = false →
        ∃ b', b.handleLeftClick x y = some b' ∧ (b'.gameWon = true ↔ b'.Covered)) := by
  refine ⟨h.won_covered, fun x y => handleRightClick_gameWon b x y, ?_⟩
  intro x y h0 hwon hlost hxy hhid hm
  obtain ⟨g, hx, hcl⟩ := handleLeftClick_safe_eq b x y h.inv.1 hwon hlost hxy hhid hm
  have hl : (b.withGrid g).LayoutOK :=
    SameLayout.transfer (b := b) ⟨rfl, rfl, rfl, rfl, rfl, rfl⟩ h.layoutOK
  obtain ⟨k1, k2⟩ := checkWin_won (b.withGrid g) hwon hl
  have hcov := checkWin_covered_of_tiles (b.withGrid g) hx.1
  exact ⟨_, hcl, fun hw => hcov.1 (k1 hw), fun hc => k2 h0 (hcov.2 hc)⟩

theorem oneSafeCell_create : Board.create ⟨2, 1, 1⟩ [(0, 0)] = some oneSafeCell := by decide

/-- C13 (counterexample): in the 2 × 1 session with its hazard in `(0, 0)`, a secondary
action on the only hazard-free cell `(1, 0)` covers every hazard-free cell, and the game is
not won. -/
theorem marking_last_cell_not_won :
    Board.create ⟨2, 1, 1⟩ [(0, 0)] = some oneSafeCell ∧
      (oneSafeCell.handleRightClick 1 0).Covered ∧
      (oneSafeCell.handleRightClick 1 0).gameWon = false := by
  refine ⟨oneSafeCell_create, ?_, by decide⟩
  intro x y hxy hm
  have hx : x = 0 ∨ x = 1 := by
    obtain ⟨h1, h2, _, _⟩ := hxy
    have : ((oneSafeCell.handleRightClick 1 0).columns : Int) = 2 := by decide
    omega
  have hy : y = 0 := by
    obtain ⟨_, _, h3, h4⟩ := hxy
    have : ((oneSafeCell.handleRightClick 1 0).rows : Int) = 1 := by decide
    omega
  subst hy
  rcases hx with rfl | rfl
  · exact absurd hm (by decide)
  · right; decide

theorem won_only_by_reveal_witness :
    Reachable oneSafeCell ∧ (oneSafeCell.handleRightClick 1 0).gameWon = oneSafeCell.gameWon ∧
      (0 ≤ oneSafeCell.mines ∧ oneSafeCell.gameWon = false ∧ oneSafeCell.gameLost = false ∧
        oneSafeCell.inBounds 1 0 ∧ (oneSafeCell.tile 1 0).getState = TileState.Hidden ∧
        oneSafeCell.mine 1 0 = false) ∧
      ∃ b', oneSafeCell.handleLeftClick 1 0 = some b' ∧ (b'.gameWon = true ↔ b'.Covered) :=
  ⟨Reachable.create ⟨2, 1, 1⟩ [(0, 0)] oneSafeCell oneSafeCell_create,
    ((won_only_by_reveal oneSafeCell
      (Reachable.create ⟨2, 1, 1⟩ [(0, 0)] oneSafeCell oneSafeCell_create)).2.1 1 0).1,
    ⟨by decide, by decide, by decide, by decide, by decide, by decide⟩,
    (won_only_by_reveal oneSafeCell
      (Reachable.create ⟨2, 1, 1⟩ [(0, 0)] oneSafeCell oneSafeCell_create)).2.2 1 0
        (by decide) (by decide) (by decide) (by decide) (by decide) (by decide)⟩

/-- C14: on the 2 × 2 board with one hazard in any cell `h`, built by the constructor (and
rebuilt identically by `reset`), for every order `c1`, `c2`, `c3` of the three other cells:
each of them has a stored count and a `getMineCount` of at least one, each primary action
returns and reveals only the clicked cell, the game is in progress after the first and
after the second reveal and won (not lost) after the third. -/
theorem twoByTwo_three_reveals (h c1 c2 c3 : Fin 2 × Fin 2) (hc : OtherThree h c1 c2 c3) :
    ∃ b0 b1 b2 b3 : Board,
      create2x2 h = some b0 ∧ b0.reset [((h.1 : Nat), (h.2 : Nat))] = some b0 ∧
      b0.columns = 2 ∧ b0.rows = 2 ∧ b0.mines = 1 ∧
      b0.hazardCount = 1 ∧ b0.mine (col2 h) (row2 h) = true ∧
      b0.gameWon = false ∧ b0.gameLost = false ∧
      (∀ d : Fin 2 × Fin 2, (b0.tile (col2 d) (row2 d)).getState = TileState.Hidden) ∧
      (1 ≤ b0.adj (col2 c1) (row2 c1) ∧ 1 ≤ b0.adj (col2 c2) (row2 c2) ∧
        1 ≤ b0.adj (col2 c3) (row2 c3)) ∧
      (1 ≤ b0.getMineCount (col2 c1) (row2 c1) ∧ 1 ≤ b0.getMineCount (col2 c2) (row2 c2) ∧
        1 ≤ b0.getMineCount (col2 c3) (row2 c3)) ∧
      b0.handleLeftClick (col2 c1) (row2 c1) = some b1 ∧ RevealsOnly b0 b1 c1 ∧
      b1.gameWon = false ∧ b1.gameLost = false ∧
      b1.handleLeftClick (col2 c2) (row2 c2) = some b2 ∧ RevealsOnly b1 b2 c2 ∧
      b2.gameWon = false ∧ b2.gameLost = false ∧
      b2.handleLeftClick (col2 c3) (row2 c3) = some b3 ∧ RevealsOnly b2 b3 c3 ∧
      b3.gameWon = true ∧ b3.gameLost = false := by
  refine ⟨(create2x2 h).getD demoBoard,
    ((create2x2 h).getD demoBoard).afterLeftClick c1,
    (((create2x2 h).getD demoBoard).afterLeftClick c1).afterLeftClick c2,
    ((((create2x2 h).getD demoBoard).afterLeftClick c1).afterLeftClick c2).afterLeftClick c3,
    ?_⟩
  revert h c1 c2 c3
  decide

theorem twoByTwo_three_reveals_witness :
    OtherThree (1, 0) (0, 0) (1, 1) (0, 1) ∧
      ((((create2x2 (1, 0)).bind (fun b => b.handleLeftClick 0 0)).bind
        (fun b => b.handleLeftClick 1 1)).bind (fun b => b.handleLeftClick 0 1)).map
          (fun b => b.gameWon) = some true := by
  refine ⟨by decide, ?_⟩
  obtain ⟨b0, b1, b2, b3, h0, _, _, _, _, _, _, _, _, _, _, _, h1, _, _, _, h2, _, _, _, h3,
    _, h4, _⟩ := twoByTwo_three_reveals (1, 0) (0, 0) (1, 1) (0, 1) (by decide)
  rw [h0, Option.some_bind]
  have e1 : b0.handleLeftClick 0 0 = some b1 := h1
  have e2 : b1.handleLeftClick 1 1 = some b2 := h2
  have e3 : b2.handleLeftClick 0 1 = some b3 := h3
  rw [e1, Option.some_bind, e2, Option.some_bind, e3, Option.map_some', h4]

theorem SameLayout.chain {a b c : Board} (h1 : SameLayout a b) (h2 : SameLayout b c) :
    SameLayout a c :=
  ⟨h2.1.trans h1.1, h2.2.1.trans h1.2.1, h2.2.2.1.trans h1.2.2.1,
    h2.2.2.2.1.trans h1.2.2.2.1, h2.2.2.2.2.1.trans h1.2.2.2.2.1,
    h2.2.2.2.2.2.trans h1.2.2.2.2.2⟩

theorem visitAll_layout (n : Nat)
    (ih : ∀ (b : Board) (x y : Int) (b' : Board),
      b.revealEmptyTilesFuel n x y = some b' → SameLayout b b') :
    ∀ (ps : List (Int × Int)) (acc b' : Board),
      ps.foldlM (Board.visit n) acc = some b' → SameLayout acc b' := by
  intro ps
  induction ps with
  | nil =>
    intro acc b' h
    simp only [List.foldlM_nil] at h
    have e : acc = b' := Option.some.inj h
    rw [e]; exact SameLayout.same b'
  | cons p ps ihps =>
    intro acc b' h
    rw [List.foldlM_cons] at h
    cases hv : Board.visit n acc p with
    | none => rw [hv] at h; simp at h
    | some c =>
      rw [hv] at h
      have hc : SameLayout acc c := by
        unfold Board.visit at hv
        by_cases hg : acc.inBounds p.1 p.2 ∧ acc.mine p.1 p.2 = false
        · simp only [hg, and_self, if_true] at hv
          exact ih _ _ _ _ hv
        · simp only [hg, if_false] at hv
          have e : acc = c := Option.some.inj hv
          rw [e]; exact SameLayout.same c
      exact hc.chain (ihps c b' (by simpa using h))

/-- The flood fill writes to the tile table only, on every board and for every bound of the
recursion. -/
theorem revealEmptyTilesFuel_layout (n : Nat) :
    ∀ (b : Board) (x y : Int) (b' : Board),
      b.revealEmptyTilesFuel n x y = some b' → SameLayout b b' := by
  induction n with
  | zero => intro b x y b' h; simp [Board.revealEmptyTilesFuel] at h
  | succ n ih =>
    intro b x y b' h
    rw [revealEmptyTilesFuel_succ] at h
    by_cases hg : ¬ b.inBounds x y ∨ (b.tile x y).getState ≠ TileState.Hidden
    · simp only [hg, if_true] at h
      have e : b = b' := Option.some.inj h
      rw [e]; exact SameLayout.same b'
    · simp only [hg, if_false] at h
      by_cases hz : b.getMineCount x y = 0
      · simp only [hz, if_true] at h
        exact SameLayout.chain (b := b.setTile x y TileState.Revealed (b.adj x y))
          ⟨rfl, rfl, rfl, rfl, rfl, rfl⟩ (visitAll_layout n ih _ _ _ h)
      · simp only [hz, if_false] at h
        have e : b.setTile x y TileState.Revealed (b.adj x y) = b' := Option.some.inj h
        rw [← e]; exact ⟨rfl, rfl, rfl, rfl, rfl, rfl⟩

theorem checkWin_layout (r : Board) : SameLayout r r.checkWin := by
  unfold Board.checkWin
  split
  · exact ⟨rfl, rfl, rfl, rfl, rfl, rfl⟩
  · exact SameLayout.same r

/-- A primary action writes to the tile table and to the outcome flags only, on every
board. -/
theorem handleLeftClick_layout (b : Board) (x y : Int) (b' : Board)
    (h : b.handleLeftClick x y = some b') : SameLayout b b' := by
  unfold Board.handleLeftClick at h
  have same : ∀ {c : Board}, some b = some c → SameLayout b c := by
    intro c e
    have e' : b = c := Option.some.inj e
    rw [← e']; exact SameLayout.same b
  by_cases hxy : b.inBounds x y
  · simp only [hxy, if_true] at h
    by_cases ht : b.gameWon = true ∨ b.gameLost = true
    · simp only [ht, if_true] at h; exact same h
    · simp only [ht, if_false] at h
      by_cases hh : (b.tile x y).getState = TileState.Hidden
      · simp only [hh, if_true] at h
        by_cases hm : b.mine x y = true
        · simp only [hm, if_true] at h
          have e := Option.some.inj h
          rw [← e]; exact ⟨rfl, rfl, rfl, rfl, rfl, rfl⟩
        · simp only [hm, Bool.false_eq_true, if_false] at h
          by_cases hz : b.getMineCount x y = 0
          · simp only [hz, if_true] at h
            cases hr : b.revealEmptyTiles x y with
            | none => rw [hr] at h; simp at h
            | some r =>
              rw [hr] at h
              simp only [Option.map_some', Option.some.injEq] at h
              rw [← h]
              exact (revealEmptyTilesFuel_layout _ b x y r hr).chain (checkWin_layout r)
          · simp only [hz, if_false, Option.map_some', Option.some.injEq] at h
            rw [← h]
            exact SameLayout.chain (b := b.setTile x y TileState.Revealed (b.adj x y))
              ⟨rfl, rfl, rfl, rfl, rfl, rfl⟩ (checkWin_layout _)
      · simp only [hh, if_false] at h; exact same h
  · simp only [hxy, if_false] at h; exact same h

/-- On a well-formed board a primary action returns. -/
theorem handleLeftClick_isSome (b : Board) (x y : Int)
    (hd : Dims b.grid b.columns b.rows) : (b.handleLeftClick x y).isSome = true := by
  unfold Board.handleLeftClick
  obtain ⟨r, hr⟩ := revealEmptyTiles_isSome b x y hd
  split
  · split
    · rfl
    · split
      · split
        · rfl
        · split
          · rw [hr]; rfl
          · rfl
      · rfl
  · rfl

theorem handleDebugClick_layout (b : Board) : SameLayout b b.handleDebugClick := by
  unfold Board.handleDebugClick
  split
  · exact SameLayout.same b
  · split
    · exact ⟨rfl, rfl, rfl, rfl, rfl, rfl⟩
    · exact ⟨rfl, rfl, rfl, rfl, rfl, rfl⟩

/-- A reset keeps `columns`, `rows` and `originalMines`. -/
theorem reset_dims (b : Board) (rs : List (Nat × Nat)) (b' : Board)
    (h : b.reset rs = some b') :
    b'.columns = b.columns ∧ b'.rows = b.rows ∧ b'.originalMines = b.originalMines := by
  rw [reset_eq] at h
  cases hp : b.resetStart.initializeBoard.placeMines rs with
  | none => rw [hp] at h; simp at h
  | some p =>
    rw [hp] at h
    simp only [Option.map_some', Option.some.injEq] at h
    obtain ⟨hm', e, _⟩ := placeMines_some hp
    rw [← h, e]
    exact ⟨rfl, rfl, rfl⟩

/-- A layout load keeps `columns`, `rows` and `originalMines`. -/
theorem initializeBoardFromLayout_dims (b : Board) (boardLayout : List (List Bool))
    (b' : Board) (h : b.initializeBoardFromLayout boardLayout = some b') :
    b'.columns = b.columns ∧ b'.rows = b.rows ∧ b'.originalMines = b.originalMines := by
  unfold Board.initializeBoardFromLayout at h
  simp only [Option.map_eq_some'] at h
  obtain ⟨s, _, e⟩ := h
  rw [← e]
  exact ⟨rfl, rfl, rfl⟩

/-- C21: on every board, a primary action, a secondary action and a debug toggle keep
`hasMine`, `adjacentMineCounts`, `columns`, `rows`, `mines` and `originalMines` (and the
primary action returns when the tile table has the board's dimensions); a reset, a click on
the face, a layout load and a test-board click keep `columns`, `rows` and
`originalMines`. -/
theorem layout_immutable (b : Board) (x y : Int) (rs : List (Nat × Nat))
    (boardLayout : List (List Bool)) :
    (∀ b', b.handleLeftClick x y = some b' → SameLayout b b') ∧
      (Dims b.grid b.columns b.rows → (b.handleLeftClick x y).isSome = true) ∧
      SameLayout b (b.handleRightClick x y) ∧
      SameLayout b b.handleDebugClick ∧
      (∀ b', b.reset rs = some b' →
        b'.columns = b.columns ∧ b'.rows = b.rows ∧ b'.originalMines = b.originalMines) ∧
      (∀ b', b.handleFaceClick rs = some b' →
        b'.columns = b.columns ∧ b'.rows = b.rows ∧ b'.originalMines = b.originalMines) ∧
      (∀ b', b.initializeBoardFromLayout boardLayout = some b' →
        b'.columns = b.columns ∧ b'.rows = b.rows ∧ b'.originalMines = b.originalMines) ∧
      (∀ b', b.handleTestClick rs boardLayout = some b' →
        b'.columns = b.columns ∧ b'.rows = b.rows ∧ b'.originalMines = b.originalMines) := by
  refine ⟨handleLeftClick_layout b x y, handleLeftClick_isSome b x y,
    rightClick_sameLayout b x y, handleDebugClick_layout b, reset_dims b rs, ?_,
    initializeBoardFromLayout_dims b boardLayout, ?_⟩
  · intro b' h
    unfold Board.handleFaceClick at h
    cases hr : b.reset rs with
    | none => rw [hr] at h; simp at h
    | some b1 =>
      rw [hr] at h
      simp only [Option.map_some', Option.some.injEq] at h
      rw [← h]
      exact reset_dims b rs b1 hr
  · intro b' h
    unfold Board.handleTestClick at h
    cases hr : b.reset rs with
    | none => rw [hr] at h; simp at h
    | some b1 =>
      rw [hr] at h
      simp only [Option.some_bind] at h
      obtain ⟨r1, r2, r3⟩ := reset_dims b rs b1 hr
      obtain ⟨l1, l2, l3⟩ := initializeBoardFromLayout_dims b1 boardLayout b' h
      exact ⟨l1.trans r1, l2.trans r2, l3.trans r3⟩

theorem layout_immutable_witness :
    demoBoard.handleLeftClick 1 1 = some openedDemo ∧
      Dims demoBoard.grid demoBoard.columns demoBoard.rows ∧
      demoBoard.handleTestClick [(0, 0)]
        [[false, true, false], [false, false, false], [false, false, true]] =
          some loadedDemo ∧
      SameLayout demoBoard openedDemo ∧ (demoBoard.handleLeftClick 1 1).isSome = true ∧
      (loadedDemo.columns = demoBoard.columns ∧ loadedDemo.rows = demoBoard.rows ∧
        loadedDemo.originalMines = demoBoard.originalMines) ∧
      loadedDemo.mines = 2 ∧ loadedDemo.hasMine ≠ demoBoard.hasMine :=
  ⟨by decide, demoBoard_wf.grid, by decide,
    (layout_immutable demoBoard 1 1 [(0, 0)]
      [[false, true, false], [false, false, false], [false, false, true]]).1 openedDemo
        (by decide),
    (layout_immutable demoBoard 1 1 [(0, 0)]
      [[false, true, false], [false, false, false], [false, false, true]]).2.1
        demoBoard_wf.grid,
    (layout_immutable demoBoard 1 1 [(0, 0)]
      [[false, true, false], [false, false, false], [false, false, true]]).2.2.2.2.2.2.2
        loadedDemo (by decide),
    by decide, by decide⟩

/-- C22 (evaluation at the failing input): the session with the hazard cell `(0, 0)` flagged,
after debug mode was switched on and off again, is a session state in progress with no
`Flag` tile on the board and `flagsPlaced = 1`, so `getRemainingMines` is `0` and not
`mines` minus the number of flags; the counts already differ while debug mode is on. -/
theorem debug_toggle_miscounts :
    Reachable flaggedDemo.handleDebugClick.handleDebugClick ∧
      flaggedDemo.flagCount = 1 ∧ flaggedDemo.flagsPlaced = 1 ∧
      flaggedDemo.handleDebugClick.flagCount = 0 ∧
      flaggedDemo.handleDebugClick.flagsPlaced = 1 ∧
      flaggedDemo.handleDebugClick.handleDebugClick.gameWon = false ∧
      flaggedDemo.handleDebugClick.handleDebugClick.gameLost = false ∧
      flaggedDemo.handleDebugClick.handleDebugClick.isDebugMode = false ∧
      flaggedDemo.handleDebugClick.handleDebugClick.flagCount = 0 ∧
      flaggedDemo.handleDebugClick.handleDebugClick.flagsPlaced = 1 ∧
      flaggedDemo.handleDebugClick.handleDebugClick.mines = 1 ∧
      flaggedDemo.handleDebugClick.handleDebugClick.getRemainingMines = 0 :=
  ⟨Reachable.debugClick _ (Reachable.debugClick _ flaggedDemo_reachable),
    by decide, by decide, by decide, by decide, by decide, by decide, by decide, by decide,
    by decide, by decide, by decide⟩

/-- In every session state a `Revealed` tile carries the stored count of its cell, and the
cell holds no hazard. -/
theorem Reachable.revealed_clean {b : Board} (h : Reachable b) :
    ∀ x y : Int, b.inBounds x y → (b.tile x y).getState = TileState.Revealed →
      (b.tile x y).number = b.adj x y ∧ b.mine x y = false := by
  refine Reachable.play_induction
    (P := fun b => ∀ x y : Int, b.inBounds x y →
      (b.tile x y).getState = TileState.Revealed →
      (b.tile x y).number = b.adj x y ∧ b.mine x y = false) ?_ ?_ ?_ h
  · intro b hf x y hxy hs
    rw [hf.2.2.2.2.1 x y hxy] at hs
    exact absurd hs (by simp [Tile.getState])
  · intro b b' _ ih hm x y hxy hs
    have hxy' := (hm.1.inBounds x y).1 hxy
    rw [hm.1.mine, hm.1.adj]
    rcases hm.2.2.2.2 x y hxy' with e | ⟨_, m, e⟩ | ⟨_, e⟩ | ⟨_, _, e⟩ | ⟨_, e⟩
    · rw [e] at hs ⊢; exact ih x y hxy' hs
    · rw [e]; exact ⟨rfl, m⟩
    · rw [e] at hs; exact absurd hs (by simp [Tile.getState])
    · rw [e] at hs; exact absurd hs (by simp [Tile.getState])
    · rw [e] at hs; exact absurd hs (by simp [Tile.getState])
  · intro b x y hr ih i j hij hs
    have hl := rightClick_sameLayout b x y
    have hij' := (hl.inBounds i j).1 hij
    rw [hl.mine, hl.adj]
    rcases rightClick_tile b x y hr.inv.1.grid i j hij' with e | e | e
    · rw [e] at hs ⊢; exact ih i j hij' hs
    · rw [e] at hs; exact absurd hs (by simp [Tile.getState])
    · rw [e] at hs; exact absurd hs (by simp [Tile.getState])

/-- A flood fill started on a hazard-free cell leaves the tile of every hazard cell as it
was. -/
theorem revealEmptyTiles_skips_hazards (b : Board) (hd : Dims b.grid b.columns b.rows)
    (x y : Int) (b' : Board) (hm : b.mine x y = false)
    (h : b.revealEmptyTiles x y = some b') :
    ∀ i j : Int, b.inBounds i j → b.mine i j = true → b'.tile i j = b.tile i j := by
  have hs := revealEmptyTilesFuel_spec b (b.columns * b.rows + 1) b.grid x y b' hd hm
    (by rw [withGrid_self]; exact h)
  obtain ⟨g', e, hx, _, _, hch⟩ := hs
  intro i j hij hmine
  subst e
  rcases hx.2 (i, j) hij with k | ⟨k1, k2⟩
  · exact k
  · have hc : Changed b b.grid g' (i, j) := ⟨hij, k1, by rw [k2]; simp [Tile.getState]⟩
    have := (hch (i, j) hc).1
    rw [hmine] at this
    exact absurd this (by simp)

/-- C23: in every session state every in-bounds `Revealed` tile lies on a hazard-free cell;
a flood fill started on a hazard-free cell returns and leaves the tile of every hazard cell
as it was; and the load of a rectangular layout leaves every tile concealed. -/
theorem revealed_is_safe (b : Board) (h : Reachable b) :
    (∀ x y : Int, b.inBounds x y → (b.tile x y).getState = TileState.Revealed →
      b.mine x y = false) ∧
    (∀ x y : Int, b.mine x y = false →
      ∃ b', b.revealEmptyTiles x y = some b' ∧
        ∀ i j : Int, b.inBounds i j → b.mine i j = true → b'.tile i j = b.tile i j) ∧
    (∀ (rs : List (Nat × Nat)) (boardLayout : List (List Bool)) (b' : Board),
      RectLayout boardLayout b.rows b.columns →
      b.handleTestClick rs boardLayout = some b' →
      ∀ x y : Int, b'.inBounds x y → b'.tile x y = ⟨TileState.Hidden, 0⟩) := by
  refine ⟨fun x y hxy hs => (h.revealed_clean x y hxy hs).2, ?_, ?_⟩
  · intro x y hm
    obtain ⟨b', hb'⟩ := revealEmptyTiles_isSome b x y h.inv.1.grid
    exact ⟨b', hb', revealEmptyTiles_skips_hazards b h.inv.1.grid x y b' hm hb'⟩
  · intro rs boardLayout b' hrect hb' x y hxy
    exact (testClick_fresh b rs boardLayout b' hrect hb').2.2.2.2.1 x y hxy

theorem revealed_is_safe_witness :
    Reachable openedDemo ∧ openedDemo.inBounds 1 1 ∧
      (openedDemo.tile 1 1).getState = TileState.Revealed ∧ openedDemo.mine 1 1 = false ∧
      openedDemo.mine 2 2 = false ∧
      (∃ b', openedDemo.revealEmptyTiles 2 2 = some b' ∧
        ∀ i j : Int, openedDemo.inBounds i j → openedDemo.mine i j = true →
          b'.tile i j = openedDemo.tile i j) ∧
      RectLayout [[false, true, false], [false, false, false], [false, false, true]]
        openedDemo.rows openedDemo.columns ∧
      openedDemo.handleTestClick [(0, 0)]
        [[false, true, false], [false, false, false], [false, false, true]] =
          some loadedDemo ∧
      loadedDemo.inBounds 1 1 ∧ loadedDemo.tile 1 1 = ⟨TileState.Hidden, 0⟩ :=
  ⟨openedDemo_reachable, by decide, by decide,
    (revealed_is_safe openedDemo openedDemo_reachable).1 1 1 (by decide) (by decide),
    by decide,
    (revealed_is_safe openedDemo openedDemo_reachable).2.1 2 2 (by decide),
    ⟨rfl, by decide⟩, by decide, by decide,
    (revealed_is_safe openedDemo openedDemo_reachable).2.2 [(0, 0)]
      [[false, true, false], [false, false, false], [false, false, true]] loadedDemo
      ⟨rfl, by decide⟩ (by decide) 1 1 (by decide)⟩

theorem neighbourHazards_le (b : Board) (x y : Int) : b.neighbourHazards x y ≤ 8 := by
  unfold Board.neighbourHazards
  exact List.countP_le_length _

theorem SameLayout.keepsCounts {b b' : Board} (h : SameLayout b b')
    (hb : b.CountsInRange) : b'.CountsInRange := by
  intro x y hxy
  rw [h.adj]
  exact hb x y ((h.inBounds x y).1 hxy)

/-- The stored counts of a freshly generated board are in range: hazard-free cells hold the
number of their hazard neighbours and hazard cells hold the `0` of the `resize`. -/
theorem generate_countsInRange (b0 : Board) (rs : List (Nat × Nat)) (b' : Board)
    (hgrid : Dims b0.grid b0.columns b0.rows)
    (hshape : ∀ col ∈ b0.hasMine, col.length = b0.rows)
    (hclear : ∀ x y, at2 b0.hasMine x y = false) (hadj : b0.adjacentMineCounts = [])
    (h : (b0.initializeBoard.placeMines rs).map Board.countAdjacentMines = some b') :
    b'.CountsInRange := by
  obtain ⟨g1, g2, _, _, _, _, _, _, _, _, _, g12, g13⟩ :=
    generate_result b0 rs b' hgrid hshape hclear hadj h
  intro x y hxy
  have hxy0 : b0.inBounds x y := by
    unfold Board.inBounds at hxy ⊢
    rw [g1, g2] at hxy; exact hxy
  cases hm : b'.mine x y with
  | false =>
    rw [g12 x y hxy0 hm]
    have := neighbourHazards_le b' x y
    omega
  | true =>
    rw [g13 x y hxy0 hm]
    omega

/-- The count table is not cleared by `countAdjacentMines`: a hazard cell keeps the count it
had before. -/
theorem countAdjacentMines_stale (b : Board)
    (hd : Dims b.adjacentMineCounts b.columns b.rows) (x y : Int) (hxy : b.inBounds x y)
    (hm : b.mine x y = true) : b.countAdjacentMines.adj x y = b.adj x y := by
  obtain ⟨_, hval⟩ := countAdjacentMines_spec b hd.2
  have hx := Board.inBounds.toNat_lt hxy
  have := hval x.toNat y.toNat hx.1 hx.2
  unfold Board.adj
  rw [this]
  have hm' : at2 b.hasMine x.toNat y.toNat = true := hm
  rw [hm', resize_of_length _ _ _ hd.1]
  simp

/-- A layout load keeps the stored count of every cell that holds a hazard afterwards. -/
theorem initializeBoardFromLayout_stale (b : Board) (boardLayout : List (List Bool))
    (b' : Board) (hd : Dims b.adjacentMineCounts b.columns b.rows)
    (h : b.initializeBoardFromLayout boardLayout = some b') :
    ∀ x y : Int, b.inBounds x y → b'.mine x y = true → b'.adj x y = b.adj x y := by
  unfold Board.initializeBoardFromLayout at h
  simp only [Option.map_eq_some'] at h
  obtain ⟨s, _, e⟩ := h
  intro x y hxy hm
  rw [← e] at hm ⊢
  exact countAdjacentMines_stale { b.initializeBoard with hasMine := s.1 } hd x y hxy hm

/-- In every session state the stored count of every in-bounds cell lies between `0` and
`8`. -/
theorem Reachable.countsInRange {b : Board} (h : Reachable b) : b.CountsInRange := by
  induction h with
  | create config rs b hb =>
    exact generate_countsInRange (Board.createStart config) rs b
      (Dims_resize [] _ _ _ (by simp)) (by intro col hcol; simp [Board.createStart] at hcol)
      (fun x y => at2_nil_false x y) rfl hb
  | leftClick b x y b' _ hb ih => exact (handleLeftClick_layout b x y b' hb).keepsCounts ih
  | rightClick b x y _ ih => exact (rightClick_sameLayout b x y).keepsCounts ih
  | debugClick b _ ih => exact (handleDebugClick_layout b).keepsCounts ih
  | faceClick b rs b' _ hb _ =>
    unfold Board.handleFaceClick at hb
    cases hr : b.reset rs with
    | none => rw [hr] at hb; simp at hb
    | some b1 =>
      rw [hr] at hb
      simp only [Option.map_some', Option.some.injEq] at hb
      have h1 : b1.CountsInRange :=
        generate_countsInRange b.resetStart rs b1 (resetStart_grid b) (resetStart_shape b)
          (resetStart_clear b) rfl hr
      rw [← hb]
      exact SameLayout.keepsCounts (b := b1) ⟨rfl, rfl, rfl, rfl, rfl, rfl⟩ h1
  | testClick b rs boardLayout b' _ hrect hb _ =>
    have hfresh := testClick_fresh b rs boardLayout b' hrect hb
    unfold Board.handleTestClick at hb
    cases hr : b.reset rs with
    | none => rw [hr] at hb; simp at hb
    | some b1 =>
      rw [hr] at hb
      simp only [Option.some_bind] at hb
      have h1 : b1.CountsInRange :=
        generate_countsInRange b.resetStart rs b1 (resetStart_grid b) (resetStart_shape b)
          (resetStart_clear b) rfl hr
      have w1 := (reset_fresh b rs b1 hr).1
      obtain ⟨d1, d2, _⟩ := initializeBoardFromLayout_dims b1 boardLayout b' hb
      intro x y hxy
      have hxy1 : b1.inBounds x y := by
        unfold Board.inBounds at hxy ⊢
        rw [d1, d2] at hxy; exact hxy
      cases hm : b'.mine x y with
      | false =>
        rw [hfresh.2.2.2.2.2.2 x y hxy hm]
        have := neighbourHazards_le b' x y
        omega
      | true =>
        rw [initializeBoardFromLayout_stale b1 boardLayout b' w1.adjacentMineCounts hb x y
          hxy1 hm]
        exact h1 x y hxy1

theorem loadedDemo_reachable : Reachable loadedDemo :=
  Reachable.testClick demoBoard [(0, 0)]
    [[false, true, false], [false, false, false], [false, false, true]] loadedDemo
    demoBoard_reachable ⟨rfl, by decide⟩ (by decide)

/-- C24: in every session state (after generation in either mode and after any play, a
layout load on top of a random board included) the stored count of every in-bounds cell
lies in `[0, 8]`; `getMineCount` is the number of in-bounds hazard neighbours plus one if
the cell itself holds a hazard; and for a hazard-free cell the stored count equals
`getMineCount` and the number of in-bounds hazard neighbours. -/
theorem stored_counts (b : Board) (h : Reachable b) :
    ∀ x y : Int, b.inBounds x y →
      (0 ≤ b.adj x y ∧ b.adj x y ≤ 8) ∧
      b.getMineCount x y =
        (b.neighbourHazards x y : Int) + (if b.mine x y = true then 1 else 0) ∧
      (b.mine x y = false →
        b.adj x y = b.getMineCount x y ∧ b.adj x y = (b.neighbourHazards x y : Int)) := by
  intro x y hxy
  refine ⟨h.countsInRange x y hxy, ?_, ?_⟩
  · rw [getMineCount_eq_neighbourHazards]
    simp only [hxy, true_and]
  · intro hm
    have := h.layoutOK.2 x y hxy hm
    rw [getMineCount_of_clear b x y hm]
    exact ⟨this, this⟩

theorem stored_counts_witness :
    Reachable loadedDemo ∧ loadedDemo.inBounds 1 0 ∧ loadedDemo.mine 1 0 = true ∧
      loadedDemo.adj 1 0 = 1 ∧ loadedDemo.neighbourHazards 1 0 = 0 ∧
      (0 ≤ loadedDemo.adj 1 0 ∧ loadedDemo.adj 1 0 ≤ 8) ∧
      loadedDemo.inBounds 1 1 ∧ loadedDemo.mine 1 1 = false ∧
      (loadedDemo.adj 1 1 = loadedDemo.getMineCount 1 1 ∧
        loadedDemo.adj 1 1 = (loadedDemo.neighbourHazards 1 1 : Int)) :=
  ⟨loadedDemo_reachable, by decide, by decide, by decide, by decide,
    (stored_counts loadedDemo loadedDemo_reachable 1 0 (by decide)).1,
    by decide, by decide,
    (stored_counts loadedDemo loadedDemo_reachable 1 1 (by decide)).2.2 (by decide)⟩

end Minesweeper
